import Mathlib

/-!
Verification of the core reasoning machinery of the aries constraint solver
against its specification.  The Lean definitions below are a shallow
embedding of the Rust sources:

* `src/cp/core/src/lit.rs` (bit-packed literals and their order),
* `src/model/src/bounds/var_bound.rs` (variable-bound encoding),
* `src/tnet/src/stn.rs` (STN edges, directed constraints, propagation),
* `src/model/src/int_model.rs` (domain store, trail, conflict analysis),
* `src/backtrack/src/queues.rs` (observable trail and cursors).

Machine integers (`i32` weights and bound values) are modelled as `Int`
with an explicit 32-bit wrap applied where the Rust code performs `i32`
arithmetic whose overflow behaviour matters.
-/

/-- Two-complement wrap of an integer into the `i32` range, modelling Rust
`i32` wrapping arithmetic. -/
def wrap32 (x : Int) : Int := (x + 2 ^ 31) % 2 ^ 32 - 2 ^ 31

/-- Encoding of the upper bound of a variable, from `VarBound::ub`:
`(u32::from(v) << 1) + 1`. -/
def vbUb (v : Nat) : Nat := (2 * v + 1) % 2 ^ 32

/-- Encoding of the lower bound of a variable, from `VarBound::lb`:
`u32::from(v) << 1`. -/
def vbLb (v : Nat) : Nat := (2 * v) % 2 ^ 32

/-- Test from `VarBound::is_ub`: `(self.0 & 0x1) == 1`. -/
def vbIsUb (vb : Nat) : Bool := vb % 2 == 1

/-- Variable of a variable-bound, from `VarBound::variable`: `self.0 >> 1`. -/
def vbVariable (vb : Nat) : Nat := vb / 2

/-- Modelled from the spec: `symmetric_bound(vb) = vb ^ 1` flips the side of
a variable bound (the implementation of `symmetric_bound` is not part of the
provided sources; the spec defines the encoding explicitly). -/
def vbSymm (vb : Nat) : Nat := vb ^^^ 1

/-- Modelled from the spec: a `BoundValue` carries the numeric bound with
lower-bound values stored negated ("for a lower bound `x ≥ k`, the stored
raw value is `−k`"); the raw value is an `i32`.  `BoundValue::ub`. -/
def bvUb (v : Int) : Int := wrap32 v

/-- Modelled from the spec: `BoundValue::lb` stores the negation of the
lower bound. -/
def bvLb (v : Int) : Int := wrap32 (-v)

/-- Modelled from the spec: `BoundValue::as_ub` reads back an upper bound. -/
def bvAsUb (raw : Int) : Int := raw

/-- Modelled from the spec: `BoundValue::as_lb` reads back a lower bound. -/
def bvAsLb (raw : Int) : Int := wrap32 (-raw)

/-- Modelled from the spec: `BoundValue::neg` maps the raw value of
`var ≤ k` to the raw value of `var ≥ k+1` and conversely (the bitwise
complement on `i32`), so that `Lit::not` flips a literal. -/
def bvNeg (raw : Int) : Int := wrap32 (-raw - 1)

/-- Modelled from the spec: "bound A strengthens bound B iff
`raw_value(A) ≤ raw_value(B)`" (`BoundValue::stronger`). -/
def bvStronger (a b : Int) : Bool := a ≤ b

/-- Relation of a literal, from `lit.rs`: `enum Relation { Gt, Leq }`. -/
inductive Relation where
  | Gt : Relation
  | Leq : Relation
deriving DecidableEq, Repr

/-- A literal, from `lit.rs`: a packed `(VarBound, BoundValue)` pair. -/
structure Lit where
  varBound : Nat
  rawValue : Int
deriving DecidableEq, Repr

/-- Construction from `Lit::new`: `Leq` stores the value on the upper
bound, `Gt` stores `value + 1` (an `i32` addition) on the lower bound. -/
def litNew (v : Nat) (relation : Relation) (value : Int) : Lit :=
  match relation with
  | Relation.Leq => { varBound := vbUb v, rawValue := bvUb value }
  | Relation.Gt => { varBound := vbLb v, rawValue := bvLb (wrap32 (value + 1)) }

/-- Shorthand `Lit::leq`. -/
def litLeq (v : Nat) (value : Int) : Lit := litNew v Relation.Leq value

/-- Shorthand `Lit::gt`. -/
def litGt (v : Nat) (value : Int) : Lit := litNew v Relation.Gt value

/-- Shorthand `Lit::geq`: `gt(var, val - 1)` with an `i32` subtraction. -/
def litGeq (v : Nat) (value : Int) : Lit := litGt v (wrap32 (value - 1))

/-- Variable of a literal, from `Lit::variable`. -/
def litVariable (l : Lit) : Nat := vbVariable l.varBound

/-- Relation of a literal, from `Lit::relation`. -/
def litRelation (l : Lit) : Relation :=
  if vbIsUb l.varBound then Relation.Leq else Relation.Gt

/-- Value of a literal, from `Lit::value`: for `Leq` the raw upper bound,
for `Gt` the decoded lower bound minus one (an `i32` subtraction). -/
def litValue (l : Lit) : Int :=
  match litRelation l with
  | Relation.Leq => bvAsUb l.rawValue
  | Relation.Gt => wrap32 (bvAsLb l.rawValue - 1)

/-- Negation from `Lit::not`: flip the variable-bound side and negate the
raw value. -/
def litNot (l : Lit) : Lit :=
  { varBound := vbSymm l.varBound, rawValue := bvNeg l.rawValue }

/-- Entailment from `Lit::entails`: same variable-bound and a raw value at
least as strong. -/
def litEntails (a b : Lit) : Bool :=
  a.varBound == b.varBound && bvStronger a.rawValue b.rawValue

/-- Unpacking from `Lit::unpack`. -/
def litUnpack (l : Lit) : Nat × Relation × Int :=
  (litVariable l, litRelation l, litValue l)

/-- The literal `Lit::TRUE = Lit::new(VarRef::ZERO, Leq, 0)`. -/
def litTRUE : Lit := litNew 0 Relation.Leq 0

/-- The order on literals derived by `#[derive(Ord)]` on `Lit`:
lexicographic on `(var_bound, raw_value)`. -/
def litle (a b : Lit) : Prop :=
  a.varBound < b.varBound ∨ (a.varBound = b.varBound ∧ a.rawValue ≤ b.rawValue)

instance : DecidableRel litle := by
  intro a b
  unfold litle
  infer_instance

instance : IsTotal Lit litle := by
  constructor
  intro a b
  unfold litle
  omega

instance : IsTrans Lit litle := by
  constructor
  intro a b c
  unfold litle
  omega

/-- Sorting a list of literals with the derived total order. -/
def sortLits (l : List Lit) : List Lit := List.insertionSort litle l

/-- Boolean check that every literal of the list entails the literal
immediately to its right. -/
def chainEntails : List Lit → Bool
  | [] => true
  | [_] => true
  | a :: b :: rest => litEntails a b && chainEntails (b :: rest)

/-- Boolean check that all literals of the list pertain to one variable. -/
def allSameVariable : List Lit → Bool
  | [] => true
  | a :: rest => rest.all (fun b => litVariable b == litVariable a)

/-- An STN edge `target - source <= weight`, from `stn.rs`.  Timepoints are
dense variable identifiers; the weight is an `i32` (the STN documents that
the caller must prevent overflow, so the weight is modelled as `Int`). -/
structure Edge where
  source : Nat
  target : Nat
  weight : Int
deriving DecidableEq, Repr

/-- Canonicality from `Edge::is_canonical`:
`source < target || source == target && weight >= 0`. -/
def edgeIsCanonical (e : Edge) : Bool :=
  decide (e.source < e.target) || (e.source == e.target && decide ((0 : Int) ≤ e.weight))

/-- Negation from `Edge::negated`: swap the endpoints and replace the
weight by `-weight - 1`. -/
def edgeNegated (e : Edge) : Edge :=
  { source := e.target, target := e.source, weight := -e.weight - 1 }

/-- Integer domain `[lb, ub]` of a variable, from `int_model.rs`. -/
structure IntDomain where
  lb : Int
  ub : Int
deriving DecidableEq, Repr

/-- Domain event, from `int_model.rs` (`DomEvent`). -/
inductive DomEvent where
  | NewLB (prev nxt : Int)
  | NewUB (prev nxt : Int)
deriving DecidableEq, Repr

/-- Variable event, from `int_model.rs` (`VarEvent`). -/
structure VarEvent where
  var : Nat
  ev : DomEvent
deriving DecidableEq, Repr

/-- Inference metadata, from `int_model.rs` (`InferenceCause`). -/
structure InferenceCause where
  writer : Nat
  payload : Nat
deriving DecidableEq, Repr

/-- Cause of a domain event, from `int_model.rs` (`Cause`). -/
inductive Cause where
  | Decision
  | Inference (cause : InferenceCause)
deriving DecidableEq, Repr

/-- Observable trail from `queues.rs` (`ObsTrail`): an event log with a
stack of backtrack points; `lastBacktrack` stores the `next_read` position
and identifier of the most recent backtrack.  The debug-only random trail
id is omitted (the spec notes it is not required for correctness). -/
structure ObsTrail (V : Type) where
  events : List V
  backtrackPoints : List Nat
  lastBacktrack : Option (Nat × Nat)
deriving DecidableEq, Repr

/-- Empty trail (`ObsTrail::new`). -/
def trailNew (V : Type) : ObsTrail V := { events := [], backtrackPoints := [], lastBacktrack := none }

/-- Append an event (`ObsTrail::push`). -/
def trailPush {V : Type} (q : ObsTrail V) (v : V) : ObsTrail V :=
  { q with events := q.events ++ [v] }

/-- Remove and return the newest event (`ObsTrail::pop`). -/
def trailPopLast {V : Type} (q : ObsTrail V) : Option (V × ObsTrail V) :=
  match q.events.getLast? with
  | none => none
  | some v => some (v, { q with events := q.events.dropLast })

/-- Number of events (`ObsTrail::num_events` / `len`). -/
def trailLen {V : Type} (q : ObsTrail V) : Nat := q.events.length

/-- Current decision level (`ObsTrail::current_decision_level`): the number
of backtrack points on the stack. -/
def trailDecisionLevel {V : Type} (q : ObsTrail V) : Nat := q.backtrackPoints.length

/-- Record a save point (`ObsTrail::save_state`). -/
def trailSaveState {V : Type} (q : ObsTrail V) : ObsTrail V :=
  { q with backtrackPoints := q.backtrackPoints ++ [q.events.length] }

/-- Backward scan of `ObsTrail::last_event_matching` (with the
`keep_going` predicate fixed to always-true, as in the callers of
`int_model.rs`): scan event indices downward, tracking the decision level,
which is decremented after passing an index equal to the save point below
the current level; return the `TrailLoc` of the first event satisfying
`pred`. -/
def lastEventMatchingAux {V : Type} (events : List V) (bps : List Nat) (pred : V → Bool) :
    Nat → Nat → Option (Nat × Nat)
  | _, 0 => none
  | dl, i + 1 =>
    match events.get? i with
    | none => none
    | some e =>
      if pred e then some (dl, i)
      else
        lastEventMatchingAux events bps pred
          (if 0 < dl && bps.get? (dl - 1) == some i then dl - 1 else dl) i

/-- Lookup of `ObsTrail::last_event_matching`, returning the location
`(decision_level, event_index)` of the newest matching event. -/
def lastEventMatching {V : Type} (q : ObsTrail V) (pred : V → Bool) : Option (Nat × Nat) :=
  lastEventMatchingAux q.events q.backtrackPoints pred (trailDecisionLevel q) q.events.length

/-- The discrete domain store, from `int_model.rs` (`DiscreteModel`): a
dense map of variable domains plus the trail of `(VarEvent, Cause)`
records.  The human-readable labels and the expression-interning table are
omitted (no claim mentions them). -/
structure DiscreteModel where
  domains : List IntDomain
  trail : ObsTrail (VarEvent × Cause)
deriving DecidableEq, Repr

/-- From `DiscreteModel::set_lb`: if the new lower bound is strictly
greater than the current one, update the domain and push a `NewLB` event
with the previous value; otherwise do nothing.  The function returns no
error of any kind; `none` models only the panic on an out-of-range
variable (the `self.domains[var]` indexing). -/
def setLb (m : DiscreteModel) (var : Nat) (lb : Int) (cause : Cause) : Option DiscreteModel :=
  match m.domains.get? var with
  | none => none
  | some dom =>
    if dom.lb < lb then
      some { domains := m.domains.set var { dom with lb := lb },
             trail := trailPush m.trail ({ var := var, ev := DomEvent.NewLB dom.lb lb }, cause) }
    else
      some m

/-- From `DiscreteModel::set_ub`, symmetric to `setLb`. -/
def setUb (m : DiscreteModel) (var : Nat) (ub : Int) (cause : Cause) : Option DiscreteModel :=
  match m.domains.get? var with
  | none => none
  | some dom =>
    if ub < dom.ub then
      some { domains := m.domains.set var { dom with ub := ub },
             trail := trailPush m.trail ({ var := var, ev := DomEvent.NewUB dom.ub ub }, cause) }
    else
      some m

/-- Modelled from the spec: the literal type of the conflict-analysis
module (`ILit`, from the `explanation` submodule whose source is not
provided): `var ≤ val` or `var > val`. -/
inductive ILit where
  | LEQ (var : Nat) (val : Int)
  | GT (var : Nat) (val : Int)
deriving DecidableEq, Repr

/-- Modelled from the spec: negation of an `ILit` swaps `≤ k` and `> k`. -/
def iLitNot : ILit → ILit
  | ILit.LEQ v k => ILit.GT v k
  | ILit.GT v k => ILit.LEQ v k

/-- From `DiscreteModel::entails`: `var ≤ k` holds when `ub ≤ k`,
`var > k` holds when `lb > k`.  (Out-of-range variables use a dummy
domain; every claim constrains variables to be in range.) -/
def dmEntails (m : DiscreteModel) (lit : ILit) : Bool :=
  match lit with
  | ILit.LEQ v k => decide ((m.domains.getD v { lb := 0, ub := 0 }).ub ≤ k)
  | ILit.GT v k => decide ((m.domains.getD v { lb := 0, ub := 0 }).lb > k)

/-- Modelled from the spec: `ILit::made_false_by` — a trail event falsifies
`var ≤ k` when it raises the lower bound of `var` across `k`, and
falsifies `var > k` when it lowers the upper bound of `var` to at most
`k`. -/
def madeFalseBy (lit : ILit) (ev : VarEvent) : Bool :=
  match lit, ev.ev with
  | ILit.LEQ v k, DomEvent.NewLB prev nxt => v == ev.var && decide (prev ≤ k) && decide (k < nxt)
  | ILit.GT v k, DomEvent.NewUB prev nxt => v == ev.var && decide (k < prev) && decide (nxt ≤ k)
  | _, _ => false

/-- Modelled from the spec: `ILit::made_true_by` — the event falsifies the
negation. -/
def madeTrueBy (lit : ILit) (ev : VarEvent) : Bool := madeFalseBy (iLitNot lit) ev

/-- From `DiscreteModel::falsifying_event` composed with
`implying_event`: the newest trail event that made `lit` true, i.e. that
falsified `!lit`. -/
def implyingEvent (m : DiscreteModel) (lit : ILit) : Option (Nat × Nat) :=
  lastEventMatching m.trail (fun ec => madeFalseBy (iLitNot lit) ec.1)

/-- From `DiscreteModel::undo_int_event`: restore the previous bound. -/
def undoIntEvent (domains : List IntDomain) (ev : VarEvent) : List IntDomain :=
  match domains.get? ev.var with
  | none => domains
  | some dom =>
    match ev.ev with
    | DomEvent.NewLB prev _ => domains.set ev.var { dom with lb := prev }
    | DomEvent.NewUB prev _ => domains.set ev.var { dom with ub := prev }

/-- Entry of the conflict-analysis priority queue, from
`explain_empty_domain` (`InQueueLit`): the trail location of the
falsifying event and the literal. -/
structure InQueueLit where
  causeDl : Nat
  causeIdx : Nat
  lit : ILit
deriving DecidableEq, Repr

/-- Extraction from the `BinaryHeap<InQueueLit>`: the entry with the
greatest `TrailLoc` (ordered by `event_index`); the heap's order among
equal locations is unspecified, the model takes the first maximal entry. -/
def queuePopMax : List InQueueLit → Option (InQueueLit × List InQueueLit)
  | [] => none
  | x :: rest =>
    match queuePopMax rest with
    | none => some (x, [])
    | some (y, rest') => if x.causeIdx < y.causeIdx then some (y, x :: rest') else some (x, rest)

/-- Type of the `Explainer` capability passed to `explain_empty_domain`:
given the inference cause, the inferred literal and the (rewound) model,
produce the antecedent literals pushed into the explanation buffer. -/
def Explainer : Type := InferenceCause → ILit → DiscreteModel → List ILit

/-- Step 1 of the `explain_empty_domain` loop: drain the explanation
buffer; for each literal (asserted to be entailed — `none` models the
assertion failure), locate its implying event; literals implied at the
current decision level enter the queue, others contribute their negation
to `result`; literals with no implying event are initially true and are
skipped. -/
def processExplanationLits (m : DiscreteModel) (decisionLevel : Nat) :
    List ILit → List InQueueLit → List ILit → Option (List InQueueLit × List ILit)
  | [], queue, result => some (queue, result)
  | l :: rest, queue, result =>
    if dmEntails m l then
      match implyingEvent m l with
      | some (dl, idx) =>
        if dl == decisionLevel then
          processExplanationLits m decisionLevel rest
            (queue ++ [{ causeDl := dl, causeIdx := idx, lit := l }]) result
        else
          processExplanationLits m decisionLevel rest queue (result ++ [iLitNot l])
      | none => processExplanationLits m decisionLevel rest queue result
    else none

/-- Step 3 of the `explain_empty_domain` loop: pop trail events (undoing
each) while the queue entry's event index is below the number of trail
events; return the model after rewinding together with the last popped
event (the one that made the literal true). -/
def popUntilEvent : Nat → DiscreteModel → Nat → Option (DiscreteModel × (VarEvent × Cause))
  | 0, _, _ => none
  | fuel + 1, m, targetIdx =>
    if targetIdx < trailLen m.trail then
      match trailPopLast m.trail with
      | none => none
      | some (x, trail') =>
        let m' : DiscreteModel := { domains := undoIntEvent m.domains x.1, trail := trail' }
        if targetIdx < trailLen trail' then popUntilEvent fuel m' targetIdx
        else some (m', x)
    else none

/-- Main 1-UIP resolution loop of `DiscreteModel::explain_empty_domain`.
`none` models a panic or assertion failure (including the
`assert!(!queue.is_empty())` after draining the explanation buffer, and
the `assert!(queue.is_empty())` in the `Decision` branch). -/
def explainLoop (exp : Explainer) (decisionLevel : Nat) :
    Nat → DiscreteModel → List ILit → List InQueueLit → List ILit → Option (List ILit)
  | 0, _, _, _, _ => none
  | fuel + 1, m, explLits, queue, result =>
    match processExplanationLits m decisionLevel explLits queue result with
    | none => none
    | some (queue1, result1) =>
      if queue1.isEmpty then none
      else
        match queuePopMax queue1 with
        | none => none
        | some (l, queue2) =>
          if l.causeIdx < trailLen m.trail && dmEntails m l.lit then
            match popUntilEvent (trailLen m.trail) m l.causeIdx with
            | none => none
            | some (m', causeEv) =>
              if madeTrueBy l.lit causeEv.1 then
                match causeEv.2 with
                | Cause.Decision =>
                  if queue2.isEmpty then some (result1 ++ [iLitNot l.lit]) else none
                | Cause.Inference c =>
                  explainLoop exp decisionLevel fuel m' (exp c l.lit m') queue2 result1
              else none
          else none

/-- From `DiscreteModel::explain_empty_domain`: seed the explanation with
the two literals describing the empty interval (`var > lb − 1` and
`var ≤ ub`, each skipped at the extreme `i32` bounds) and run the
resolution loop at the current decision level. -/
def explainEmptyDomain (exp : Explainer) (fuel : Nat) (m : DiscreteModel) (var : Nat) :
    Option (List ILit) :=
  match m.domains.get? var with
  | none => none
  | some dom =>
    let seed :=
      (if -(2 ^ 31) < dom.lb then [ILit.GT var (dom.lb - 1)] else []) ++
      (if dom.ub < 2 ^ 31 - 1 then [ILit.LEQ var dom.ub] else [])
    explainLoop exp (trailDecisionLevel m.trail) fuel m seed [] []

/-- Explainer that contributes no antecedent literals (used for concrete
scenarios whose resolution never reaches an inference). -/
def trivialExplainer : Explainer := fun _ _ _ => []

/-- Concrete store for the `set_lb` scenarios: one variable with domain
`[0, 5]` and an empty trail. -/
def c2Model : DiscreteModel :=
  { domains := [{ lb := 0, ub := 5 }], trail := trailNew (VarEvent × Cause) }

/-- Concrete store for the conflict-analysis scenario: variable `0` with
the empty domain `[5, 4]`, variable `1` with domain `[1, 1]`; the trail
holds the three decisions `lb(0) := 5`, `ub(0) := 4` (both below the save
point) and `lb(1) := 1` (above it), so the current decision level is `1`
while both events emptying variable `0` are at level `0`. -/
def c3Model : DiscreteModel :=
  { domains := [{ lb := 5, ub := 4 }, { lb := 1, ub := 1 }],
    trail := { events := [({ var := 0, ev := DomEvent.NewLB 0 5 }, Cause.Decision),
                          ({ var := 0, ev := DomEvent.NewUB 10 4 }, Cause.Decision),
                          ({ var := 1, ev := DomEvent.NewLB 0 1 }, Cause.Decision)],
               backtrackPoints := [2],
               lastBacktrack := none } }

/-- From `ObsTrail::backtrack_with_callback`: pop the last save point
(panic — `none` — when there is none), drop every event past it, and
record the `LastBacktrack` marker carrying the save point as `next_read`
and a fresh identifier (previous id plus one, or `0`). -/
def trailRestoreLast {V : Type} (q : ObsTrail V) : Option (ObsTrail V) :=
  match q.backtrackPoints.getLast? with
  | none => none
  | some afterLast =>
    some { events := q.events.take afterLast,
           backtrackPoints := q.backtrackPoints.dropLast,
           lastBacktrack := some (afterLast,
             match q.lastBacktrack with
             | none => 0
             | some (_, i) => i + 1) }

/-- Identifier the next backtrack of the trail will carry. -/
def btCount {V : Type} (q : ObsTrail V) : Nat :=
  match q.lastBacktrack with
  | none => 0
  | some (_, i) => i + 1

/-- Cursor state from `queues.rs` (`ObsTrailCursor`): the next event index
to read and the identifier of the last backtrack this cursor has seen.
The debug-only `queue_id` binding is omitted (a single trail is in play). -/
structure CursorState where
  nextRead : Nat
  lastBacktrackSeen : Option Nat
deriving DecidableEq, Repr

/-- From `ObsTrailCursor::sync_backtrack`: if the trail has a backtrack
this cursor has not seen, rewind `next_read` to the backtrack's
`next_read` when the cursor is ahead of it, and record the seen id. -/
def cursorSync {V : Type} (c : CursorState) (q : ObsTrail V) : CursorState :=
  match q.lastBacktrack with
  | none => c
  | some (nr, i) =>
    if c.lastBacktrackSeen ≠ some i then
      { nextRead := if nr < c.nextRead then nr else c.nextRead,
        lastBacktrackSeen := some i }
    else c

/-- From `ObsTrailCursor::pop`: sync with the trail's backtracks, then
return the event at `next_read` (advancing) if one exists. -/
def cursorPop {V : Type} (c : CursorState) (q : ObsTrail V) : CursorState × Option V :=
  let c1 := cursorSync c q
  match q.events[c1.nextRead]? with
  | some v => ({ c1 with nextRead := c1.nextRead + 1 }, some v)
  | none => (c1, none)

/-- Operations of the trail/cursor trace semantics: push a fresh event,
record a save point, backtrack to the last save point, or have cursor `k`
perform one read. -/
inductive TrailOp where
  | push
  | save
  | restore
  | read (k : Nat)
deriving DecidableEq, Repr

/-- State of the trace semantics.  Each pushed event is identified by a
fresh serial number so that two events successively occupying the same
trail index are distinguished; `logs` records, per cursor, the serials the
cursor has returned. -/
structure TraceState where
  nextSerial : Nat
  trail : ObsTrail Nat
  cursors : List CursorState
  logs : List (List Nat)
deriving DecidableEq, Repr

/-- One operation of the trace semantics; `none` models a panic
(`restore_last` with no save point left). -/
def traceStep (s : TraceState) (op : TrailOp) : Option TraceState :=
  match op with
  | TrailOp.push =>
    some { s with trail := trailPush s.trail s.nextSerial, nextSerial := s.nextSerial + 1 }
  | TrailOp.save =>
    some { s with trail := trailSaveState s.trail }
  | TrailOp.restore =>
    match trailRestoreLast s.trail with
    | none => none
    | some q => some { s with trail := q }
  | TrailOp.read k =>
    match s.cursors[k]? with
    | none => none
    | some c =>
      let cr := cursorPop c s.trail
      some { s with
             cursors := s.cursors.set k cr.1,
             logs := match cr.2 with
                     | some v => s.logs.set k ((s.logs.getD k []) ++ [v])
                     | none => s.logs }

/-- Initial trace state with `n` fresh cursors. -/
def traceInit (n : Nat) : TraceState :=
  { nextSerial := 0,
    trail := trailNew Nat,
    cursors := List.replicate n { nextRead := 0, lastBacktrackSeen := none },
    logs := List.replicate n [] }

/-- Run a list of trace operations. -/
def traceRun : List TrailOp → TraceState → Option TraceState
  | [], s => some s
  | op :: rest, s =>
    match traceStep s op with
    | none => none
    | some s' => traceRun rest s'

/-- Concrete operation sequence exercising two backtracks between two
reads of the same cursor. -/
def c5Ops : List TrailOp :=
  [TrailOp.push, TrailOp.save, TrailOp.push, TrailOp.read 0, TrailOp.read 0,
   TrailOp.restore, TrailOp.save, TrailOp.push, TrailOp.restore,
   TrailOp.read 0, TrailOp.read 0]

/-- Final state of `c5Ops`. -/
def c5FinalState : TraceState :=
  { nextSerial := 3,
    trail := { events := [0], backtrackPoints := [], lastBacktrack := some (1, 1) },
    cursors := [{ nextRead := 1, lastBacktrackSeen := some 1 }],
    logs := [[0, 1]] }

/-- Intermediate state after `[push, save, push, read 0]` of the trace
semantics. -/
def c5MidState : TraceState :=
  { nextSerial := 2,
    trail := { events := [0, 1], backtrackPoints := [1], lastBacktrack := none },
    cursors := [{ nextRead := 1, lastBacktrackSeen := none }],
    logs := [[0]] }

/-- Effective next-read position of a cursor against a trail: the value
`next_read` takes once the cursor syncs with the trail's backtracks. -/
def effNextRead {V : Type} (c : CursorState) (q : ObsTrail V) : Nat := (cursorSync c q).nextRead

/-- Invariant of the trace semantics: serials in the trail are fresh and
distinct; each cursor has only seen backtrack identifiers the trail has
issued; each log holds distinct past serials, and every logged serial
still present in the trail sits strictly below the cursor's effective
next-read position (so it cannot be returned again). -/
structure TraceInv (s : TraceState) : Prop where
  events_lt : ∀ e ∈ s.trail.events, e < s.nextSerial
  events_nodup : s.trail.events.Nodup
  len_eq : s.cursors.length = s.logs.length
  seen_lt : ∀ (k : Nat) (c : CursorState), s.cursors[k]? = some c →
    ∀ j, c.lastBacktrackSeen = some j → j < btCount s.trail
  log_lt : ∀ k, ∀ ser ∈ s.logs.getD k [], ser < s.nextSerial
  log_nodup : ∀ k, (s.logs.getD k []).Nodup
  log_pos : ∀ (k : Nat) (c : CursorState), s.cursors[k]? = some c → ∀ ser ∈ s.logs.getD k [],
    ∀ i, s.trail.events[i]? = some ser → i < effNextRead c s.trail

/-- Construction from `Lit/Bound::from_parts`: a literal from a variable
bound and a raw bound value. -/
def litFromParts (vb : Nat) (raw : Int) : Lit := { varBound := vb, rawValue := raw }

/-- Modelled from the spec: `BoundValueAdd::on_ub` — a delta applied to
upper-bound raw values. -/
def bvaOnUb (w : Int) : Int := w

/-- Modelled from the spec: `BoundValueAdd::on_lb` — a delta of `w` on a
lower bound decreases the (negated) raw value by `w`. -/
def bvaOnLb (w : Int) : Int := -w

/-- Modelled from the spec: `BoundValueAdd::is_tightening` — a strictly
strengthening delta (negative raw delta). -/
def bvaIsTightening (d : Int) : Bool := d < 0

/-- Modelled from the spec: an event of the newer domain store
(`aries_model::int_model::domains::Event`, whose source is not provided):
the affected variable bound, the previous and new raw values, and the
cause.  `new_literal()` is the bound literal the event made true. -/
structure DEvent where
  affected : Nat
  previous : Int
  newValue : Int
  cause : Cause
deriving DecidableEq, Repr

/-- The literal made true by a domain event (`Event::new_literal`). -/
def dEventNewLiteral (e : DEvent) : Lit := litFromParts e.affected e.newValue

/-- Modelled from the spec: the newer domain store (`Domains`), a dense
map from variable bound to raw bound value plus the shared model trail of
events.  The optional-presence lattice is omitted (no settled claim
involves optional variables). -/
structure DomainsModel where
  bounds : List Int
  trail : ObsTrail DEvent
deriving DecidableEq, Repr

/-- Modelled from the spec: `Domains::get_bound`, the raw value of a
variable bound. -/
def getBound (m : DomainsModel) (vb : Nat) : Int := m.bounds.getD vb 0

/-- Modelled from the spec: `Domains::set_bound` — update when the new raw
value is strictly stronger (smaller), push the event, and report
`EmptyDomain` when the two raw bounds of the variable sum to a negative
number (the interval became empty); return whether the bound was
tightened. -/
def setBound (m : DomainsModel) (vb : Nat) (newRaw : Int) (cause : Cause) :
    Except Nat (Bool × DomainsModel) :=
  let prev := getBound m vb
  if newRaw < prev then
    let m' : DomainsModel :=
      { bounds := m.bounds.set vb newRaw,
        trail := trailPush m.trail
          { affected := vb, previous := prev, newValue := newRaw, cause := cause } }
    if getBound m' vb + getBound m' (vbSymm vb) < 0 then Except.error (vbVariable vb)
    else Except.ok (true, m')
  else Except.ok (false, m)

/-- Modelled from the spec: entailment of a bound literal by the newer
store — the current raw bound is at least as strong as the literal's raw
value. -/
def dmEntailsB (m : DomainsModel) (l : Lit) : Bool :=
  decide (getBound m l.varBound ≤ l.rawValue)

/-- Modelled from the spec: `Domains::set(lit, cause)` forces a bound
literal, i.e. sets its variable bound to the literal's raw value. -/
def dmSet (m : DomainsModel) (l : Lit) (cause : Cause) : Except Nat (Bool × DomainsModel) :=
  setBound m l.varBound l.rawValue cause

/-- Modelled from the spec: whether a domain event made the bound literal
true (it moved the raw value across the literal's threshold). -/
def dEventMakesTrue (l : Lit) (e : DEvent) : Bool :=
  e.affected == l.varBound && decide (e.newValue ≤ l.rawValue) && decide (l.rawValue < e.previous)

/-- Modelled from the spec: `entailing_level` of a literal — the decision
level of the most recent event that made it true, `ROOT` (0) when it is
true initially. -/
def entailingLevel (m : DomainsModel) (l : Lit) : Nat :=
  match lastEventMatching m.trail (dEventMakesTrue l) with
  | none => 0
  | some (dl, _) => dl

/-- Modelled from the spec: `Domains::implying_event`, the most recent
trail event that made the bound literal true. -/
def dmImplyingEvent (m : DomainsModel) (l : Lit) : Option DEvent :=
  match lastEventMatching m.trail (dEventMakesTrue l) with
  | none => none
  | some (_, idx) => m.trail.events[idx]?

/-- A directed constraint of the STN (`DirConstraint`): an update on the
`source` bound propagates to the `target` bound with the raw `weight`
delta. -/
structure DirConstraint where
  active : Bool
  source : Nat
  target : Nat
  weight : Int
  alwaysActive : Bool
  enablers : List Lit
deriving DecidableEq, Repr

/-- `DirConstraint::forward`: `ub(source) = X` implies
`ub(target) ≤ X + weight`. -/
def dirForward (e : Edge) : DirConstraint :=
  { active := false, source := vbUb e.source, target := vbUb e.target,
    weight := bvaOnUb e.weight, alwaysActive := false, enablers := [] }

/-- `DirConstraint::backward`: `lb(target) = X` implies
`lb(source) ≥ X - weight`. -/
def dirBackward (e : Edge) : DirConstraint :=
  { active := false, source := vbLb e.target, target := vbLb e.source,
    weight := bvaOnLb (-e.weight), alwaysActive := false, enablers := [] }

/-- Entry of the potential-out-edge table (`EdgeTarget`). -/
structure EdgeTarget where
  target : Nat
  weight : Int
  enabler : Lit
deriving DecidableEq, Repr

/-- The constraint database (`ConstraintDb`): directed constraints indexed
by `DirEdge`, the canonical-edge lookup table, the literal watches, and
the flat potential-out-edge table keyed by source variable bound (the
dense `RefVec` of vectors is flattened to a keyed list preserving
insertion order per key). -/
structure ConstraintDb where
  constraints : List DirConstraint
  lookup : List (Edge × Nat)
  watches : List (Lit × Nat)
  edges : List (Nat × EdgeTarget)
deriving DecidableEq, Repr

/-- First association of a canonical edge in the lookup table (the
`HashMap` holds at most one entry per key). -/
def lookupFind : List (Edge × Nat) → Edge → Option Nat
  | [], _ => none
  | (e, i) :: rest, key => if e = key then some i else lookupFind rest key

/-- `ConstraintDb::find_existing`: a canonical edge is looked up directly,
a negated edge through its negation, with the negation bit set in the
returned edge id (`EdgeId = (base_id << 1) | negated`). -/
def findExisting (db : ConstraintDb) (e : Edge) : Option Nat :=
  if edgeIsCanonical e then (lookupFind db.lookup e).map (fun i => 2 * i)
  else (lookupFind db.lookup (edgeNegated e)).map (fun i => 2 * i + 1)

/-- `ConstraintDb::push_edge`: unify with an existing edge, or append the
four directed constraints of the canonical pair (forward and backward of
the canonical edge then of its negation) and register the canonical edge
in the lookup; returns `(created, edge_id, db)`. -/
def pushEdge (db : ConstraintDb) (source target : Nat) (w : Int) : Bool × Nat × ConstraintDb :=
  let e : Edge := { source := source, target := target, weight := w }
  match findExisting db e with
  | some id => (false, id, db)
  | none =>
    let canonical := if edgeIsCanonical e then e else edgeNegated e
    let baseDir := db.constraints.length
    let db' := { db with
      constraints := db.constraints ++
        [dirForward canonical, dirBackward canonical,
         dirForward (edgeNegated canonical), dirBackward (edgeNegated canonical)],
      lookup := db.lookup ++ [(canonical, baseDir / 4)] }
    let edgeId := if edgeIsCanonical e then baseDir / 2 else baseDir / 2 + 1
    (true, edgeId, db')

/-- Update the directed constraint at an index (Rust indexing panics out
of range; the model leaves the database unchanged there, and every theorem
works with in-range indices). -/
def dbModify (db : ConstraintDb) (i : Nat) (f : DirConstraint → DirConstraint) : ConstraintDb :=
  match db.constraints[i]? with
  | none => db
  | some c => { db with constraints := db.constraints.set i (f c) }

/-- `ConstraintDb::make_always_active` on both directions of an edge id. -/
def makeAlwaysActive (db : ConstraintDb) (edgeId : Nat) : ConstraintDb :=
  dbModify (dbModify db (2 * edgeId) (fun c => { c with alwaysActive := true }))
    (2 * edgeId + 1) (fun c => { c with alwaysActive := true })

/-- `ConstraintDb::add_directed_enabler`: watch the literal, append it to
the constraint's enablers and record the potential out-edge. -/
def addDirectedEnabler (db : ConstraintDb) (dirEdge : Nat) (literal : Lit) : ConstraintDb :=
  match db.constraints[dirEdge]? with
  | none => db
  | some c =>
    { db with
      constraints := db.constraints.set dirEdge { c with enablers := c.enablers ++ [literal] },
      watches := db.watches ++ [(literal, dirEdge)],
      edges := db.edges ++ [(c.source, { target := c.target, weight := c.weight, enabler := literal })] }

/-- `ConstraintDb::add_enabler` on both directions of an edge id. -/
def addEnabler (db : ConstraintDb) (edgeId : Nat) (literal : Lit) : ConstraintDb :=
  addDirectedEnabler (addDirectedEnabler db (2 * edgeId) literal) (2 * edgeId + 1) literal

/-- `ConstraintDb::potential_out_edges` of a source variable bound. -/
def potentialOutEdges (db : ConstraintDb) (source : Nat) : List EdgeTarget :=
  (db.edges.filter (fun p => p.1 == source)).map (fun p => p.2)

/-- Modelled from the spec: `Watches::watches_on` — the directed edges
watching a literal entailed by the newly set literal. -/
def watchesOn (db : ConstraintDb) (literal : Lit) : List Nat :=
  (db.watches.filter (fun p => litEntails literal p.1)).map (fun p => p.2)

/-- An event of the STN trail (`stn.rs` `Event`; the `Level` marker only
appears through save points, which no settled claim exercises). -/
inductive StnEvent where
  | EdgeAdded
  | EdgeActivated (e : Nat)
  | AddedTheoryPropagationCause
deriving DecidableEq, Repr

/-- An entry of the active-propagator adjacency list (`Propagator`). -/
structure Propagator where
  target : Nat
  weight : Int
  id : Nat
deriving DecidableEq, Repr

/-- The incremental STN (`IncStn`).  Statistics are omitted; the
model-event cursor is inlined as its `next_read` position and seen
backtrack id; the scratch `explanation` buffer is replaced by passing the
culprit list directly to `build_contradiction`. -/
structure IncStn where
  constraints : ConstraintDb
  activePropagators : List (List Propagator)
  pendingUpdates : List Nat
  trail : List StnEvent
  pendingActivations : List Nat
  identityWriter : Nat
  modelEventsNextRead : Nat
  modelEventsLastBt : Option Nat
  theoryPropagationCauses : List (Nat × Nat)
  internalPropagateQueue : List Nat
deriving DecidableEq, Repr

/-- `IncStn::new` with a writer identity. -/
def stnNew (writer : Nat) : IncStn :=
  { constraints := { constraints := [], lookup := [], watches := [], edges := [] },
    activePropagators := [], pendingUpdates := [], trail := [], pendingActivations := [],
    identityWriter := writer, modelEventsNextRead := 0, modelEventsLastBt := none,
    theoryPropagationCauses := [], internalPropagateQueue := [] }

/-- `IncStn::num_nodes`: half the number of variable-bound slots. -/
def numNodes (stn : IncStn) : Nat := stn.activePropagators.length / 2

/-- `IncStn::reserve_timepoint`: one propagator slot per bound. -/
def reserveTimepoint (stn : IncStn) : IncStn :=
  { stn with activePropagators := stn.activePropagators ++ [[], []] }

/-- The reservation loop at the head of `add_inactive_constraint`. -/
def reserveLoop : Nat → IncStn → Nat → Nat → IncStn
  | 0, stn, _, _ => stn
  | fuel + 1, stn, source, target =>
    if numNodes stn ≤ source ∨ numNodes stn ≤ target then
      reserveLoop fuel (reserveTimepoint stn) source target
    else stn

/-- `IncStn::add_inactive_constraint`: reserve timepoints, push the edge
pair, and record `EdgeAdded` when a new pair was created. -/
def addInactiveConstraint (stn : IncStn) (source target : Nat) (w : Int) : IncStn × Nat :=
  let stn1 := reserveLoop (source + target + 2) stn source target
  match pushEdge stn1.constraints source target w with
  | (created, id, db') =>
    let stn2 := { stn1 with constraints := db' }
    if created then ({ stn2 with trail := stn2.trail ++ [StnEvent.EdgeAdded] }, id)
    else (stn2, id)

/-- `IncStn::mark_active`: enqueue both directions for activation. -/
def markActive (stn : IncStn) (edgeId : Nat) : IncStn :=
  { stn with pendingActivations := stn.pendingActivations ++ [2 * edgeId, 2 * edgeId + 1] }

/-- `IncStn::add_reified_edge`: an edge entailed at the root level becomes
always active and is enqueued; otherwise the literal enables the edge and
its negation enables the negated edge (`!e` is `EdgeId ^ 1`).  `none`
models the `assert_eq!(entailing_level(literal), ROOT)` failure. -/
def addReifiedEdge (stn : IncStn) (literal : Lit) (source target : Nat) (w : Int)
    (m : DomainsModel) : Option (IncStn × Nat) :=
  match addInactiveConstraint stn source target w with
  | (stn1, e) =>
    if dmEntailsB m literal then
      if entailingLevel m literal == 0 then
        some (markActive { stn1 with constraints := makeAlwaysActive stn1.constraints e } e, e)
      else none
    else
      let db1 := addEnabler stn1.constraints e literal
      let db2 := addEnabler db1 (e ^^^ 1) (litNot literal)
      some ({ stn1 with constraints := db2 }, e)

/-- A contradiction reported by the STN (`Contradiction`). -/
inductive Contradiction where
  | emptyDomain (v : Nat)
  | explanation (lits : List Lit)
deriving DecidableEq, Repr

/-- First enabler of the list entailed by the model (the selection loop of
`build_contradiction` and `enabling_literal`). -/
def firstEntailedEnabler (m : DomainsModel) : List Lit → Option Lit
  | [] => none
  | l :: rest => if dmEntailsB m l then some l else firstEntailedEnabler m rest

/-- Per-culprit accumulation of `IncStn::build_contradiction`: an
always-active edge contributes nothing, otherwise the first entailed
enabler (`none` models the `expect` panic when no enabler is entailed). -/
def buildContradictionAux (stn : IncStn) (m : DomainsModel) :
    List Nat → List Lit → Option (List Lit)
  | [], acc => some acc
  | e :: rest, acc =>
    match stn.constraints.constraints[e]? with
    | none => none
    | some c =>
      if c.alwaysActive then buildContradictionAux stn m rest acc
      else
        match firstEntailedEnabler m c.enablers with
        | none => none
        | some l => buildContradictionAux stn m rest (acc ++ [l])

/-- `IncStn::build_contradiction` over a culprit list. -/
def buildContradiction (stn : IncStn) (culprits : List Nat) (m : DomainsModel) :
    Option Contradiction :=
  (buildContradictionAux stn m culprits []).map Contradiction.explanation

/-- `IncStn::enabling_literal`: `some none` for an always-active
constraint, `some (some l)` for the first entailed enabler, `none` for
the panic when no enabler is entailed. -/
def enablingLiteral (stn : IncStn) (e : Nat) (m : DomainsModel) : Option (Option Lit) :=
  match stn.constraints.constraints[e]? with
  | none => none
  | some c =>
    if c.alwaysActive then some none
    else
      match firstEntailedEnabler m c.enablers with
      | none => none
      | some l => some (some l)

/-- Active propagators out of a variable bound. -/
def activeProps (stn : IncStn) (vb : Nat) : List Propagator :=
  stn.activePropagators.getD vb []

/-- Insertion into the `RefSet` of pending updates. -/
def setInsert (l : List Nat) (vb : Nat) : List Nat :=
  if l.contains vb then l else l ++ [vb]

/-- `IncStn::clean_up_propagation_state`: drop the queued variable bounds
from the pending set and clear the queue. -/
def cleanUpPropagationState (stn : IncStn) : IncStn :=
  { stn with
    pendingUpdates := stn.pendingUpdates.filter
      (fun vb => !(stn.internalPropagateQueue.contains vb)),
    internalPropagateQueue := [] }

/-- Whether a cause is an inference authored by the writer `w`. -/
def selfAuthored (w : Nat) (c : Cause) : Bool :=
  match c with
  | Cause.Inference ic => ic.writer == w
  | _ => false

/-- Whether a cause is an inference authored by the STN itself. -/
def causeIsSelf (stn : IncStn) (c : Cause) : Bool :=
  selfAuthored stn.identityWriter c

/-- Walk of `IncStn::extract_cycle`, following each bound's implying event
back to the origin and collecting the enabling literals.  The `DirEdge`
is read from the payload exactly as the source text does
(`DirEdge::from(cause.payload)`, without stripping the kind bit). -/
def extractCycle (stn : IncStn) (m : DomainsModel) (vb : Nat) :
    Nat → Nat → List Lit → Option (List Lit)
  | 0, _, _ => none
  | fuel + 1, curr, acc =>
    let value := getBound m curr
    let lit := litFromParts curr value
    match dmImplyingEvent m lit with
    | none => none
    | some ev =>
      match ev.cause with
      | Cause.Decision => none
      | Cause.Inference ic =>
        match stn.constraints.constraints[ic.payload]? with
        | none => none
        | some c =>
          match enablingLiteral stn ic.payload m with
          | none => none
          | some optLit =>
            let acc' := match optLit with
                        | some l => acc ++ [l]
                        | none => acc
            if c.source = vb then some acc'
            else extractCycle stn m vb fuel c.source acc'

/-- Inner fold of `run_propagation_loop` over the active propagators of
the popped source bound. -/
def propagateEdges (stn : IncStn) (original : Nat) (cycleOnUpdate : Bool)
    (sourceBound : Int) : List Propagator → DomainsModel →
    Option (Except Contradiction (IncStn × DomainsModel))
  | [], m => some (Except.ok (stn, m))
  | p :: rest, m =>
    let cause := Cause.Inference { writer := stn.identityWriter, payload := 2 * p.id }
    let candidate := sourceBound + p.weight
    match setBound m p.target candidate cause with
    | Except.error v => some (Except.error (Contradiction.emptyDomain v))
    | Except.ok (false, m') => propagateEdges stn original cycleOnUpdate sourceBound rest m'
    | Except.ok (true, m') =>
      if cycleOnUpdate ∧ p.target = original then
        match extractCycle stn m' original (m'.trail.events.length + 1) original [] with
        | none => none
        | some expl => some (Except.error (Contradiction.explanation expl))
      else
        propagateEdges
          { stn with internalPropagateQueue := stn.internalPropagateQueue ++ [p.target],
                     pendingUpdates := setInsert stn.pendingUpdates p.target }
          original cycleOnUpdate sourceBound rest m'

/-- Main loop of `run_propagation_loop`: pop a source bound, skip it when
it is no longer pending, otherwise propagate through all its active
out-edges. -/
def propLoop (original : Nat) (cycleOnUpdate : Bool) :
    Nat → IncStn → DomainsModel → Option (Except Contradiction (IncStn × DomainsModel))
  | 0, _, _ => none
  | fuel + 1, stn, m =>
    match stn.internalPropagateQueue with
    | [] => some (Except.ok (stn, m))
    | source :: rest =>
      let stn1 := { stn with internalPropagateQueue := rest }
      let sourceBound := getBound m source
      if stn1.pendingUpdates.contains source then
        let stn2 := { stn1 with pendingUpdates := stn1.pendingUpdates.filter (fun x => x ≠ source) }
        match propagateEdges stn2 original cycleOnUpdate sourceBound (activeProps stn2 source) m with
        | none => none
        | some (Except.error e) => some (Except.error e)
        | some (Except.ok (stn3, m3)) => propLoop original cycleOnUpdate fuel stn3 m3
      else propLoop original cycleOnUpdate fuel stn1 m

/-- `IncStn::run_propagation_loop`: clean up, seed the queue with the
origin and run the loop. -/
def runPropagationLoop (fuel : Nat) (stn : IncStn) (original : Nat) (m : DomainsModel)
    (cycleOnUpdate : Bool) : Option (Except Contradiction (IncStn × DomainsModel)) :=
  let stn1 := cleanUpPropagationState stn
  let stn2 := { stn1 with internalPropagateQueue := stn1.internalPropagateQueue ++ [original],
                          pendingUpdates := setInsert stn1.pendingUpdates original }
  propLoop original cycleOnUpdate fuel stn2 m

/-- `IncStn::has_edges`. -/
def hasEdges (stn : IncStn) (v : Nat) : Bool := decide (v < numNodes stn)

/-- `IncStn::propagate_bound_change`: ignore variables with no reserved
edge slots, otherwise run the propagation loop from the changed bound
without cycle detection. -/
def propagateBoundChange (fuel : Nat) (stn : IncStn) (b : Lit) (m : DomainsModel) :
    Option (Except Contradiction (IncStn × DomainsModel)) :=
  if hasEdges stn (vbVariable b.varBound) then
    runPropagationLoop fuel stn b.varBound m false
  else some (Except.ok (stn, m))

/-- `IncStn::propagate_new_edge` (Cesta96): apply the new edge once; if it
tightened the target, run the propagation loop from the target with cycle
detection. -/
def propagateNewEdge (fuel : Nat) (stn : IncStn) (newEdge : Nat) (m : DomainsModel) :
    Option (Except Contradiction (IncStn × DomainsModel)) :=
  match stn.constraints.constraints[newEdge]? with
  | none => none
  | some c =>
    let cause := Cause.Inference { writer := stn.identityWriter, payload := 2 * newEdge }
    let sourceBound := getBound m c.source
    match setBound m c.target (sourceBound + c.weight) cause with
    | Except.error v => some (Except.error (Contradiction.emptyDomain v))
    | Except.ok (false, m') => some (Except.ok (stn, m'))
    | Except.ok (true, m') => runPropagationLoop fuel stn c.target m' true

/-- First association under a key in a distance map (`RefMap::get`). -/
def assocFindNat : List (Nat × Int) → Nat → Option Int
  | [], _ => none
  | (k, v) :: rest, key => if k = key then some v else assocFindNat rest key

/-- Extraction from the Dijkstra binary heap: the entry with the smallest
reduced distance (the heap's order among equal keys is unspecified; the
model takes the first minimal entry). -/
def heapPopMin : List (Int × Nat) → Option ((Int × Nat) × List (Int × Nat))
  | [] => none
  | x :: rest =>
    match heapPopMin rest with
    | none => some (x, [])
    | some (y, rest') => if y.1 < x.1 then some (y, x :: rest') else some (x, rest)

/-- Dijkstra's algorithm over reduced costs (`IncStn::distances_from`):
settle the closest unsettled node, record its true distance, and relax its
outgoing active propagators. -/
def dij (stn : IncStn) (m : DomainsModel) (originBound : Int) :
    Nat → List (Nat × Int) → List (Int × Nat) → List (Nat × Int)
  | 0, dist, _ => dist
  | fuel + 1, dist, queue =>
    match heapPopMin queue with
    | none => dist
    | some ((rd, node), queue') =>
      if dist.any (fun q => q.1 == node) then dij stn m originBound fuel dist queue'
      else
        let currBound := getBound m node
        let dist' := dist ++ [(node, rd + (currBound - originBound))]
        let newItems := (activeProps stn node).filterMap (fun p =>
          if dist'.any (fun q => q.1 == p.target) then none
          else some (rd + (p.weight + (currBound - getBound m p.target)), p.target))
        dij stn m originBound fuel dist' (queue' ++ newItems)

/-- Ordered insertion by key, used to present a distance map in dense key
order as `RefMap::entries` does. -/
def insertByKey (p : Nat × Int) : List (Nat × Int) → List (Nat × Int)
  | [] => [p]
  | q :: rest => if p.1 ≤ q.1 then p :: q :: rest else q :: insertByKey p rest

/-- Sort a distance map by key (dense iteration order of `RefMap`). -/
def sortByKey : List (Nat × Int) → List (Nat × Int)
  | [] => []
  | p :: rest => insertByKey p (sortByKey rest)

/-- `IncStn::distances_from`: one-to-all shortest paths from the origin
bound, presented in dense key order. -/
def distancesFrom (fuel : Nat) (stn : IncStn) (origin : Nat) (m : DomainsModel) :
    List (Nat × Int) :=
  sortByKey (dij stn m (getBound m origin) fuel [] [(0, origin)])

/-- Inner fold of `theory_propagation` over the potential out-edges of a
predecessor: an inactive edge closing a negative cycle through the new
edge has the negation of its enabler forced, recording the cause. -/
def tpInner (cweight : Int) (succ : List (Nat × Int)) (pred : Nat) (predDist : Int) :
    List EdgeTarget → IncStn → DomainsModel →
    Option (Except Contradiction (IncStn × DomainsModel))
  | [], stn, m => some (Except.ok (stn, m))
  | pot :: rest, stn, m =>
    match assocFindNat succ (vbSymm pot.target) with
    | none => tpInner cweight succ pred predDist rest stn m
    | some forwardDist =>
      let total := predDist + pot.weight + cweight + forwardDist
      if total < 0 ∧ dmEntailsB m (litNot pot.enabler) = false then
        let causeIndex := stn.theoryPropagationCauses.length
        let stn' := { stn with
          theoryPropagationCauses :=
            stn.theoryPropagationCauses ++ [(vbSymm pred, vbSymm pot.target)],
          trail := stn.trail ++ [StnEvent.AddedTheoryPropagationCause] }
        match dmSet m (litNot pot.enabler)
            (Cause.Inference { writer := stn.identityWriter, payload := 2 * causeIndex + 1 }) with
        | Except.error v => some (Except.error (Contradiction.emptyDomain v))
        | Except.ok (_, m') => tpInner cweight succ pred predDist rest stn' m'
      else tpInner cweight succ pred predDist rest stn m

/-- Outer fold of `theory_propagation` over the predecessor map. -/
def tpOuter (cweight : Int) (succ : List (Nat × Int)) :
    List (Nat × Int) → IncStn → DomainsModel →
    Option (Except Contradiction (IncStn × DomainsModel))
  | [], stn, m => some (Except.ok (stn, m))
  | (p, pd) :: rest, stn, m =>
    match tpInner cweight succ p pd (potentialOutEdges stn.constraints p) stn m with
    | none => none
    | some (Except.error e) => some (Except.error e)
    | some (Except.ok (stn', m')) => tpOuter cweight succ rest stn' m'

/-- `IncStn::theory_propagation`: distances forward from the target and
backward from the source (as a forward search from the symmetric bound),
then force the enablers of inactive edges that would close a negative
cycle through the newly activated edge. -/
def theoryPropagation (fuel : Nat) (stn : IncStn) (edge : Nat) (m : DomainsModel) :
    Option (Except Contradiction (IncStn × DomainsModel)) :=
  match stn.constraints.constraints[edge]? with
  | none => none
  | some c =>
    let succ := distancesFrom fuel stn c.target m
    let pred := distancesFrom fuel stn (vbSymm c.source) m
    tpOuter c.weight succ pred stn m

/-- Append a propagator to the adjacency list of a source bound. -/
def pushPropagator (props : List (List Propagator)) (vb : Nat) (p : Propagator) :
    List (List Propagator) :=
  props.set vb (props.getD vb [] ++ [p])

/-- Activation draining of `propagate_all`: pop each pending activation;
a newly active self-loop is a contradiction when tightening and ignored
otherwise; any other edge gets its propagator, is propagated and then
theory-propagated. -/
def drainActivations : Nat → IncStn → DomainsModel →
    Option (Except Contradiction (IncStn × DomainsModel))
  | 0, _, _ => none
  | fuel + 1, stn, m =>
    match stn.pendingActivations with
    | [] => some (Except.ok (stn, m))
    | edge :: rest =>
      let stn1 := { stn with pendingActivations := rest }
      match stn1.constraints.constraints[edge]? with
      | none => none
      | some c =>
        if c.active then drainActivations fuel stn1 m
        else
          let db2 := dbModify stn1.constraints edge (fun c0 => { c0 with active := true })
          let stn2 := { stn1 with constraints := db2 }
          if c.source = c.target then
            if bvaIsTightening c.weight then
              match buildContradiction stn2 [edge] m with
              | none => none
              | some contra => some (Except.error contra)
            else drainActivations fuel stn2 m
          else
            let stn3 := { stn2 with
              activePropagators := pushPropagator stn2.activePropagators c.source
                { target := c.target, weight := c.weight, id := edge },
              trail := stn2.trail ++ [StnEvent.EdgeActivated edge] }
            match propagateNewEdge fuel stn3 edge m with
            | none => none
            | some (Except.error e) => some (Except.error e)
            | some (Except.ok (stn4, m4)) =>
              match theoryPropagation fuel stn4 edge m4 with
              | none => none
              | some (Except.error e) => some (Except.error e)
              | some (Except.ok (stn5, m5)) => drainActivations fuel stn5 m5

/-- The STN's view of its model-event cursor. -/
def stnCursor (stn : IncStn) : CursorState :=
  { nextRead := stn.modelEventsNextRead, lastBacktrackSeen := stn.modelEventsLastBt }

/-- Store a cursor back into the STN. -/
def stnWithCursor (stn : IncStn) (c : CursorState) : IncStn :=
  { stn with modelEventsNextRead := c.nextRead, modelEventsLastBt := c.lastBacktrackSeen }

/-- Event draining of `propagate_all`: pop each model event, enqueue the
edges watching the new literal, and propagate the bound change unless the
event was authored by the STN itself. -/
def drainEvents : Nat → IncStn → DomainsModel →
    Option (Except Contradiction (IncStn × DomainsModel))
  | 0, _, _ => none
  | fuel + 1, stn, m =>
    match cursorPop (stnCursor stn) m.trail with
    | (c1, none) => some (Except.ok (stnWithCursor stn c1, m))
    | (c1, some ev) =>
      let stn1 := stnWithCursor stn c1
      let literal := dEventNewLiteral ev
      let stn2 := { stn1 with pendingActivations :=
        stn1.pendingActivations ++ watchesOn stn1.constraints literal }
      if causeIsSelf stn2 ev.cause then drainEvents fuel stn2 m
      else
        match propagateBoundChange fuel stn2 literal m with
        | none => none
        | some (Except.error e) => some (Except.error e)
        | some (Except.ok (stn3, m3)) => drainEvents fuel stn3 m3

/-- `IncStn::propagate_all`: alternate between draining the model-event
cursor and the pending activations until both are exhausted. -/
def propagateAll : Nat → IncStn → DomainsModel →
    Option (Except Contradiction (IncStn × DomainsModel))
  | 0, _, _ => none
  | fuel + 1, stn, m =>
    let c1 := cursorSync (stnCursor stn) m.trail
    let stnA := stnWithCursor stn c1
    if m.trail.events.length - c1.nextRead = 0 ∧ stnA.pendingActivations.isEmpty then
      some (Except.ok (stnA, m))
    else
      match drainEvents fuel stnA m with
      | none => none
      | some (Except.error e) => some (Except.error e)
      | some (Except.ok (stn2, m2)) =>
        match drainActivations fuel stn2 m2 with
        | none => none
        | some (Except.error e) => some (Except.error e)
        | some (Except.ok (stn3, m3)) => propagateAll fuel stn3 m3

/-- Lower bound of a variable in the newer store (the negation of the raw
lower-bound value). -/
def lbOf (m : DomainsModel) (v : Nat) : Int := -(getBound m (vbLb v))

/-- Upper bound of a variable in the newer store. -/
def ubOf (m : DomainsModel) (v : Nat) : Int := getBound m (vbUb v)

/-- Raw soundness inequality of a directed constraint: the target bound is
at most the source bound plus the weight. -/
@[reducible] def dirIneq (m : DomainsModel) (c : DirConstraint) : Prop :=
  getBound m c.target ≤ getBound m c.source + c.weight

/-- The soundness inequality of a directed constraint phrased on variable
bounds: `ub(t) ≤ ub(s) + w` for the forward (upper-bound) view and
`lb(s) ≥ lb(t) − w` for the backward (lower-bound) view. -/
def dirIneqBounds (m : DomainsModel) (c : DirConstraint) : Prop :=
  if c.source % 2 = 1 then
    ubOf m (vbVariable c.target) ≤ ubOf m (vbVariable c.source) + c.weight
  else
    lbOf m (vbVariable c.target) ≥ lbOf m (vbVariable c.source) - c.weight

/-- Weight of a path of directed constraints starting at a bound: each
edge must be active and chained source-to-target. -/
def dirPathWeight (stn : IncStn) : Nat → List Nat → Nat → Option Int
  | start, [], stop => if start = stop then some 0 else none
  | start, e :: rest, stop =>
    match stn.constraints.constraints[e]? with
    | none => none
    | some c =>
      if c.active = true ∧ c.source = start then
        (dirPathWeight stn c.target rest stop).map (fun w => c.weight + w)
      else none

/-- The adjacency-list entry a directed constraint contributes when
active (`Propagator` built at activation time in `propagate_all`). -/
def mkProp (e : Nat) (c : DirConstraint) : Propagator :=
  { target := c.target, weight := c.weight, id := e }

/-- Directed constraint at an index, with an inert default out of range. -/
def dcAt (stn : IncStn) (e : Nat) : DirConstraint :=
  stn.constraints.constraints.getD e
    { active := false, source := 0, target := 0, weight := 0, alwaysActive := false, enablers := [] }

/-- A domain event that affects the bound `vb` and was not authored by
writer `w` (a bound change external to the STN). -/
def extEventFor (w vb : Nat) (ev : DEvent) : Bool :=
  ev.affected == vb && !(selfAuthored w ev.cause)

/-- An external bound change on `vb` still unread by a cursor at position
`nr`: processing it will reach the propagation loop for `vb`. -/
@[reducible] def extPendingFrom (w : Nat) (tr : ObsTrail DEvent) (nr vb : Nat) : Prop :=
  ∃ i < tr.events.length, nr ≤ i ∧ (tr.events[i]?).any (extEventFor w vb) = true

/-- Soundness state of the network relative to a cursor position: every
active directed constraint either satisfies its inequality in the store,
or an unread external bound change on its source is still pending. -/
@[reducible] def activeSound (stn : IncStn) (m : DomainsModel) (nr : Nat) : Prop :=
  ∀ c ∈ stn.constraints.constraints, c.active = true →
    dirIneq m c ∨ extPendingFrom stn.identityWriter m.trail nr c.source

/-- Structural well-formedness the STN maintains between propagations:
every active non-self-loop constraint has its propagator registered on its
source bound, active self-loops have non-negative weight, all sources fit
the propagator table and all targets fit the store, and the propagator
table holds two slots per timepoint. -/
@[reducible] def wfStn (stn : IncStn) (m : DomainsModel) : Prop :=
  (∀ e, e < stn.constraints.constraints.length → (dcAt stn e).active = true →
     (dcAt stn e).source ≠ (dcAt stn e).target →
     mkProp e (dcAt stn e) ∈ activeProps stn (dcAt stn e).source) ∧
  (∀ c ∈ stn.constraints.constraints, c.active = true → c.source = c.target → 0 ≤ c.weight) ∧
  (∀ c ∈ stn.constraints.constraints, c.source < stn.activePropagators.length) ∧
  (∀ c ∈ stn.constraints.constraints, c.target < m.bounds.length) ∧
  (∀ l ∈ stn.activePropagators, ∀ p ∈ l, p.target < m.bounds.length) ∧
  stn.activePropagators.length % 2 = 0

/-- The state `propagate_all` moves to when it pops the pending activation
`edge` (with `rest` remaining) and marks the constraint active. -/
def c6Activate (stn : IncStn) (edge : Nat) (rest : List Nat) : IncStn :=
  { stn with pendingActivations := rest,
             constraints := dbModify stn.constraints edge (fun c0 => { c0 with active := true }) }

/-- A literal true from the initial bounds (`v0 ≤ 0` with `v0 ∈ [0, 0]`),
used to register always-active edges at the root. -/
def tautLit : Lit := litLeq 0 0

/-- C1 scenario: two timepoints `1 ∈ [0, 3]` (upper bound 3 set by a
decision recorded on the trail) and `2 ∈ [0, 10]`. -/
def c1M0 : DomainsModel :=
  { bounds := [0, 0, 0, 3, 0, 10],
    trail := { events := [{ affected := 3, previous := 10, newValue := 3, cause := Cause.Decision }],
               backtrackPoints := [], lastBacktrack := none } }

/-- C1 scenario: the always-active edge `2 - 1 ≤ 5` registered in a fresh
network. -/
def c1Stn1 : IncStn :=
  match addReifiedEdge (stnNew 7) tautLit 1 2 5 c1M0 with
  | some (s, _) => s
  | none => stnNew 7

/-- C1 scenario: result of a full propagation. -/
def c1Prop : Option (Except Contradiction (IncStn × DomainsModel)) :=
  propagateAll 30 c1Stn1 c1M0

/-- C1 scenario: the network after the propagation. -/
def c1StnF : IncStn :=
  match c1Prop with
  | some (Except.ok (s, _)) => s
  | _ => c1Stn1

/-- C1 scenario: the store after the propagation. -/
def c1MF : DomainsModel :=
  match c1Prop with
  | some (Except.ok (_, m)) => m
  | _ => c1M0

/-- C4 scenario: timepoints `1, 2 ∈ [0, 10]` and a boolean-like enabler
variable `3 ∈ [0, 1]`; no events pending. -/
def c4M0 : DomainsModel :=
  { bounds := [0, 0, 0, 10, 0, 10, 0, 1], trail := trailNew DEvent }

/-- C4 scenario: the enabler literal `x3 > 0` of the late edge. -/
def c4Lit2 : Lit := litNew 3 Relation.Gt 0

/-- C4 scenario: the always-active edge `2 - 1 ≤ 5`. -/
def c4Stn1 : IncStn :=
  match addReifiedEdge (stnNew 19) tautLit 1 2 5 c4M0 with
  | some (s, _) => s
  | none => stnNew 19

/-- C4 scenario: first full propagation, which activates the edge. -/
def c4Prop1 : Option (Except Contradiction (IncStn × DomainsModel)) :=
  propagateAll 40 c4Stn1 c4M0

/-- C4 scenario: the network after the first propagation. -/
def c4Stn2 : IncStn :=
  match c4Prop1 with
  | some (Except.ok (s, _)) => s
  | _ => c4Stn1

/-- C4 scenario: the reified edge `1 - 2 ≤ -7` (enabler `x3 > 0`)
registered after the first propagation. -/
def c4Stn3 : IncStn :=
  match addReifiedEdge c4Stn2 c4Lit2 2 1 (-7) c4M0 with
  | some (s, _) => s
  | none => c4Stn2

/-- C4 scenario: second full propagation, with the inactive edge now
registered. -/
def c4Prop2 : Option (Except Contradiction (IncStn × DomainsModel)) :=
  propagateAll 40 c4Stn3 c4M0

/-- C4 witness scenario: same store as C4. -/
def c4WM : DomainsModel := c4M0

/-- C4 witness scenario: the reified edge `1 - 2 ≤ -7` registered first,
in a fresh network. -/
def c4WStn1 : IncStn :=
  match addReifiedEdge (stnNew 23) c4Lit2 2 1 (-7) c4WM with
  | some (s, _) => s
  | none => stnNew 23

/-- C4 witness scenario: the always-active edge `2 - 1 ≤ 5` registered
second. -/
def c4WStn2 : IncStn :=
  match addReifiedEdge c4WStn1 tautLit 1 2 5 c4WM with
  | some (s, _) => s
  | none => c4WStn1

/-- C4 witness scenario: the state `propagate_all` reaches right before
theory propagation of the newly activated forward direction (index 4):
activation popped, constraint marked active, propagator pushed,
`EdgeActivated` recorded. -/
def c4WStn3 : IncStn :=
  { c4WStn2 with
    pendingActivations := [5],
    constraints := dbModify c4WStn2.constraints 4 (fun c0 => { c0 with active := true }),
    activePropagators := pushPropagator c4WStn2.activePropagators 3 { target := 5, weight := 5, id := 4 },
    trail := c4WStn2.trail ++ [StnEvent.EdgeActivated 4] }

/-- C4 witness scenario: the theory-propagation call on the new edge. -/
def c4WTp : Option (Except Contradiction (IncStn × DomainsModel)) :=
  theoryPropagation 40 c4WStn3 4 c4WM

/-- C4 witness scenario: the store after theory propagation. -/
def c4WMF : DomainsModel :=
  match c4WTp with
  | some (Except.ok (_, m)) => m
  | _ => c4WM

/-- C6 scenario of the spec: a single timepoint `1 ∈ [0, 1]`. -/
def c6M : DomainsModel := { bounds := [0, 0, 0, 1], trail := trailNew DEvent }

/-- C6 scenario: the self-loop `1 - 1 ≤ -1` registered always-active (its
reifying literal is entailed at the root). -/
def c6Stn1 : IncStn :=
  match addReifiedEdge (stnNew 11) tautLit 1 1 (-1) c6M with
  | some (s, _) => s
  | none => stnNew 11

/-- C6 counterexample scenario: registration-time store with `1 ∈ [0, 1]`
and two enabler variables `2, 3 ∈ [0, 1]`. -/
def c6CMReg : DomainsModel :=
  { bounds := [0, 0, 0, 1, 0, 1, 0, 1], trail := trailNew DEvent }

/-- C6 counterexample scenario: first enabler `x2 > 0`. -/
def c6CL1 : Lit := litNew 2 Relation.Gt 0

/-- C6 counterexample scenario: second enabler `x3 > 0`. -/
def c6CL2 : Lit := litNew 3 Relation.Gt 0

/-- C6 counterexample scenario: the self-loop `1 - 1 ≤ -1` reified by
`x2 > 0` (not yet entailed at registration). -/
def c6CStn1 : IncStn :=
  match addReifiedEdge (stnNew 13) c6CL1 1 1 (-1) c6CMReg with
  | some (s, _) => s
  | none => stnNew 13

/-- C6 counterexample scenario: the same edge registered again reified by
`x3 > 0`, which unifies with the first and adds a second enabler. -/
def c6CStn : IncStn :=
  match addReifiedEdge c6CStn1 c6CL2 1 1 (-1) c6CMReg with
  | some (s, _) => s
  | none => c6CStn1

/-- C6 counterexample scenario: the store once decisions made both
enablers true (events recorded on the trail). -/
def c6CM : DomainsModel :=
  { bounds := [0, 0, 0, 1, -1, 1, -1, 1],
    trail := { events := [{ affected := 4, previous := 0, newValue := -1, cause := Cause.Decision },
                          { affected := 6, previous := 0, newValue := -1, cause := Cause.Decision }],
               backtrackPoints := [], lastBacktrack := none } }

/-- C4 witness scenario: the network after theory propagation. -/
def c4WStnF : IncStn :=
  match c4WTp with
  | some (Except.ok (s, _)) => s
  | _ => c4WStn3

/-- The fields of the network the propagation loop never touches (it only
works the internal queue and the pending-update set). -/
def sameCore (a b : IncStn) : Prop :=
  a.constraints = b.constraints ∧ a.activePropagators = b.activePropagators ∧
  a.pendingActivations = b.pendingActivations ∧ a.trail = b.trail ∧
  a.identityWriter = b.identityWriter ∧ a.modelEventsNextRead = b.modelEventsNextRead ∧
  a.modelEventsLastBt = b.modelEventsLastBt ∧
  a.theoryPropagationCauses = b.theoryPropagationCauses

/-- How the store evolves under the STN's own propagation: bounds only
tighten, the layout is unchanged, and the trail is only extended with
events authored by writer `w`. -/
def modelEvolves (w : Nat) (m m1 : DomainsModel) : Prop :=
  m1.bounds.length = m.bounds.length ∧
  (∀ vb, getBound m1 vb ≤ getBound m vb) ∧
  m1.trail.backtrackPoints = m.trail.backtrackPoints ∧
  m1.trail.lastBacktrack = m.trail.lastBacktrack ∧
  ∃ tail, m1.trail.events = m.trail.events ++ tail ∧
    ∀ ev ∈ tail, selfAuthored w ev.cause = true

/-- The in-queue marker invariant of the propagation loop: every pending
variable bound also sits in the internal queue. -/
def pendSub (stn : IncStn) : Prop :=
  ∀ vb ∈ stn.pendingUpdates, vb ∈ stn.internalPropagateQueue

-- ### Helper lemmas ###

lemma wrap32_id {x : Int} (h1 : -(2 ^ 31) ≤ x) (h2 : x < 2 ^ 31) : wrap32 x = x := by
  unfold wrap32
  omega

lemma wrap32_neg_wrap_sub (x c : Int) : wrap32 (-(wrap32 x) - c) = wrap32 (-x - c) := by
  unfold wrap32
  omega

lemma wrap32_neg_wrap (x : Int) : wrap32 (-(wrap32 x)) = wrap32 (-x) := by
  unfold wrap32
  omega

lemma wrap32_wrap_sub (x c : Int) : wrap32 (wrap32 x - c) = wrap32 (x - c) := by
  unfold wrap32
  omega

lemma vbSymm_involutive (vb : Nat) : vbSymm (vbSymm vb) = vb := by
  unfold vbSymm
  rw [Nat.xor_assoc]
  simp

lemma chainEntails_of_sorted (vb : Nat) :
    ∀ m : List Lit, List.Sorted litle m → (∀ a ∈ m, a.varBound = vb) →
    chainEntails m = true := by
  intro m
  induction m with
  | nil => intro _ _; rfl
  | cons a rest ih =>
    intro hs hm
    match rest with
    | [] => rfl
    | b :: rest2 =>
      have hab : litle a b := (List.sorted_cons.mp hs).1 b (by simp)
      have hrest : List.Sorted litle (b :: rest2) := (List.sorted_cons.mp hs).2
      have hva : a.varBound = vb := hm a (by simp)
      have hvb : b.varBound = vb := hm b (by simp)
      have hent : litEntails a b = true := by
        unfold litEntails bvStronger
        rcases hab with h | ⟨_, h⟩
        · omega
        · simp [hva, hvb, h]
      unfold chainEntails
      rw [hent]
      simp only [Bool.true_and]
      exact ih hrest (fun x hx => hm x (by simp [hx]))

-- ### Theorems ###

/-- C8: literal roundtrip.  For every variable (below the `u31` capacity of
the packed encoding), relation in `{Leq, Gt}` and 32-bit value,
`Lit::new(var, relation, value).unpack()` returns exactly
`(var, relation, value)`; and double negation is the identity on literals
(whose raw value is an `i32`). -/
theorem c8_lit_roundtrip :
    (∀ (v : Nat) (rel : Relation) (value : Int),
      v < 2 ^ 31 → -(2 ^ 31) ≤ value → value < 2 ^ 31 →
      litUnpack (litNew v rel value) = (v, rel, value)) ∧
    (∀ l : Lit, -(2 ^ 31) ≤ l.rawValue → l.rawValue < 2 ^ 31 →
      litNot (litNot l) = l) := by
  constructor
  · intro v rel value hv h1 h2
    cases rel with
    | Leq =>
      have hlit : litNew v Relation.Leq value = { varBound := 2 * v + 1, rawValue := value } := by
        unfold litNew bvUb vbUb
        simp only [Lit.mk.injEq]
        exact ⟨by omega, wrap32_id h1 h2⟩
      have hrel : litRelation { varBound := 2 * v + 1, rawValue := value } = Relation.Leq := by
        unfold litRelation vbIsUb
        simp [Nat.mul_add_mod]
      have hval : litValue { varBound := 2 * v + 1, rawValue := value } = value := by
        unfold litValue
        rw [hrel]
        rfl
      have hvar : litVariable { varBound := 2 * v + 1, rawValue := value } = v := by
        unfold litVariable vbVariable
        show (2 * v + 1) / 2 = v
        omega
      rw [hlit]
      unfold litUnpack
      rw [hrel, hval, hvar]
    | Gt =>
      have hlit : litNew v Relation.Gt value = { varBound := 2 * v, rawValue := -value - 1 } := by
        unfold litNew bvLb vbLb
        simp only [Lit.mk.injEq]
        refine ⟨by omega, ?_⟩
        rw [wrap32_neg_wrap,
          wrap32_id (show -(2 ^ 31) ≤ -(value + 1) by omega) (show -(value + 1) < 2 ^ 31 by omega)]
        omega
      have hrel : litRelation { varBound := 2 * v, rawValue := -value - 1 } = Relation.Gt := by
        unfold litRelation vbIsUb
        simp [Nat.mul_mod_right]
      have hval : litValue { varBound := 2 * v, rawValue := -value - 1 } = value := by
        unfold litValue
        rw [hrel]
        unfold bvAsLb
        have e1 : -(-value - 1) = value + 1 := by ring
        rw [e1, wrap32_wrap_sub]
        have e2 : value + 1 - 1 = value := by ring
        rw [e2, wrap32_id h1 h2]
      have hvar : litVariable { varBound := 2 * v, rawValue := -value - 1 } = v := by
        unfold litVariable vbVariable
        show (2 * v) / 2 = v
        omega
      rw [hlit]
      unfold litUnpack
      rw [hrel, hval, hvar]
  · intro l h1 h2
    unfold litNot
    simp only
    rw [vbSymm_involutive]
    have hraw : bvNeg (bvNeg l.rawValue) = l.rawValue := by
      unfold bvNeg
      rw [wrap32_neg_wrap_sub]
      have e1 : -(-l.rawValue - 1) - 1 = l.rawValue := by ring
      rw [e1, wrap32_id h1 h2]
    rw [hraw]

/-- C8 witness: the roundtrip at `(3, Gt, 2147483647)` (the extreme `i32`
value) and double negation at `x ≤ 7`. -/
theorem c8_lit_roundtrip_witness :
    litUnpack (litNew 3 Relation.Gt 2147483647) = (3, Relation.Gt, 2147483647) ∧
    litNot (litNot (litLeq 4 7)) = litLeq 4 7 :=
  ⟨c8_lit_roundtrip.1 3 Relation.Gt 2147483647 (by norm_num) (by norm_num) (by norm_num),
   c8_lit_roundtrip.2 (litLeq 4 7) (by decide) (by decide)⟩

/-- C10: Edge negation is an involution, and exactly one member of each
`{e, e.negated()}` pair is canonical (`source < target`, or
`source == target` with `weight ≥ 0`). -/
theorem c10_edge_negation :
    ∀ e : Edge, edgeNegated (edgeNegated e) = e ∧
      (edgeIsCanonical e = true ↔ edgeIsCanonical (edgeNegated e) = false) := by
  intro e
  cases e with
  | mk s t w =>
    constructor
    · unfold edgeNegated
      simp only [Edge.mk.injEq, true_and]
      omega
    · unfold edgeIsCanonical edgeNegated
      rw [Bool.eq_false_iff]
      simp only [ne_eq, Bool.or_eq_true, Bool.and_eq_true, decide_eq_true_eq, beq_iff_eq,
        not_or, not_and, not_lt, not_le]
      omega

/-- C7 counterexample: the list `[x ≤ 0, x > 0]` pertains to the single
variable `x`; its sort under the literal total order is `[x > 0, x ≤ 0]`
(lower-bound side first), and `x > 0` does not entail `x ≤ 0`, so not
every literal entails its right neighbour. -/
theorem c7_sorted_entailment_counterexample :
    allSameVariable [litLeq 1 0, litGt 1 0] = true ∧
    chainEntails (sortLits [litLeq 1 0, litGt 1 0]) = false := by
  constructor
  · decide
  · decide

/-- C7 amended: in a sorted list of literals that all pertain to the same
variable-bound (same variable and same bound side), every literal entails
the literal immediately to its right.  (For a mixed list on one variable
the lower-bound block precedes the upper-bound block and no entailment
crosses the sides.) -/
theorem c7_sorted_entailment_same_side :
    ∀ (l : List Lit) (vb : Nat), (∀ a ∈ l, a.varBound = vb) →
    chainEntails (sortLits l) = true := by
  intro l vb hmem
  have hsorted : List.Sorted litle (sortLits l) := List.sorted_insertionSort litle l
  have hperm : ∀ a ∈ sortLits l, a.varBound = vb := by
    intro a ha
    exact hmem a ((List.perm_insertionSort litle l).mem_iff.mp ha)
  exact chainEntails_of_sorted vb (sortLits l) hsorted hperm

/-- C7 amended witness: sorting two upper bounds of the same variable. -/
theorem c7_sorted_entailment_same_side_witness :
    (∀ a ∈ [litLeq 1 3, litLeq 1 1], a.varBound = vbUb 1) ∧
    chainEntails (sortLits [litLeq 1 3, litLeq 1 1]) = true :=
  ⟨by decide, c7_sorted_entailment_same_side [litLeq 1 3, litLeq 1 1] (vbUb 1) (by decide)⟩

/-- C9: calling `set_lb` with a value at most the current lower bound
(resp. `set_ub` with a value at least the current upper bound) leaves the
domain store entirely unchanged — no domain is modified and no event is
appended to the trail. -/
theorem c9_no_change_when_not_tightening :
    ∀ (m : DiscreteModel) (v : Nat) (k : Int) (cause : Cause) (dom : IntDomain),
      m.domains.get? v = some dom →
      ((k ≤ dom.lb → setLb m v k cause = some m) ∧
       (dom.ub ≤ k → setUb m v k cause = some m)) := by
  intro m v k cause dom hget
  constructor
  · intro hk
    unfold setLb
    rw [hget]
    simp only [if_neg (show ¬dom.lb < k by omega)]
  · intro hk
    unfold setUb
    rw [hget]
    simp only [if_neg (show ¬k < dom.ub by omega)]

/-- C9 witness: `set_lb` at `-3` and `set_ub` at `9` on the domain
`[0, 5]` both return the store unchanged. -/
theorem c9_no_change_when_not_tightening_witness :
    setLb c2Model 0 (-3) Cause.Decision = some c2Model ∧
    setUb c2Model 0 9 Cause.Decision = some c2Model :=
  ⟨(c9_no_change_when_not_tightening c2Model 0 (-3) Cause.Decision
      { lb := 0, ub := 5 } rfl).1 (by decide),
   (c9_no_change_when_not_tightening c2Model 0 9 Cause.Decision
      { lb := 0, ub := 5 } rfl).2 (by decide)⟩

/-- C2 failing input: on the domain `[0, 5]`, `set_lb(var, 7, Decision)`
updates the lower bound to `7` and records the `NewLB` event, but returns
normally — the resulting store has the empty domain `[7, 5]` and no
empty-domain error is reported to the caller (`set_lb` has no error
channel at all; its own `// todo: should return a result` comment and the
`set_lb(..)?` call sites elsewhere in the repository show the intent). -/
theorem c2_set_lb_silently_empties_domain :
    setLb c2Model 0 7 Cause.Decision =
      some { domains := [{ lb := 7, ub := 5 }],
             trail := { events := [({ var := 0, ev := DomEvent.NewLB 0 7 }, Cause.Decision)],
                        backtrackPoints := [], lastBacktrack := none } } ∧
    (7 : Int) > 5 := by
  constructor
  · rfl
  · decide

/-- C3 counterexample: on `c3Model` both seed literals of the empty domain
of variable `0` are implied at decision level `0` while the current level
is `1`, so after the first round the priority queue is empty and `result`
holds the two negated literals — but `explain_empty_domain` hits
`assert!(!queue.is_empty())` and fails instead of returning `result`. -/
theorem c3_empty_queue_counterexample :
    explainEmptyDomain trivialExplainer 10 c3Model 0 = none := by
  decide

/-- C3 amended: whenever the priority queue is empty after processing the
pending explanation literals of a round, `explain_empty_domain` fails its
`assert!(!queue.is_empty())` (modelled as `none`) rather than returning
the accumulated `result` vector; `result` is only returned when a popped
literal's cause is a `Decision`. -/
theorem c3_empty_queue_asserts :
    ∀ (exp : Explainer) (dl fuel : Nat) (m : DiscreteModel) (explLits : List ILit)
      (queue : List InQueueLit) (result result1 : List ILit),
      processExplanationLits m dl explLits queue result = some ([], result1) →
      explainLoop exp dl (fuel + 1) m explLits queue result = none := by
  intro exp dl fuel m explLits queue result result1 h
  unfold explainLoop
  rw [h]
  rfl

/-- C3 amended witness: the first round of the `c3Model` scenario drains
the seed literals into `result` with an empty queue, and the loop fails. -/
theorem c3_empty_queue_asserts_witness :
    processExplanationLits c3Model 1 [ILit.GT 0 4, ILit.LEQ 0 4] [] [] =
      some ([], [ILit.LEQ 0 4, ILit.GT 0 4]) ∧
    explainLoop trivialExplainer 1 10 c3Model [ILit.GT 0 4, ILit.LEQ 0 4] [] [] = none :=
  ⟨by decide,
   c3_empty_queue_asserts trivialExplainer 1 9 c3Model [ILit.GT 0 4, ILit.LEQ 0 4] [] []
     [ILit.LEQ 0 4, ILit.GT 0 4] (by decide)⟩

-- ### C5 helper lemmas: cursor trace invariant ###

lemma list_getElem?_set_self {α : Type} (l : List α) (i : Nat) (a : α) (h : i < l.length) :
    (l.set i a)[i]? = some a := by
  induction l generalizing i with
  | nil => simp at h
  | cons x xs ih =>
    cases i with
    | zero => simp
    | succ n =>
      simp only [List.set_cons_succ, List.getElem?_cons_succ]
      exact ih n (by simpa using h)

lemma list_getElem?_set_ne {α : Type} (l : List α) (i j : Nat) (a : α) (h : i ≠ j) :
    (l.set i a)[j]? = l[j]? := by
  induction l generalizing i j with
  | nil => simp
  | cons x xs ih =>
    cases i with
    | zero =>
      cases j with
      | zero => exact absurd rfl h
      | succ m => simp
    | succ n =>
      cases j with
      | zero => simp
      | succ m =>
        simp only [List.set_cons_succ, List.getElem?_cons_succ]
        exact ih n m (by omega)

lemma list_getD_eq {α : Type} (l : List α) (i : Nat) (d : α) : l.getD i d = (l[i]?).getD d := by
  simp [List.getD]

lemma cursorSync_congr {V : Type} (c : CursorState) (q q' : ObsTrail V)
    (h : q'.lastBacktrack = q.lastBacktrack) : cursorSync c q' = cursorSync c q := by
  unfold cursorSync
  rw [h]

lemma cursorSync_seen_some {V : Type} (c : CursorState) (q : ObsTrail V) (nr i : Nat)
    (h : q.lastBacktrack = some (nr, i)) : (cursorSync c q).lastBacktrackSeen = some i := by
  by_cases hs : c.lastBacktrackSeen = some i
  · simp [cursorSync, h, hs]
  · simp [cursorSync, h, hs]

lemma cursorSync_of_seen {V : Type} (c : CursorState) (q : ObsTrail V)
    (h : ∀ nr i, q.lastBacktrack = some (nr, i) → c.lastBacktrackSeen = some i) :
    cursorSync c q = c := by
  unfold cursorSync
  cases hq : q.lastBacktrack with
  | none => rfl
  | some p =>
    obtain ⟨nr, i⟩ := p
    dsimp only
    rw [if_neg]
    simp only [ne_eq, not_not]
    exact h nr i hq

lemma effNextRead_le {V : Type} (c : CursorState) (q : ObsTrail V) : effNextRead c q ≤ c.nextRead := by
  unfold effNextRead cursorSync
  cases hq : q.lastBacktrack with
  | none => exact Nat.le_refl _
  | some p =>
    obtain ⟨nr, i⟩ := p
    dsimp only
    split_ifs with h1 h2
    · show nr ≤ c.nextRead
      omega
    · show c.nextRead ≤ c.nextRead
      omega
    · show c.nextRead ≤ c.nextRead
      omega

lemma effNextRead_restore {V : Type} (c : CursorState) (q q' : ObsTrail V) (a : Nat)
    (h : q'.lastBacktrack = some (a, btCount q))
    (hseen : ∀ j, c.lastBacktrackSeen = some j → j < btCount q) :
    effNextRead c q' = if a < c.nextRead then a else c.nextRead := by
  unfold effNextRead cursorSync
  simp only [h]
  rw [if_pos (show c.lastBacktrackSeen ≠ some (btCount q) from by
    intro hcontra
    have := hseen (btCount q) hcontra
    omega)]

lemma list_getElem?_some_lt {α : Type} (l : List α) (i : Nat) (a : α) (h : l[i]? = some a) :
    i < l.length := by
  by_contra hge
  rw [List.getElem?_eq_none (by omega)] at h
  simp at h

lemma list_getElem?_some_mem {α : Type} (l : List α) (i : Nat) (a : α) (h : l[i]? = some a) :
    a ∈ l := by
  induction l generalizing i with
  | nil => simp at h
  | cons x xs ih =>
    cases i with
    | zero =>
      simp only [List.getElem?_cons_zero, Option.some.injEq] at h
      subst h
      exact List.mem_cons_self _ _
    | succ n =>
      simp only [List.getElem?_cons_succ] at h
      exact List.mem_cons_of_mem _ (ih n h)

lemma list_nodup_getElem?_inj {α : Type} (l : List α) (hnd : l.Nodup) (i j : Nat) (a : α)
    (h1 : l[i]? = some a) (h2 : l[j]? = some a) : i = j := by
  induction l generalizing i j with
  | nil => simp at h1
  | cons x xs ih =>
    have hx : x ∉ xs := (List.nodup_cons.mp hnd).1
    have hxs : xs.Nodup := (List.nodup_cons.mp hnd).2
    cases i with
    | zero =>
      cases j with
      | zero => rfl
      | succ m =>
        simp only [List.getElem?_cons_zero, Option.some.injEq] at h1
        simp only [List.getElem?_cons_succ] at h2
        subst h1
        exact absurd (list_getElem?_some_mem xs m x h2) hx
    | succ n =>
      cases j with
      | zero =>
        simp only [List.getElem?_cons_zero, Option.some.injEq] at h2
        simp only [List.getElem?_cons_succ] at h1
        subst h2
        exact absurd (list_getElem?_some_mem xs n x h1) hx
      | succ m =>
        simp only [List.getElem?_cons_succ] at h1 h2
        exact congrArg Nat.succ (ih hxs n m h1 h2)

lemma list_getElem?_take_some {α : Type} (l : List α) (n i : Nat) (x : α)
    (h : (l.take n)[i]? = some x) : i < n ∧ l[i]? = some x := by
  induction l generalizing n i with
  | nil => simp at h
  | cons y ys ih =>
    cases n with
    | zero => simp at h
    | succ m =>
      cases i with
      | zero =>
        simp only [List.take_succ_cons, List.getElem?_cons_zero] at h ⊢
        exact ⟨Nat.zero_lt_succ _, h⟩
      | succ j =>
        simp only [List.take_succ_cons, List.getElem?_cons_succ] at h ⊢
        have := ih m j h
        exact ⟨by omega, this.2⟩

lemma traceInv_push {s s' : TraceState} (hinv : TraceInv s)
    (hstep : traceStep s TrailOp.push = some s') : TraceInv s' := by
  have hs' : s' = { s with trail := trailPush s.trail s.nextSerial,
                           nextSerial := s.nextSerial + 1 } := by
    simpa [traceStep] using hstep.symm
  subst hs'
  refine ⟨?_, ?_, hinv.len_eq, ?_, ?_, hinv.log_nodup, ?_⟩
  · intro e he
    rcases List.mem_append.mp he with h1 | h1
    · exact Nat.lt_succ_of_lt (hinv.events_lt e h1)
    · simp only [List.mem_singleton] at h1
      subst h1
      exact Nat.lt_succ_self s.nextSerial
  · show (s.trail.events ++ [s.nextSerial]).Nodup
    rw [List.nodup_append]
    refine ⟨hinv.events_nodup, List.nodup_singleton _, ?_⟩
    intro a ha hb
    simp only [List.mem_singleton] at hb
    subst hb
    exact absurd (hinv.events_lt _ ha) (by omega)
  · intro k c hk j hj
    exact hinv.seen_lt k c hk j hj
  · intro k ser hser
    exact Nat.lt_succ_of_lt (hinv.log_lt k ser hser)
  · intro k c hk ser hser i hi
    have heff : effNextRead c (trailPush s.trail s.nextSerial) = effNextRead c s.trail := by
      unfold effNextRead
      rw [cursorSync_congr c s.trail (trailPush s.trail s.nextSerial) rfl]
    rw [heff]
    rcases Nat.lt_or_ge i s.trail.events.length with hlen | hlen
    · rw [show (trailPush s.trail s.nextSerial).events = s.trail.events ++ [s.nextSerial] from rfl,
        List.getElem?_append, if_pos hlen] at hi
      exact hinv.log_pos k c hk ser hser i hi
    · rw [show (trailPush s.trail s.nextSerial).events = s.trail.events ++ [s.nextSerial] from rfl,
        List.getElem?_append, if_neg (by omega)] at hi
      have hser_lt := hinv.log_lt k ser hser
      cases hm : i - s.trail.events.length with
      | zero =>
        rw [hm] at hi
        simp only [List.getElem?_cons_zero, Option.some.injEq] at hi
        omega
      | succ m =>
        rw [hm] at hi
        simp at hi

lemma traceInv_save {s s' : TraceState} (hinv : TraceInv s)
    (hstep : traceStep s TrailOp.save = some s') : TraceInv s' := by
  have hs' : s' = { s with trail := trailSaveState s.trail } := by
    simpa [traceStep] using hstep.symm
  subst hs'
  refine ⟨hinv.events_lt, hinv.events_nodup, hinv.len_eq, ?_, hinv.log_lt, hinv.log_nodup, ?_⟩
  · intro k c hk j hj
    exact hinv.seen_lt k c hk j hj
  · intro k c hk ser hser i hi
    have heff : effNextRead c (trailSaveState s.trail) = effNextRead c s.trail := by
      unfold effNextRead
      rw [cursorSync_congr c s.trail (trailSaveState s.trail) rfl]
    rw [heff]
    exact hinv.log_pos k c hk ser hser i hi

lemma traceInv_restore {s s' : TraceState} (hinv : TraceInv s)
    (hstep : traceStep s TrailOp.restore = some s') : TraceInv s' := by
  unfold traceStep at hstep
  cases hq : trailRestoreLast s.trail with
  | none =>
    rw [hq] at hstep
    simp at hstep
  | some q' =>
    rw [hq] at hstep
    simp only [Option.some.injEq] at hstep
    have hs' : s' = { s with trail := q' } := hstep.symm
    subst hs'
    unfold trailRestoreLast at hq
    cases hl : s.trail.backtrackPoints.getLast? with
    | none =>
      rw [hl] at hq
      simp at hq
    | some a =>
      rw [hl] at hq
      simp only [Option.some.injEq] at hq
      have hq' : q' = { events := s.trail.events.take a,
                        backtrackPoints := s.trail.backtrackPoints.dropLast,
                        lastBacktrack := some (a, btCount s.trail) } := hq.symm
      subst hq'
      refine ⟨?_, ?_, hinv.len_eq, ?_, hinv.log_lt, hinv.log_nodup, ?_⟩
      · intro e he
        exact hinv.events_lt e ((List.take_sublist a _).subset he)
      · exact hinv.events_nodup.sublist (List.take_sublist a _)
      · intro k c hk j hj
        exact Nat.lt_succ_of_lt (hinv.seen_lt k c hk j hj)
      · intro k c hk ser hser i hi
        obtain ⟨hia, hievents⟩ := list_getElem?_take_some _ _ _ _ hi
        have hold := hinv.log_pos k c hk ser hser i hievents
        have hle := effNextRead_le c s.trail
        have heff := effNextRead_restore c s.trail
          { events := s.trail.events.take a,
            backtrackPoints := s.trail.backtrackPoints.dropLast,
            lastBacktrack := some (a, btCount s.trail) } a rfl (hinv.seen_lt k c hk)
        rw [heff]
        split_ifs <;> omega

lemma cursorSync_seen_lt {s : TraceState} (hinv : TraceInv s) {k : Nat} {c : CursorState}
    (hc : s.cursors[k]? = some c) :
    ∀ j, (cursorSync c s.trail).lastBacktrackSeen = some j → j < btCount s.trail := by
  intro j hj
  cases hlb : s.trail.lastBacktrack with
  | none =>
    have hcc : cursorSync c s.trail = c := by
      apply cursorSync_of_seen
      intro nr i0 h
      rw [hlb] at h
      exact absurd h (by simp)
    rw [hcc] at hj
    exact hinv.seen_lt k c hc j hj
  | some p =>
    obtain ⟨nr, i0⟩ := p
    have hsome := cursorSync_seen_some c s.trail nr i0 hlb
    rw [hsome] at hj
    have hji : j = i0 := by
      injection hj with h
      omega
    have hbt : btCount s.trail = i0 + 1 := by
      unfold btCount
      rw [hlb]
    omega

lemma traceInv_read {s s' : TraceState} {k : Nat} (hinv : TraceInv s)
    (hstep : traceStep s (TrailOp.read k) = some s') : TraceInv s' := by
  unfold traceStep at hstep
  dsimp only at hstep
  cases hc : s.cursors[k]? with
  | none =>
    rw [hc] at hstep
    simp at hstep
  | some c =>
    rw [hc] at hstep
    dsimp only at hstep
    have hklt : k < s.cursors.length := list_getElem?_some_lt _ _ _ hc
    have hkltL : k < s.logs.length := by
      rw [← hinv.len_eq]
      exact hklt
    have hsync_lt := cursorSync_seen_lt hinv hc
    have heffc : effNextRead c s.trail = (cursorSync c s.trail).nextRead := rfl
    cases hres : s.trail.events[(cursorSync c s.trail).nextRead]? with
    | some v =>
      have hpop : cursorPop c s.trail =
          ({ nextRead := (cursorSync c s.trail).nextRead + 1,
             lastBacktrackSeen := (cursorSync c s.trail).lastBacktrackSeen }, some v) := by
        simp only [cursorPop, hres]
      rw [hpop] at hstep
      dsimp only at hstep
      simp only [Option.some.injEq] at hstep
      have hs' : s' = { s with
          cursors := s.cursors.set k
            { nextRead := (cursorSync c s.trail).nextRead + 1,
              lastBacktrackSeen := (cursorSync c s.trail).lastBacktrackSeen },
          logs := s.logs.set k (s.logs.getD k [] ++ [v]) } := hstep.symm
      subst hs'
      have hvnotin : v ∉ s.logs.getD k [] := by
        intro hv
        have := hinv.log_pos k c hc v hv _ hres
        rw [heffc] at this
        omega
      refine ⟨?_, ?_, ?_, ?_, ?_, ?_, ?_⟩ <;> dsimp only
      · exact hinv.events_lt
      · exact hinv.events_nodup
      · rw [List.length_set, List.length_set]
        exact hinv.len_eq
      · intro k' c' hk' j hj
        by_cases hkk : k' = k
        · subst hkk
          rw [list_getElem?_set_self _ _ _ hklt] at hk'
          simp only [Option.some.injEq] at hk'
          subst hk'
          exact hsync_lt j hj
        · rw [list_getElem?_set_ne _ _ _ _ (by omega)] at hk'
          exact hinv.seen_lt k' c' hk' j hj
      · intro k' ser hser
        by_cases hkk : k' = k
        · subst hkk
          rw [list_getD_eq, list_getElem?_set_self _ _ _ hkltL] at hser
          simp only [Option.getD_some] at hser
          rcases List.mem_append.mp hser with h1 | h1
          · exact hinv.log_lt _ ser h1
          · simp only [List.mem_singleton] at h1
            subst h1
            exact hinv.events_lt _ (list_getElem?_some_mem _ _ _ hres)
        · rw [list_getD_eq, list_getElem?_set_ne _ _ _ _ (by omega), ← list_getD_eq] at hser
          exact hinv.log_lt k' ser hser
      · intro k'
        by_cases hkk : k' = k
        · subst hkk
          rw [list_getD_eq, list_getElem?_set_self _ _ _ hkltL]
          simp only [Option.getD_some]
          rw [List.nodup_append]
          refine ⟨hinv.log_nodup _, List.nodup_singleton _, ?_⟩
          intro a ha hb
          simp only [List.mem_singleton] at hb
          subst hb
          exact hvnotin ha
        · rw [list_getD_eq, list_getElem?_set_ne _ _ _ _ (by omega), ← list_getD_eq]
          exact hinv.log_nodup k'
      · intro k' c' hk' ser hser i hi
        by_cases hkk : k' = k
        · subst hkk
          rw [list_getElem?_set_self _ _ _ hklt] at hk'
          simp only [Option.some.injEq] at hk'
          subst hk'
          rw [list_getD_eq, list_getElem?_set_self _ _ _ hkltL] at hser
          simp only [Option.getD_some] at hser
          have heffNew : effNextRead
              { nextRead := (cursorSync c s.trail).nextRead + 1,
                lastBacktrackSeen := (cursorSync c s.trail).lastBacktrackSeen } s.trail =
              (cursorSync c s.trail).nextRead + 1 := by
            unfold effNextRead
            rw [cursorSync_of_seen _ s.trail (by
              intro nr i0 h
              exact cursorSync_seen_some c s.trail nr i0 h)]
          rw [heffNew]
          rcases List.mem_append.mp hser with h1 | h1
          · have := hinv.log_pos _ c hc ser h1 i hi
            rw [heffc] at this
            omega
          · simp only [List.mem_singleton] at h1
            subst h1
            have := list_nodup_getElem?_inj _ hinv.events_nodup _ _ _ hi hres
            omega
        · rw [list_getElem?_set_ne _ _ _ _ (by omega)] at hk'
          rw [list_getD_eq, list_getElem?_set_ne _ _ _ _ (by omega), ← list_getD_eq] at hser
          exact hinv.log_pos k' c' hk' ser hser i hi
    | none =>
      have hpop : cursorPop c s.trail = (cursorSync c s.trail, none) := by
        simp only [cursorPop, hres]
      rw [hpop] at hstep
      dsimp only at hstep
      simp only [Option.some.injEq] at hstep
      have hs' : s' = { s with cursors := s.cursors.set k (cursorSync c s.trail) } := hstep.symm
      subst hs'
      refine ⟨?_, ?_, ?_, ?_, ?_, ?_, ?_⟩ <;> dsimp only
      · exact hinv.events_lt
      · exact hinv.events_nodup
      · rw [List.length_set]
        exact hinv.len_eq
      · intro k' c' hk' j hj
        by_cases hkk : k' = k
        · subst hkk
          rw [list_getElem?_set_self _ _ _ hklt] at hk'
          simp only [Option.some.injEq] at hk'
          subst hk'
          exact hsync_lt j hj
        · rw [list_getElem?_set_ne _ _ _ _ (by omega)] at hk'
          exact hinv.seen_lt k' c' hk' j hj
      · exact hinv.log_lt
      · exact hinv.log_nodup
      · intro k' c' hk' ser hser i hi
        by_cases hkk : k' = k
        · subst hkk
          rw [list_getElem?_set_self _ _ _ hklt] at hk'
          simp only [Option.some.injEq] at hk'
          subst hk'
          have heffNew : effNextRead (cursorSync c s.trail) s.trail =
              (cursorSync c s.trail).nextRead := by
            unfold effNextRead
            rw [cursorSync_of_seen _ s.trail (by
              intro nr i0 h
              exact cursorSync_seen_some c s.trail nr i0 h)]
          rw [heffNew]
          have := hinv.log_pos _ c hc ser hser i hi
          rw [heffc] at this
          omega
        · rw [list_getElem?_set_ne _ _ _ _ (by omega)] at hk'
          exact hinv.log_pos k' c' hk' ser hser i hi

lemma replicate_nil_getD (n k : Nat) : (List.replicate n ([] : List Nat)).getD k [] = [] := by
  rw [list_getD_eq]
  cases h : (List.replicate n ([] : List Nat))[k]? with
  | none => rfl
  | some l =>
    have hl : l = [] := List.eq_of_mem_replicate (list_getElem?_some_mem _ _ _ h)
    subst hl
    rfl

lemma traceInv_init (n : Nat) : TraceInv (traceInit n) := by
  refine ⟨?_, ?_, ?_, ?_, ?_, ?_, ?_⟩
  · intro e he
    simp [traceInit, trailNew] at he
  · simp [traceInit, trailNew]
  · simp [traceInit]
  · intro k c hk j hj
    have hc : c = { nextRead := 0, lastBacktrackSeen := none } := by
      have hmem := list_getElem?_some_mem _ _ _ hk
      simp only [traceInit, List.mem_replicate] at hmem
      exact hmem.2
    subst hc
    simp at hj
  · intro k ser hser
    have hnil : (traceInit n).logs.getD k [] = [] := replicate_nil_getD n k
    rw [hnil] at hser
    simp at hser
  · intro k
    have hnil : (traceInit n).logs.getD k [] = [] := replicate_nil_getD n k
    rw [hnil]
    exact List.nodup_nil
  · intro k c hk ser hser i hi
    have hnil : (traceInit n).logs.getD k [] = [] := replicate_nil_getD n k
    rw [hnil] at hser
    simp at hser

lemma traceInv_step {s s' : TraceState} {op : TrailOp} (hinv : TraceInv s)
    (hstep : traceStep s op = some s') : TraceInv s' := by
  cases op with
  | push => exact traceInv_push hinv hstep
  | save => exact traceInv_save hinv hstep
  | restore => exact traceInv_restore hinv hstep
  | read k => exact traceInv_read hinv hstep

lemma traceInv_run : ∀ (ops : List TrailOp) (s s' : TraceState),
    TraceInv s → traceRun ops s = some s' → TraceInv s' := by
  intro ops
  induction ops with
  | nil =>
    intro s s' hinv h
    unfold traceRun at h
    simp only [Option.some.injEq] at h
    subst h
    exact hinv
  | cons op rest ih =>
    intro s s' hinv h
    unfold traceRun at h
    cases hstep : traceStep s op with
    | none =>
      rw [hstep] at h
      simp at h
    | some s1 =>
      rw [hstep] at h
      exact ih s1 s' (traceInv_step hinv hstep) h

/-- C5: for every interleaving of `push`, `save_state`, `restore_last`
and cursor reads — including more than one `restore_last` between two
consecutive reads of the same cursor — each cursor returns every trail
event at most once (its log of event serials has no duplicate), and any
read that returns an event returns one that is live in the trail at that
moment (never an event undone by a restore). -/
theorem c5_cursor_reads_sound :
    (∀ (ops : List TrailOp) (n : Nat) (s : TraceState),
      traceRun ops (traceInit n) = some s → ∀ k : Nat, (s.logs.getD k []).Nodup) ∧
    (∀ (ops : List TrailOp) (n k : Nat) (s s2 : TraceState) (ser : Nat),
      traceRun ops (traceInit n) = some s →
      traceStep s (TrailOp.read k) = some s2 →
      s2.logs.getD k [] = s.logs.getD k [] ++ [ser] →
      ser ∈ s.trail.events) := by
  constructor
  · intro ops n s h k
    exact (traceInv_run ops (traceInit n) s (traceInv_init n) h).log_nodup k
  · intro ops n k s s2 ser hrun hstep hlog
    have hinv : TraceInv s := traceInv_run ops (traceInit n) s (traceInv_init n) hrun
    unfold traceStep at hstep
    dsimp only at hstep
    cases hc : s.cursors[k]? with
    | none =>
      rw [hc] at hstep
      simp at hstep
    | some c =>
      rw [hc] at hstep
      dsimp only at hstep
      have hklt : k < s.cursors.length := list_getElem?_some_lt _ _ _ hc
      have hkltL : k < s.logs.length := by
        rw [← hinv.len_eq]
        exact hklt
      cases hres : s.trail.events[(cursorSync c s.trail).nextRead]? with
      | some v =>
        have hpop : cursorPop c s.trail =
            ({ nextRead := (cursorSync c s.trail).nextRead + 1,
               lastBacktrackSeen := (cursorSync c s.trail).lastBacktrackSeen }, some v) := by
          simp only [cursorPop, hres]
        rw [hpop] at hstep
        dsimp only at hstep
        simp only [Option.some.injEq] at hstep
        rw [← hstep] at hlog
        dsimp only at hlog
        rw [list_getD_eq, list_getElem?_set_self _ _ _ hkltL] at hlog
        simp only [Option.getD_some] at hlog
        have hv : v = ser := by
          have := List.append_cancel_left hlog
          simp only [List.cons.injEq] at this
          exact this.1
        subst hv
        exact list_getElem?_some_mem _ _ _ hres
      | none =>
        have hpop : cursorPop c s.trail = (cursorSync c s.trail, none) := by
          simp only [cursorPop, hres]
        rw [hpop] at hstep
        dsimp only at hstep
        simp only [Option.some.injEq] at hstep
        rw [← hstep] at hlog
        dsimp only at hlog
        have := congrArg List.length hlog
        simp at this

/-- C5 witness: the sequence `c5Ops` (with two backtracks between reads)
runs to `c5FinalState` with a duplicate-free log, and the read after
`[push, save, push, read 0]` returns the live event `1`. -/
theorem c5_cursor_reads_sound_witness :
    traceRun c5Ops (traceInit 1) = some c5FinalState ∧
    (c5FinalState.logs.getD 0 []).Nodup ∧
    (1 : Nat) ∈ c5MidState.trail.events :=
  ⟨by decide,
   c5_cursor_reads_sound.1 c5Ops 1 c5FinalState (by decide) 0,
   c5_cursor_reads_sound.2 [TrailOp.push, TrailOp.save, TrailOp.push, TrailOp.read 0] 1 0
     c5MidState
     { c5MidState with cursors := [{ nextRead := 2, lastBacktrackSeen := none }],
                       logs := [[0, 1]] } 1
     (by decide) (by decide) (by decide)⟩

/-- C6 counterexample: with both enablers of the negative self-loop
entailed, the contradiction returned by `propagate_all` carries only the
first entailed enabler, not the full list of entailed enablers of the
edge. -/
theorem c6_first_enabler_counterexample :
    propagateAll 20 c6CStn c6CM = some (Except.error (Contradiction.explanation [c6CL1])) ∧
    c6CStn.constraints.constraints[2]? =
      some { active := false, source := 3, target := 3, weight := -1,
             alwaysActive := false, enablers := [c6CL1, c6CL2] } ∧
    dmEntailsB c6CM c6CL1 = true ∧
    dmEntailsB c6CM c6CL2 = true ∧
    [c6CL1] ≠ List.filter (fun l => dmEntailsB c6CM l) [c6CL1, c6CL2] :=
  ⟨rfl, by decide, by decide, by decide, by decide⟩

/-- C6 (amended): when the activation drain of `propagate_all` pops an
inactive constraint whose source bound equals its target bound, then: if
the weight is tightening it stops with a contradiction whose explanation
is empty for an always-active edge and otherwise holds exactly the first
entailed enabler of the edge (panic when no enabler is entailed); if the
weight is not tightening, the edge is marked active with no propagator and
the drain continues. -/
theorem c6_self_loop_activation (fuel : Nat) (stn : IncStn) (m : DomainsModel)
    (edge : Nat) (rest : List Nat) (c : DirConstraint)
    (hpend : stn.pendingActivations = edge :: rest)
    (hc : stn.constraints.constraints[edge]? = some c)
    (hinact : c.active = false)
    (hself : c.source = c.target) :
    (bvaIsTightening c.weight = true →
      (c.alwaysActive = true →
        drainActivations (fuel + 1) stn m =
          some (Except.error (Contradiction.explanation []))) ∧
      (c.alwaysActive = false →
        drainActivations (fuel + 1) stn m =
          (firstEntailedEnabler m c.enablers).map
            (fun l => Except.error (Contradiction.explanation [l])))) ∧
    (bvaIsTightening c.weight = false →
      drainActivations (fuel + 1) stn m = drainActivations fuel (c6Activate stn edge rest) m) := by
  have hlt : edge < stn.constraints.constraints.length := by
    by_contra hge
    rw [List.getElem?_eq_none (by omega)] at hc
    exact Option.noConfusion hc
  have hact : (c6Activate stn edge rest).constraints.constraints[edge]? =
      some { c with active := true } := by
    simp only [c6Activate, dbModify, hc]
    exact list_getElem?_set_self _ _ _ hlt
  have hbase : drainActivations (fuel + 1) stn m =
      if bvaIsTightening c.weight = true then
        match buildContradiction (c6Activate stn edge rest) [edge] m with
        | none => none
        | some contra => some (Except.error contra)
      else drainActivations fuel (c6Activate stn edge rest) m := by
    conv_lhs => unfold drainActivations
    rw [hpend]
    dsimp only
    rw [hc]
    dsimp only
    rw [hinact]
    rw [if_neg (show ¬(false = true) from fun h => Bool.noConfusion h)]
    rw [if_pos hself]
    rfl
  have hbc : buildContradiction (c6Activate stn edge rest) [edge] m =
      (if c.alwaysActive = true then some (Contradiction.explanation [])
       else (firstEntailedEnabler m c.enablers).map
         (fun l => Contradiction.explanation [l])) := by
    unfold buildContradiction buildContradictionAux
    rw [hact]
    dsimp only
    by_cases halw : c.alwaysActive = true
    · rw [if_pos (show ({ c with active := true } : DirConstraint).alwaysActive = true from halw),
          if_pos halw]
      dsimp only [buildContradictionAux, Option.map]
    · rw [Bool.not_eq_true] at halw
      rw [if_neg (show ¬(({ c with active := true } : DirConstraint).alwaysActive = true) by
            simp [halw]),
          if_neg (by simp [halw])]
      cases hfe : firstEntailedEnabler m c.enablers with
      | none => simp
      | some l => simp [buildContradictionAux]
  constructor
  · intro htight
    rw [hbase, if_pos htight, hbc]
    constructor
    · intro halw
      rw [if_pos halw]
    · intro halw
      rw [if_neg (by simp [halw])]
      cases hfe : firstEntailedEnabler m c.enablers with
      | none => simp
      | some l => simp
  · intro htight
    rw [hbase, if_neg (by simp [htight])]

/-- C6 witness: in the spec scenario (`1 ∈ [0, 1]`, always-active edge
`1 - 1 ≤ -1`), the pending forward direction (index 2) is a tightening
self-loop, the drain stops with the empty explanation, and the full
`propagate_all` reports the same contradiction. -/
theorem c6_self_loop_activation_witness :
    drainActivations 30 c6Stn1 c6M = some (Except.error (Contradiction.explanation [])) ∧
    propagateAll 31 c6Stn1 c6M = some (Except.error (Contradiction.explanation [])) :=
  ⟨((c6_self_loop_activation 29 c6Stn1 c6M 2 [3]
      { active := false, source := 3, target := 3, weight := -1,
        alwaysActive := true, enablers := [] }
      (by decide) (by decide) rfl rfl).1 rfl).1 rfl,
   rfl⟩

/-- C4 counterexample: the reified edge `1 - 2 ≤ -7` registered after the
propagation that activated `2 - 1 ≤ 5` would close a negative cycle
(`5 + (-7) < 0`) with the active edges, yet a further `propagate_all`
returns Ok without touching the store and the edge's enabler is never
forced to false. -/
theorem c4_late_registration_counterexample :
    c4Prop2 = some (Except.ok (c4Stn3, c4M0)) ∧
    c4Stn3.constraints.constraints[6]? =
      some { active := false, source := 5, target := 3, weight := -7,
             alwaysActive := false, enablers := [c4Lit2] } ∧
    dirPathWeight c4Stn3 3 [0] 5 = some 5 ∧
    (5 : Int) + (-7) < 0 ∧
    dmEntailsB c4M0 (litNot c4Lit2) = false :=
  ⟨rfl, by decide, by decide, by decide, by decide⟩

lemma list_set_getD_le (l : List Int) (i j : Nat) (a : Int) (h : a ≤ l.getD i 0) :
    (l.set i a).getD j 0 ≤ l.getD j 0 := by
  by_cases hij : j = i
  · subst hij
    by_cases hlen : j < l.length
    · rw [list_getD_eq, list_getElem?_set_self _ _ _ hlen]
      simpa using h
    · rw [list_getD_eq, list_getD_eq,
          List.getElem?_eq_none (by simp; omega),
          List.getElem?_eq_none (by omega)]
  · rw [list_getD_eq, list_getD_eq, list_getElem?_set_ne _ _ _ _ (fun hh => hij hh.symm)]

lemma setBound_ok_le {m m1 : DomainsModel} {vb : Nat} {r : Int} {cs : Cause} {b : Bool}
    (h : setBound m vb r cs = Except.ok (b, m1)) (vb2 : Nat) :
    getBound m1 vb2 ≤ getBound m vb2 := by
  unfold setBound at h
  dsimp only at h
  by_cases hr : r < getBound m vb
  · rw [if_pos hr] at h
    split at h
    · simp at h
    · simp only [Except.ok.injEq, Prod.mk.injEq] at h
      rw [← h.2]
      unfold getBound
      dsimp only
      exact list_set_getD_le _ _ _ _ (le_of_lt hr)
  · rw [if_neg hr] at h
    simp only [Except.ok.injEq, Prod.mk.injEq] at h
    rw [← h.2]

lemma setBound_ok_length {m m1 : DomainsModel} {vb : Nat} {r : Int} {cs : Cause} {b : Bool}
    (h : setBound m vb r cs = Except.ok (b, m1)) :
    m1.bounds.length = m.bounds.length := by
  unfold setBound at h
  dsimp only at h
  by_cases hr : r < getBound m vb
  · rw [if_pos hr] at h
    split at h
    · simp at h
    · simp only [Except.ok.injEq, Prod.mk.injEq] at h
      rw [← h.2]
      simp
  · rw [if_neg hr] at h
    simp only [Except.ok.injEq, Prod.mk.injEq] at h
    rw [← h.2]

lemma setBound_ok_at {m m1 : DomainsModel} {vb : Nat} {r : Int} {cs : Cause} {b : Bool}
    (h : setBound m vb r cs = Except.ok (b, m1)) (hlen : vb < m.bounds.length) :
    getBound m1 vb ≤ r := by
  unfold setBound at h
  dsimp only at h
  by_cases hr : r < getBound m vb
  · rw [if_pos hr] at h
    split at h
    · simp at h
    · simp only [Except.ok.injEq, Prod.mk.injEq] at h
      rw [← h.2]
      unfold getBound
      dsimp only
      rw [list_getD_eq, list_getElem?_set_self _ _ _ hlen]
      simp
  · rw [if_neg hr] at h
    simp only [Except.ok.injEq, Prod.mk.injEq] at h
    rw [← h.2]
    omega

lemma dmEntailsB_mono {m m1 : DomainsModel} (hle : ∀ vb, getBound m1 vb ≤ getBound m vb)
    {l : Lit} (h : dmEntailsB m l = true) : dmEntailsB m1 l = true := by
  unfold dmEntailsB at h ⊢
  simp only [decide_eq_true_eq] at h ⊢
  exact le_trans (hle l.varBound) h

lemma potentialOutEdges_mem {db : ConstraintDb} {s : Nat} {pot : EdgeTarget}
    (h : pot ∈ potentialOutEdges db s) : (s, pot) ∈ db.edges := by
  unfold potentialOutEdges at h
  simp only [List.mem_map, List.mem_filter] at h
  obtain ⟨⟨a, b⟩, ⟨hmem, hkey⟩, hsnd⟩ := h
  simp only [beq_iff_eq] at hkey
  dsimp only at hsnd hkey
  subst hkey
  subst hsnd
  exact hmem

lemma tpInner_ok_facts {cw : Int} {succ : List (Nat × Int)} {p : Nat} {pd : Int}
    {pots : List EdgeTarget} {stn stn1 : IncStn} {m m1 : DomainsModel}
    (h : tpInner cw succ p pd pots stn m = some (Except.ok (stn1, m1))) :
    stn1.constraints = stn.constraints ∧ stn1.identityWriter = stn.identityWriter ∧
      m1.bounds.length = m.bounds.length ∧ ∀ vb, getBound m1 vb ≤ getBound m vb := by
  induction pots generalizing stn m with
  | nil =>
    unfold tpInner at h
    simp only [Option.some.injEq, Except.ok.injEq, Prod.mk.injEq] at h
    rw [← h.1, ← h.2]
    exact ⟨rfl, rfl, rfl, fun _ => le_refl _⟩
  | cons pot0 rest ih =>
    unfold tpInner at h
    cases hA : assocFindNat succ (vbSymm pot0.target) with
    | none =>
      rw [hA] at h
      exact ih h
    | some fd0 =>
      rw [hA] at h
      dsimp only at h
      by_cases hcond : pd + pot0.weight + cw + fd0 < 0 ∧ dmEntailsB m (litNot pot0.enabler) = false
      · rw [if_pos hcond] at h
        cases hset : dmSet m (litNot pot0.enabler)
            (Cause.Inference { writer := stn.identityWriter,
                               payload := 2 * stn.theoryPropagationCauses.length + 1 }) with
        | error v => rw [hset] at h; simp at h
        | ok pr =>
          obtain ⟨b, m2⟩ := pr
          rw [hset] at h
          dsimp only at h
          obtain ⟨h1, h2, h3, h4⟩ := ih h
          refine ⟨h1, h2, ?_, ?_⟩
          · rw [h3]
            exact setBound_ok_length hset
          · intro vb
            exact le_trans (h4 vb) (setBound_ok_le hset vb)
      · rw [if_neg hcond] at h
        exact ih h

lemma tpInner_sound {cw : Int} {succ : List (Nat × Int)} {p : Nat} {pd : Int}
    {pots : List EdgeTarget} {stn stn1 : IncStn} {m m1 : DomainsModel}
    (h : tpInner cw succ p pd pots stn m = some (Except.ok (stn1, m1)))
    (hrange : ∀ pot ∈ pots, (litNot pot.enabler).varBound < m.bounds.length) :
    ∀ pot ∈ pots, ∀ fd, assocFindNat succ (vbSymm pot.target) = some fd →
      pd + pot.weight + cw + fd < 0 → dmEntailsB m1 (litNot pot.enabler) = true := by
  induction pots generalizing stn m with
  | nil => intro pot hmem; exact absurd hmem (List.not_mem_nil pot)
  | cons pot0 rest ih =>
    intro pot hmem fd hfd hneg
    unfold tpInner at h
    cases hA : assocFindNat succ (vbSymm pot0.target) with
    | none =>
      rw [hA] at h
      rcases List.mem_cons.mp hmem with hpot0 | hrest
      · subst hpot0
        rw [hfd] at hA
        exact Option.noConfusion hA
      · exact ih h (fun q hq => hrange q (List.mem_cons_of_mem _ hq)) pot hrest fd hfd hneg
    | some fd0 =>
      rw [hA] at h
      dsimp only at h
      by_cases hcond : pd + pot0.weight + cw + fd0 < 0 ∧ dmEntailsB m (litNot pot0.enabler) = false
      · rw [if_pos hcond] at h
        cases hset : dmSet m (litNot pot0.enabler)
            (Cause.Inference { writer := stn.identityWriter,
                               payload := 2 * stn.theoryPropagationCauses.length + 1 }) with
        | error v => rw [hset] at h; simp at h
        | ok pr =>
          obtain ⟨b, m2⟩ := pr
          rw [hset] at h
          dsimp only at h
          have hlen2 : m2.bounds.length = m.bounds.length := setBound_ok_length hset
          rcases List.mem_cons.mp hmem with hpot0 | hrest
          · subst hpot0
            have hafter : getBound m2 (litNot pot.enabler).varBound ≤ (litNot pot.enabler).rawValue :=
              setBound_ok_at hset (hrange pot (List.mem_cons_self pot rest))
            have hm2 : dmEntailsB m2 (litNot pot.enabler) = true := by
              unfold dmEntailsB
              simpa using hafter
            exact dmEntailsB_mono (tpInner_ok_facts h).2.2.2 hm2
          · exact ih h (fun q hq => hlen2 ▸ hrange q (List.mem_cons_of_mem _ hq))
              pot hrest fd hfd hneg
      · rw [if_neg hcond] at h
        rcases List.mem_cons.mp hmem with hpot0 | hrest
        · subst hpot0
          rw [hfd] at hA
          have hfd0 : fd = fd0 := by
            simp only [Option.some.injEq] at hA
            exact hA
          rw [Classical.not_and_iff_or_not_not] at hcond
          rcases hcond with hge | hent
          · rw [hfd0] at hneg
            exact absurd hneg hge
          · rw [Bool.not_eq_false] at hent
            exact dmEntailsB_mono (tpInner_ok_facts h).2.2.2 hent
        · exact ih h (fun q hq => hrange q (List.mem_cons_of_mem _ hq)) pot hrest fd hfd hneg

lemma tpOuter_ok_facts {cw : Int} {succ entries : List (Nat × Int)}
    {stn stn1 : IncStn} {m m1 : DomainsModel}
    (h : tpOuter cw succ entries stn m = some (Except.ok (stn1, m1))) :
    stn1.constraints = stn.constraints ∧ m1.bounds.length = m.bounds.length ∧
      ∀ vb, getBound m1 vb ≤ getBound m vb := by
  induction entries generalizing stn m with
  | nil =>
    unfold tpOuter at h
    simp only [Option.some.injEq, Except.ok.injEq, Prod.mk.injEq] at h
    rw [← h.1, ← h.2]
    exact ⟨rfl, rfl, fun _ => le_refl _⟩
  | cons e rest ih =>
    obtain ⟨p0, pd0⟩ := e
    unfold tpOuter at h
    cases hI : tpInner cw succ p0 pd0 (potentialOutEdges stn.constraints p0) stn m with
    | none => rw [hI] at h; simp at h
    | some r =>
      cases r with
      | error v => rw [hI] at h; simp at h
      | ok pr =>
        obtain ⟨stn2, m2⟩ := pr
        rw [hI] at h
        dsimp only at h
        obtain ⟨h1, h2, h3, h4⟩ := tpInner_ok_facts hI
        obtain ⟨g1, g2, g3⟩ := ih h
        exact ⟨g1.trans h1, g2.trans h3, fun vb => le_trans (g3 vb) (h4 vb)⟩

lemma tpOuter_sound {cw : Int} {succ entries : List (Nat × Int)}
    {stn stn1 : IncStn} {m m1 : DomainsModel}
    (h : tpOuter cw succ entries stn m = some (Except.ok (stn1, m1)))
    (hrange : ∀ pr ∈ stn.constraints.edges, (litNot (pr.2).enabler).varBound < m.bounds.length) :
    ∀ p pd, (p, pd) ∈ entries → ∀ pot ∈ potentialOutEdges stn.constraints p,
      ∀ fd, assocFindNat succ (vbSymm pot.target) = some fd →
      pd + pot.weight + cw + fd < 0 → dmEntailsB m1 (litNot pot.enabler) = true := by
  induction entries generalizing stn m with
  | nil => intro p pd hmem; exact absurd hmem (List.not_mem_nil (p, pd))
  | cons e rest ih =>
    obtain ⟨p0, pd0⟩ := e
    intro p pd hmem pot hpot fd hfd hneg
    unfold tpOuter at h
    cases hI : tpInner cw succ p0 pd0 (potentialOutEdges stn.constraints p0) stn m with
    | none => rw [hI] at h; simp at h
    | some r =>
      cases r with
      | error v => rw [hI] at h; simp at h
      | ok pr =>
        obtain ⟨stn2, m2⟩ := pr
        rw [hI] at h
        dsimp only at h
        obtain ⟨h1, h2, h3, h4⟩ := tpInner_ok_facts hI
        rcases List.mem_cons.mp hmem with hhead | hrest
        · have hp0 : p = p0 ∧ pd = pd0 := by
            simp only [Prod.mk.injEq] at hhead
            exact hhead
          obtain ⟨hp, hpd⟩ := hp0
          subst hp
          subst hpd
          have hinner := tpInner_sound hI
            (fun q hq => hrange (p, q) (potentialOutEdges_mem hq)) pot hpot fd hfd hneg
          exact dmEntailsB_mono (tpOuter_ok_facts h).2.2 hinner
        · refine ih h ?_ p pd hrest pot ?_ fd hfd hneg
          · intro q hq
            rw [h1] at hq
            rw [h3]
            exact hrange q hq
          · rw [h1]
            exact hpot

/-- C4 (amended): within `propagate_all`, theory propagation on a newly
activated edge forces the enabler of every inactive edge already
registered that would close a negative cycle through the new edge: for
every predecessor `p` of the edge's source at distance `pd`, every
potential out-edge of `p` whose target's symmetric bound is reachable
from the edge's target at distance `fd`, with total path weight negative,
the negation of that edge's enabler is entailed when theory propagation
returns Ok.  (Edges registered after the activation are not reconsidered;
see the counterexample.) -/
theorem c4_theory_propagation_forces_enablers
    (fuel : Nat) (stn stn1 : IncStn) (m m1 : DomainsModel) (edge : Nat) (c : DirConstraint)
    (hc : stn.constraints.constraints[edge]? = some c)
    (hrun : theoryPropagation fuel stn edge m = some (Except.ok (stn1, m1)))
    (hrange : ∀ pr ∈ stn.constraints.edges, (litNot (pr.2).enabler).varBound < m.bounds.length)
    (p : Nat) (pd : Int) (pot : EdgeTarget) (fd : Int)
    (hp : (p, pd) ∈ distancesFrom fuel stn (vbSymm c.source) m)
    (hpot : pot ∈ potentialOutEdges stn.constraints p)
    (hfd : assocFindNat (distancesFrom fuel stn c.target m) (vbSymm pot.target) = some fd)
    (hneg : pd + pot.weight + c.weight + fd < 0) :
    dmEntailsB m1 (litNot pot.enabler) = true := by
  unfold theoryPropagation at hrun
  rw [hc] at hrun
  dsimp only at hrun
  exact tpOuter_sound hrun hrange p pd hp pot hpot fd hfd hneg

/-- C4 witness: with the inactive edge `1 - 2 ≤ -7` (enabler `x3 > 0`)
registered before the edge `2 - 1 ≤ 5` is activated, theory propagation
on the activation forces `x3 ≤ 0`. -/
theorem c4_theory_propagation_forces_enablers_witness :
    dmEntailsB c4WMF (litNot c4Lit2) = true :=
  c4_theory_propagation_forces_enablers 40 c4WStn3 c4WStnF c4WM c4WMF 4
    { active := true, source := 3, target := 5, weight := 5, alwaysActive := true, enablers := [] }
    (by decide) rfl (by decide) 2 0 { target := 4, weight := -7, enabler := c4Lit2 } 0
    (by decide) (by decide) (by decide) (by decide)

/-- C1 counterexample: after a full propagation returns Ok on the network
with the always-active edge `2 - 1 ≤ 5` (timepoints `1 ∈ [0, 3]`,
`2 ∈ [0, 10]`), the upper-bound inequality `ub(2) ≤ ub(1) + 5` holds but
the claimed lower-bound inequality `lb(1) ≤ lb(2) - 5` is false (the true
invariant has the opposite sense, `lb(1) ≥ lb(2) - 5`). -/
theorem c1_lb_inequality_counterexample :
    c1Prop = some (Except.ok (c1StnF, c1MF)) ∧
    c1StnF.constraints.constraints[0]? =
      some { active := true, source := 3, target := 5, weight := 5,
             alwaysActive := true, enablers := [] } ∧
    vbUb 1 = 3 ∧ vbUb 2 = 5 ∧
    (ubOf c1MF 2 ≤ ubOf c1MF 1 + 5) ∧
    ¬(lbOf c1MF 1 ≤ lbOf c1MF 2 - 5) ∧
    (lbOf c1MF 1 ≥ lbOf c1MF 2 - 5) :=
  ⟨rfl, by decide, by decide, by decide, by decide, by decide, by decide⟩

lemma list_getElem?_append_left {α : Type} (l t : List α) (i : Nat) (h : i < l.length) :
    (l ++ t)[i]? = l[i]? := by
  rw [List.getElem?_append, if_pos h]

lemma setInsert_mem_self (l : List Nat) (vb : Nat) : vb ∈ setInsert l vb := by
  unfold setInsert
  by_cases hc : l.contains vb
  · rw [if_pos hc]
    exact List.mem_of_elem_eq_true hc
  · rw [if_neg hc]
    exact List.mem_append_right _ (List.mem_singleton_self vb)

lemma setInsert_mem_mono {l : List Nat} {x : Nat} (vb : Nat) (h : x ∈ l) :
    x ∈ setInsert l vb := by
  unfold setInsert
  by_cases hc : l.contains vb
  · rw [if_pos hc]; exact h
  · rw [if_neg hc]; exact List.mem_append_left _ h

lemma setInsert_mem_cases {l : List Nat} {x vb : Nat} (h : x ∈ setInsert l vb) :
    x ∈ l ∨ x = vb := by
  unfold setInsert at h
  by_cases hc : l.contains vb
  · rw [if_pos hc] at h; exact Or.inl h
  · rw [if_neg hc] at h
    rcases List.mem_append.mp h with h1 | h1
    · exact Or.inl h1
    · exact Or.inr (List.mem_singleton.mp h1)

lemma list_getD_set_append_self {α : Type} (ap : List (List α)) (vb : Nat) (p : α)
    (h : vb < ap.length) :
    (ap.set vb (ap.getD vb [] ++ [p])).getD vb [] = ap.getD vb [] ++ [p] := by
  rw [list_getD_eq, list_getElem?_set_self _ _ _ h]
  rfl

lemma list_getD_set_ne {α : Type} (ap : List (List α)) (i j : Nat) (v : List α) (h : i ≠ j) :
    (ap.set i v).getD j [] = ap.getD j [] := by
  rw [list_getD_eq, list_getD_eq, list_getElem?_set_ne _ _ _ _ h]

lemma sameCore_refl (a : IncStn) : sameCore a a :=
  ⟨rfl, rfl, rfl, rfl, rfl, rfl, rfl, rfl⟩

lemma sameCore_trans {a b c : IncStn} (h1 : sameCore a b) (h2 : sameCore b c) : sameCore a c := by
  obtain ⟨x1, x2, x3, x4, x5, x6, x7, x8⟩ := h1
  obtain ⟨y1, y2, y3, y4, y5, y6, y7, y8⟩ := h2
  exact ⟨x1.trans y1, x2.trans y2, x3.trans y3, x4.trans y4, x5.trans y5,
    x6.trans y6, x7.trans y7, x8.trans y8⟩

lemma modelEvolves_refl (w : Nat) (m : DomainsModel) : modelEvolves w m m :=
  ⟨rfl, fun _ => le_refl _, rfl, rfl, [], by simp, by simp⟩

lemma modelEvolves_trans {w : Nat} {m1 m2 m3 : DomainsModel}
    (h1 : modelEvolves w m1 m2) (h2 : modelEvolves w m2 m3) : modelEvolves w m1 m3 := by
  obtain ⟨a1, a2, a3, a4, t1, ht1, hs1⟩ := h1
  obtain ⟨b1, b2, b3, b4, t2, ht2, hs2⟩ := h2
  refine ⟨b1.trans a1, fun vb => le_trans (b2 vb) (a2 vb), b3.trans a3, b4.trans a4,
    t1 ++ t2, ?_, ?_⟩
  · rw [ht2, ht1, List.append_assoc]
  · intro ev hev
    rcases List.mem_append.mp hev with h | h
    · exact hs1 ev h
    · exact hs2 ev h

lemma extPendingFrom_mono {w : Nat} {m m1 : DomainsModel} (hev : modelEvolves w m m1)
    {nr vb : Nat} (h : extPendingFrom w m.trail nr vb) : extPendingFrom w m1.trail nr vb := by
  obtain ⟨i, hlt, hnr, hget⟩ := h
  obtain ⟨_, _, _, _, tail, htail, _⟩ := hev
  refine ⟨i, ?_, hnr, ?_⟩
  · rw [htail, List.length_append]
    omega
  · rw [htail, list_getElem?_append_left _ _ _ hlt]
    exact hget

lemma cursorSync_idem {V : Type} (c : CursorState) (q : ObsTrail V) :
    cursorSync (cursorSync c q) q = cursorSync c q := by
  unfold cursorSync
  cases hb : q.lastBacktrack with
  | none => rfl
  | some p =>
    obtain ⟨nr, i⟩ := p
    dsimp only
    by_cases hs : c.lastBacktrackSeen = some i
    · have h1 : (if c.lastBacktrackSeen ≠ some i then
          ({ nextRead := if nr < c.nextRead then nr else c.nextRead,
             lastBacktrackSeen := some i } : CursorState) else c) = c :=
        if_neg (by simp [hs])
      rw [h1]
      exact h1
    · have h1 : (if c.lastBacktrackSeen ≠ some i then
          ({ nextRead := if nr < c.nextRead then nr else c.nextRead,
             lastBacktrackSeen := some i } : CursorState) else c) =
          { nextRead := if nr < c.nextRead then nr else c.nextRead,
            lastBacktrackSeen := some i } :=
        if_pos hs
      rw [h1]
      dsimp only
      rw [if_neg (by simp)]

lemma cursorSync_of_trail_eq {V W : Type} (c : CursorState) {q : ObsTrail V} {q1 : ObsTrail W}
    (hb : q1.lastBacktrack = q.lastBacktrack) (h : cursorSync c q = c) : cursorSync c q1 = c := by
  unfold cursorSync at h ⊢
  rw [hb]
  exact h

lemma cursorSync_synced_seen {V : Type} {c : CursorState} {q : ObsTrail V}
    (h : cursorSync c q = c) {nr i : Nat} (hb : q.lastBacktrack = some (nr, i)) :
    c.lastBacktrackSeen = some i := by
  unfold cursorSync at h
  rw [hb] at h
  dsimp only at h
  by_cases hs : c.lastBacktrackSeen = some i
  · exact hs
  · rw [if_pos hs] at h
    have := congrArg CursorState.lastBacktrackSeen h
    dsimp only at this
    exact absurd this.symm hs

lemma cursorSync_advance {V : Type} {c : CursorState} {q : ObsTrail V}
    (h : cursorSync c q = c) (k : Nat) :
    cursorSync { nextRead := k, lastBacktrackSeen := c.lastBacktrackSeen } q =
      { nextRead := k, lastBacktrackSeen := c.lastBacktrackSeen } := by
  unfold cursorSync
  cases hb : q.lastBacktrack with
  | none => rfl
  | some p =>
    obtain ⟨nr, i⟩ := p
    dsimp only
    rw [if_neg (by simp [cursorSync_synced_seen h hb])]

lemma setBound_ok_cases {m m1 : DomainsModel} {vb : Nat} {r : Int} {cs : Cause} {b : Bool}
    (h : setBound m vb r cs = Except.ok (b, m1)) :
    (b = false ∧ m1 = m ∧ getBound m vb ≤ r) ∨
    (b = true ∧ r < getBound m vb ∧
      m1 = { bounds := m.bounds.set vb r,
             trail := trailPush m.trail
               { affected := vb, previous := getBound m vb, newValue := r, cause := cs } }) := by
  unfold setBound at h
  dsimp only at h
  by_cases hr : r < getBound m vb
  · rw [if_pos hr] at h
    split at h
    · simp at h
    · simp only [Except.ok.injEq, Prod.mk.injEq] at h
      exact Or.inr ⟨h.1.symm, hr, h.2.symm⟩
  · rw [if_neg hr] at h
    simp only [Except.ok.injEq, Prod.mk.injEq] at h
    exact Or.inl ⟨h.1.symm, h.2.symm, le_of_not_lt hr⟩

lemma setBound_ok_unchanged_of_ne {m m1 : DomainsModel} {vb : Nat} {r : Int} {cs : Cause}
    {b : Bool} (h : setBound m vb r cs = Except.ok (b, m1)) {vb2 : Nat} (hne : vb2 ≠ vb) :
    getBound m1 vb2 = getBound m vb2 := by
  rcases setBound_ok_cases h with ⟨_, hm, _⟩ | ⟨_, _, hm⟩
  · rw [hm]
  · rw [hm]
    unfold getBound
    dsimp only
    rw [list_getD_eq, list_getD_eq, list_getElem?_set_ne _ _ _ _ (fun hh => hne hh.symm)]

lemma setBound_ok_evolve {w : Nat} {m m1 : DomainsModel} {vb : Nat} {r : Int} {cs : Cause}
    {b : Bool} (h : setBound m vb r cs = Except.ok (b, m1))
    (hcause : selfAuthored w cs = true) : modelEvolves w m m1 := by
  rcases setBound_ok_cases h with ⟨_, hm, _⟩ | ⟨_, hr, hm⟩
  · rw [hm]
    exact modelEvolves_refl w m
  · subst hm
    refine ⟨by simp, setBound_ok_le h, rfl, rfl,
      [{ affected := vb, previous := getBound m vb, newValue := r, cause := cs }], rfl, ?_⟩
    intro ev hev
    rw [List.mem_singleton.mp hev]
    exact hcause

lemma setBound_ok_tight_set {m m1 : DomainsModel} {vb : Nat} {r : Int} {cs : Cause}
    (h : setBound m vb r cs = Except.ok (true, m1)) (hlen : vb < m.bounds.length) :
    getBound m1 vb = r := by
  rcases setBound_ok_cases h with ⟨hb, _, _⟩ | ⟨_, _, hm⟩
  · exact absurd hb (by simp)
  · rw [hm]
    unfold getBound
    dsimp only
    rw [list_getD_eq, list_getElem?_set_self _ _ _ hlen]
    rfl

lemma setBound_ok_false_eq {m m1 : DomainsModel} {vb : Nat} {r : Int} {cs : Cause}
    (h : setBound m vb r cs = Except.ok (false, m1)) :
    m1 = m ∧ getBound m vb ≤ r := by
  rcases setBound_ok_cases h with ⟨_, hm, hle⟩ | ⟨hb, _, _⟩
  · exact ⟨hm, hle⟩
  · exact absurd hb (by simp)

lemma propagateEdges_core {stn stn1 : IncStn} {original : Nat} {cyc : Bool} {sb : Int}
    {ps : List Propagator} {m m1 : DomainsModel}
    (h : propagateEdges stn original cyc sb ps m = some (Except.ok (stn1, m1))) :
    sameCore stn1 stn ∧ modelEvolves stn.identityWriter m m1 ∧
    (∀ vb ∈ stn.pendingUpdates, vb ∈ stn1.pendingUpdates) ∧
    (∀ vb, getBound m1 vb < getBound m vb → vb ∈ stn1.pendingUpdates) ∧
    (pendSub stn → pendSub stn1) := by
  induction ps generalizing stn m with
  | nil =>
    unfold propagateEdges at h
    simp only [Option.some.injEq, Except.ok.injEq, Prod.mk.injEq] at h
    rw [← h.1, ← h.2]
    exact ⟨sameCore_refl stn, modelEvolves_refl _ m, fun _ hv => hv,
      fun vb hv => absurd hv (by omega), fun hs => hs⟩
  | cons p rest ih =>
    unfold propagateEdges at h
    dsimp only at h
    cases hset : setBound m p.target (sb + p.weight)
        (Cause.Inference { writer := stn.identityWriter, payload := 2 * p.id }) with
    | error v => rw [hset] at h; simp at h
    | ok pr =>
      obtain ⟨b, m2⟩ := pr
      rw [hset] at h
      cases b with
      | false =>
        dsimp only at h
        obtain ⟨hm2, hle⟩ := setBound_ok_false_eq hset
        subst hm2
        exact ih h
      | true =>
        dsimp only at h
        by_cases hco : cyc = true ∧ p.target = original
        · rw [if_pos hco] at h
          split at h <;> simp at h
        · rw [if_neg hco] at h
          obtain ⟨hc1, he1, hpm1, htp1, hps1⟩ := ih h
          have hcore2 : sameCore
              ({ stn with internalPropagateQueue := stn.internalPropagateQueue ++ [p.target],
                          pendingUpdates := setInsert stn.pendingUpdates p.target }) stn :=
            ⟨rfl, rfl, rfl, rfl, rfl, rfl, rfl, rfl⟩
          refine ⟨sameCore_trans hc1 hcore2, ?_, ?_, ?_, ?_⟩
          · exact modelEvolves_trans
              (setBound_ok_evolve hset (by simp [selfAuthored])) he1
          · intro vb hv
            exact hpm1 vb (setInsert_mem_mono _ hv)
          · intro vb hv
            by_cases h2 : getBound m1 vb < getBound m2 vb
            · exact htp1 vb h2
            · have hle21 : getBound m1 vb ≤ getBound m2 vb := he1.2.1 vb
              have heq : getBound m1 vb = getBound m2 vb := by omega
              have h2m : getBound m2 vb < getBound m vb := by omega
              have hvb : vb = p.target := by
                by_contra hne
                rw [setBound_ok_unchanged_of_ne hset hne] at h2m
                omega
              subst hvb
              exact hpm1 p.target (setInsert_mem_self _ _)
          · intro hsub
            refine hps1 ?_
            intro x hx
            dsimp only at hx ⊢
            rcases setInsert_mem_cases hx with hx1 | hx1
            · exact List.mem_append_left _ (hsub x hx1)
            · rw [hx1]
              exact List.mem_append_right _ (List.mem_singleton_self _)

lemma propagateEdges_processed {stn stn1 : IncStn} {original : Nat} {cyc : Bool} {sb : Int}
    {ps : List Propagator} {m m1 : DomainsModel}
    (h : propagateEdges stn original cyc sb ps m = some (Except.ok (stn1, m1)))
    (htgt : ∀ p ∈ ps, p.target < m.bounds.length) :
    ∀ p ∈ ps, getBound m1 p.target ≤ sb + p.weight := by
  induction ps generalizing stn m with
  | nil => intro p hp; exact absurd hp (List.not_mem_nil p)
  | cons p0 rest ih =>
    intro p hp
    unfold propagateEdges at h
    dsimp only at h
    cases hset : setBound m p0.target (sb + p0.weight)
        (Cause.Inference { writer := stn.identityWriter, payload := 2 * p0.id }) with
    | error v => rw [hset] at h; simp at h
    | ok pr =>
      obtain ⟨b, m2⟩ := pr
      rw [hset] at h
      cases b with
      | false =>
        dsimp only at h
        obtain ⟨hm2, hle⟩ := setBound_ok_false_eq hset
        subst hm2
        rcases List.mem_cons.mp hp with hp0 | hrest
        · subst hp0
          exact le_trans ((propagateEdges_core h).2.1.2.1 p.target) hle
        · exact ih h (fun q hq => htgt q (List.mem_cons_of_mem _ hq)) p hrest
      | true =>
        dsimp only at h
        by_cases hco : cyc = true ∧ p0.target = original
        · rw [if_pos hco] at h
          split at h <;> simp at h
        · rw [if_neg hco] at h
          have hlen2 : m2.bounds.length = m.bounds.length := setBound_ok_length hset
          rcases List.mem_cons.mp hp with hp0 | hrest
          · subst hp0
            have hset2 : getBound m2 p.target = sb + p.weight :=
              setBound_ok_tight_set hset (htgt p (List.mem_cons_self p rest))
            have := (propagateEdges_core h).2.1.2.1 p.target
            omega
          · exact ih h (fun q hq => hlen2 ▸ htgt q (List.mem_cons_of_mem _ hq)) p hrest

lemma dcAt_congr {a b : IncStn} (h : a.constraints = b.constraints) (e : Nat) :
    dcAt a e = dcAt b e := by
  unfold dcAt
  rw [h]

lemma activeProps_congr {a b : IncStn} (h : a.activePropagators = b.activePropagators)
    (vb : Nat) : activeProps a vb = activeProps b vb := by
  unfold activeProps
  rw [h]

lemma activeProps_target_lt {stn : IncStn} {m : DomainsModel}
    (htgtAP : ∀ l ∈ stn.activePropagators, ∀ p ∈ l, p.target < m.bounds.length)
    (vb : Nat) : ∀ p ∈ activeProps stn vb, p.target < m.bounds.length := by
  intro p hp
  unfold activeProps at hp
  by_cases hlen : vb < stn.activePropagators.length
  · rw [list_getD_eq] at hp
    cases hget : stn.activePropagators[vb]? with
    | none => rw [hget] at hp; exact absurd hp (by simp)
    | some l =>
      rw [hget] at hp
      exact htgtAP l (list_getElem?_some_mem _ _ _ hget) p hp
  · rw [list_getD_eq, List.getElem?_eq_none (by omega)] at hp
    exact absurd hp (by simp)

lemma propLoop_core {original : Nat} {cyc : Bool} {fuel : Nat} {stn stn1 : IncStn}
    {m m1 : DomainsModel}
    (h : propLoop original cyc fuel stn m = some (Except.ok (stn1, m1))) :
    sameCore stn1 stn ∧ modelEvolves stn.identityWriter m m1 ∧
      stn1.internalPropagateQueue = [] := by
  induction fuel generalizing stn m with
  | zero => unfold propLoop at h; simp at h
  | succ fuel ih =>
    unfold propLoop at h
    cases hq : stn.internalPropagateQueue with
    | nil =>
      rw [hq] at h
      simp only [Option.some.injEq, Except.ok.injEq, Prod.mk.injEq] at h
      rw [← h.1, ← h.2]
      exact ⟨sameCore_refl stn, modelEvolves_refl _ m, hq⟩
    | cons source rest =>
      rw [hq] at h
      dsimp only at h
      by_cases hcont : stn.pendingUpdates.contains source = true
      · rw [if_pos hcont] at h
        cases hpe : propagateEdges
            { stn with internalPropagateQueue := rest,
                       pendingUpdates := stn.pendingUpdates.filter (fun x => decide (x ≠ source)) }
            original cyc (getBound m source)
            (activeProps
              { stn with internalPropagateQueue := rest,
                         pendingUpdates := stn.pendingUpdates.filter (fun x => decide (x ≠ source)) }
              source) m with
        | none => rw [hpe] at h; simp at h
        | some r =>
          cases r with
          | error e => rw [hpe] at h; simp at h
          | ok pr =>
            obtain ⟨stn3, m3⟩ := pr
            rw [hpe] at h
            dsimp only at h
            obtain ⟨hc3, he3, _, _, _⟩ := propagateEdges_core hpe
            obtain ⟨hs1, hs2, hs3⟩ := ih h
            refine ⟨sameCore_trans hs1 (sameCore_trans hc3 ⟨rfl, rfl, rfl, rfl, rfl, rfl, rfl, rfl⟩),
              ?_, hs3⟩
            have hw3 : stn3.identityWriter = stn.identityWriter := hc3.2.2.2.2.1
            rw [← hw3]
            exact modelEvolves_trans (hw3 ▸ he3) hs2
      · rw [if_neg hcont] at h
        obtain ⟨hs1, hs2, hs3⟩ := ih h
        exact ⟨sameCore_trans hs1 ⟨rfl, rfl, rfl, rfl, rfl, rfl, rfl, rfl⟩, hs2, hs3⟩

lemma propLoop_ok {original : Nat} {cyc : Bool} {fuel : Nat} {stn stn1 : IncStn}
    {m m1 : DomainsModel} {w nr : Nat}
    (h : propLoop original cyc fuel stn m = some (Except.ok (stn1, m1)))
    (hw : stn.identityWriter = w)
    (hsub : pendSub stn)
    (hcomp : ∀ e, e < stn.constraints.constraints.length → (dcAt stn e).active = true →
       (dcAt stn e).source ≠ (dcAt stn e).target →
       mkProp e (dcAt stn e) ∈ activeProps stn (dcAt stn e).source)
    (hselfnn : ∀ c ∈ stn.constraints.constraints, c.active = true → c.source = c.target →
       0 ≤ c.weight)
    (htgtAP : ∀ l ∈ stn.activePropagators, ∀ p ∈ l, p.target < m.bounds.length)
    (hinv : ∀ c ∈ stn.constraints.constraints, c.active = true →
       dirIneq m c ∨ extPendingFrom w m.trail nr c.source ∨ c.source ∈ stn.pendingUpdates) :
    stn1.pendingUpdates = [] ∧
    ∀ c ∈ stn.constraints.constraints, c.active = true →
      dirIneq m1 c ∨ extPendingFrom w m1.trail nr c.source := by
  induction fuel generalizing stn m with
  | zero => unfold propLoop at h; simp at h
  | succ fuel ih =>
    unfold propLoop at h
    cases hq : stn.internalPropagateQueue with
    | nil =>
      rw [hq] at h
      simp only [Option.some.injEq, Except.ok.injEq, Prod.mk.injEq] at h
      have hpe : stn.pendingUpdates = [] := by
        rw [List.eq_nil_iff_forall_not_mem]
        intro x hx
        have := hsub x hx
        rw [hq] at this
        exact absurd this (List.not_mem_nil x)
      constructor
      · rw [← h.1]
        exact hpe
      · intro c hc ha
        rw [← h.2]
        rcases hinv c hc ha with hdi | hext | hpend
        · exact Or.inl hdi
        · exact Or.inr hext
        · rw [hpe] at hpend
          exact absurd hpend (List.not_mem_nil _)
    | cons source rest =>
      rw [hq] at h
      dsimp only at h
      by_cases hcont : stn.pendingUpdates.contains source = true
      · rw [if_pos hcont] at h
        cases hpe : propagateEdges
            { stn with internalPropagateQueue := rest,
                       pendingUpdates := stn.pendingUpdates.filter (fun x => decide (x ≠ source)) }
            original cyc (getBound m source)
            (activeProps
              { stn with internalPropagateQueue := rest,
                         pendingUpdates := stn.pendingUpdates.filter (fun x => decide (x ≠ source)) }
              source) m with
        | none => rw [hpe] at h; simp at h
        | some r =>
          cases r with
          | error e => rw [hpe] at h; simp at h
          | ok pr =>
            obtain ⟨stn3, m3⟩ := pr
            rw [hpe] at h
            dsimp only at h
            obtain ⟨hc3, he3, hpm3, htp3, hps3⟩ := propagateEdges_core hpe
            obtain ⟨e31, e32, e33, e34, e35, e36, e37, e38⟩ := hc3
            have hcc : stn3.constraints.constraints = stn.constraints.constraints :=
              congrArg ConstraintDb.constraints e31
            have he3b : modelEvolves stn.identityWriter m m3 := he3
            have hev3 : modelEvolves w m m3 := by
              rw [hw] at he3b
              exact he3b
            have hw3 : stn3.identityWriter = w := e35.trans hw
            have hsub3 : pendSub stn3 := by
              refine hps3 ?_
              intro x hx
              dsimp only at hx ⊢
              rw [List.mem_filter] at hx
              obtain ⟨hxp, hxd⟩ := hx
              simp only [decide_eq_true_eq] at hxd
              have := hsub x hxp
              rw [hq] at this
              rcases List.mem_cons.mp this with h1 | h1
              · exact absurd h1 hxd
              · exact h1
            have hcomp3 : ∀ e, e < stn3.constraints.constraints.length →
                (dcAt stn3 e).active = true → (dcAt stn3 e).source ≠ (dcAt stn3 e).target →
                mkProp e (dcAt stn3 e) ∈ activeProps stn3 (dcAt stn3 e).source := by
              intro e he ha hne
              have hdc : dcAt stn3 e = dcAt stn e := dcAt_congr e31 e
              have hap : ∀ vb, activeProps stn3 vb = activeProps stn vb :=
                activeProps_congr e32
              rw [hdc] at ha hne ⊢
              rw [hap]
              rw [hcc] at he
              exact hcomp e he ha hne
            have hselfnn3 : ∀ c ∈ stn3.constraints.constraints, c.active = true →
                c.source = c.target → 0 ≤ c.weight := by
              intro c hc
              rw [hcc] at hc
              exact hselfnn c hc
            have htgtAP3 : ∀ l ∈ stn3.activePropagators, ∀ p ∈ l,
                p.target < m3.bounds.length := by
              intro l hl p hp
              rw [e32] at hl
              rw [hev3.1]
              exact htgtAP l hl p hp
            have hinv3 : ∀ c ∈ stn3.constraints.constraints, c.active = true →
                dirIneq m3 c ∨ extPendingFrom w m3.trail nr c.source ∨
                c.source ∈ stn3.pendingUpdates := by
              intro c hc0 ha
              have hc : c ∈ stn.constraints.constraints := by rw [← hcc]; exact hc0
              rcases hinv c hc ha with hdi | hext | hpend
              · by_cases hlt : getBound m3 c.source < getBound m c.source
                · exact Or.inr (Or.inr (htp3 c.source hlt))
                · left
                  unfold dirIneq at hdi ⊢
                  have h1 := hev3.2.1 c.target
                  have h2 := hev3.2.1 c.source
                  omega
              · exact Or.inr (Or.inl (extPendingFrom_mono hev3 hext))
              · by_cases hcs : c.source = source
                · by_cases hst : c.source = c.target
                  · left
                    unfold dirIneq
                    have hnn := hselfnn c hc ha hst
                    rw [hst]
                    omega
                  · obtain ⟨e, he⟩ := List.mem_iff_getElem?.mp hc
                    have helt : e < stn.constraints.constraints.length :=
                      list_getElem?_some_lt _ _ _ he
                    have hdce : dcAt stn e = c := by
                      unfold dcAt
                      rw [list_getD_eq, he]
                      rfl
                    have hmem := hcomp e helt (by rw [hdce]; exact ha) (by rw [hdce]; exact hst)
                    rw [hdce] at hmem
                    have hproc := propagateEdges_processed hpe
                      (fun p hp => activeProps_target_lt htgtAP source p hp)
                    have hpc := hproc (mkProp e c) (by rw [hcs] at hmem; exact hmem)
                    by_cases hlt : getBound m3 c.source < getBound m c.source
                    · exact Or.inr (Or.inr (htp3 c.source hlt))
                    · left
                      unfold dirIneq
                      have h2 := hev3.2.1 c.source
                      have hpc2 : getBound m3 c.target ≤ getBound m source + c.weight := hpc
                      rw [← hcs] at hpc2
                      omega
                · have hx : c.source ∈ stn.pendingUpdates.filter
                      (fun x => decide (x ≠ source)) := by
                    rw [List.mem_filter]
                    exact ⟨hpend, by simp [hcs]⟩
                  exact Or.inr (Or.inr (hpm3 c.source hx))
            obtain ⟨hfp, hfi⟩ := ih h hw3 hsub3 hcomp3 hselfnn3 htgtAP3 hinv3
            refine ⟨hfp, ?_⟩
            intro c hc ha
            apply hfi c _ ha
            rw [hcc]
            exact hc
      · rw [if_neg hcont] at h
        have hsub1 : pendSub ({ stn with internalPropagateQueue := rest }) := by
          intro x hx
          dsimp only at hx ⊢
          have := hsub x hx
          rw [hq] at this
          rcases List.mem_cons.mp this with h1 | h1
          · subst h1
            exact absurd (List.elem_eq_true_of_mem hx) hcont
          · exact h1
        obtain ⟨hfp, hfi⟩ := ih h hw hsub1
          (fun e he ha hne => hcomp e he ha hne)
          (fun c hc ha hst => hselfnn c hc ha hst)
          (fun l hl p hp => htgtAP l hl p hp)
          (fun c hc ha => hinv c hc ha)
        exact ⟨hfp, fun c hc ha => hfi c hc ha⟩

lemma runPropagationLoop_core {fuel : Nat} {stn stn1 : IncStn} {original : Nat}
    {m m1 : DomainsModel} {cyc : Bool}
    (h : runPropagationLoop fuel stn original m cyc = some (Except.ok (stn1, m1))) :
    sameCore stn1 stn ∧ modelEvolves stn.identityWriter m m1 ∧
      stn1.internalPropagateQueue = [] := by
  unfold runPropagationLoop at h
  dsimp only at h
  obtain ⟨hc, he, hq⟩ := propLoop_core h
  exact ⟨sameCore_trans hc ⟨rfl, rfl, rfl, rfl, rfl, rfl, rfl, rfl⟩, he, hq⟩

lemma runPropagationLoop_ok {fuel : Nat} {stn stn1 : IncStn} {original : Nat}
    {m m1 : DomainsModel} {cyc : Bool} {w nr : Nat}
    (h : runPropagationLoop fuel stn original m cyc = some (Except.ok (stn1, m1)))
    (hw : stn.identityWriter = w)
    (hp : stn.pendingUpdates = [])
    (hcomp : ∀ e, e < stn.constraints.constraints.length → (dcAt stn e).active = true →
       (dcAt stn e).source ≠ (dcAt stn e).target →
       mkProp e (dcAt stn e) ∈ activeProps stn (dcAt stn e).source)
    (hselfnn : ∀ c ∈ stn.constraints.constraints, c.active = true → c.source = c.target →
       0 ≤ c.weight)
    (htgtAP : ∀ l ∈ stn.activePropagators, ∀ p ∈ l, p.target < m.bounds.length)
    (hinv : ∀ c ∈ stn.constraints.constraints, c.active = true →
       dirIneq m c ∨ extPendingFrom w m.trail nr c.source ∨ c.source = original) :
    stn1.pendingUpdates = [] ∧
    ∀ c ∈ stn.constraints.constraints, c.active = true →
      dirIneq m1 c ∨ extPendingFrom w m1.trail nr c.source := by
  unfold runPropagationLoop at h
  dsimp only at h
  obtain ⟨hfp, hfi⟩ := @propLoop_ok original cyc fuel _ stn1 m m1 w nr h hw
    (by
      intro vb hv
      unfold cleanUpPropagationState at hv ⊢
      dsimp only at hv ⊢
      rw [hp] at hv
      rcases setInsert_mem_cases hv with h1 | h1
      · simp at h1
      · rw [h1]
        exact List.mem_append_right _ (List.mem_singleton_self _))
    (fun e he ha hne => hcomp e he ha hne)
    (fun c hc ha hst => hselfnn c hc ha hst)
    (fun l hl p hp2 => htgtAP l hl p hp2)
    (by
      intro c hc ha
      rcases hinv c hc ha with hdi | hext | hsrc
      · exact Or.inl hdi
      · exact Or.inr (Or.inl hext)
      · right; right
        dsimp only
        rw [hsrc]
        exact setInsert_mem_self _ _)
  exact ⟨hfp, fun c hc ha => hfi c hc ha⟩

lemma propagateBoundChange_core {fuel : Nat} {stn stn1 : IncStn} {b : Lit}
    {m m1 : DomainsModel}
    (h : propagateBoundChange fuel stn b m = some (Except.ok (stn1, m1))) :
    sameCore stn1 stn ∧ modelEvolves stn.identityWriter m m1 := by
  unfold propagateBoundChange at h
  by_cases hedge : hasEdges stn (vbVariable b.varBound) = true
  · rw [if_pos hedge] at h
    obtain ⟨hc, he, _⟩ := runPropagationLoop_core h
    exact ⟨hc, he⟩
  · rw [if_neg hedge] at h
    simp only [Option.some.injEq, Except.ok.injEq, Prod.mk.injEq] at h
    rw [← h.1, ← h.2]
    exact ⟨sameCore_refl stn, modelEvolves_refl _ m⟩

lemma propagateBoundChange_ok {fuel : Nat} {stn stn1 : IncStn} {b : Lit}
    {m m1 : DomainsModel} {w nr : Nat}
    (h : propagateBoundChange fuel stn b m = some (Except.ok (stn1, m1)))
    (hw : stn.identityWriter = w)
    (hq : stn.internalPropagateQueue = [])
    (hp : stn.pendingUpdates = [])
    (hcomp : ∀ e, e < stn.constraints.constraints.length → (dcAt stn e).active = true →
       (dcAt stn e).source ≠ (dcAt stn e).target →
       mkProp e (dcAt stn e) ∈ activeProps stn (dcAt stn e).source)
    (hselfnn : ∀ c ∈ stn.constraints.constraints, c.active = true → c.source = c.target →
       0 ≤ c.weight)
    (hsrcrange : ∀ c ∈ stn.constraints.constraints, c.source < stn.activePropagators.length)
    (hAPeven : stn.activePropagators.length % 2 = 0)
    (htgtAP : ∀ l ∈ stn.activePropagators, ∀ p ∈ l, p.target < m.bounds.length)
    (hinv : ∀ c ∈ stn.constraints.constraints, c.active = true →
       dirIneq m c ∨ extPendingFrom w m.trail nr c.source ∨ c.source = b.varBound) :
    stn1.internalPropagateQueue = [] ∧ stn1.pendingUpdates = [] ∧
    ∀ c ∈ stn.constraints.constraints, c.active = true →
      dirIneq m1 c ∨ extPendingFrom w m1.trail nr c.source := by
  unfold propagateBoundChange at h
  by_cases hedge : hasEdges stn (vbVariable b.varBound) = true
  · rw [if_pos hedge] at h
    obtain ⟨h1, h2⟩ := runPropagationLoop_ok h hw hp hcomp hselfnn htgtAP hinv
    exact ⟨(runPropagationLoop_core h).2.2, h1, h2⟩
  · rw [if_neg hedge] at h
    simp only [Option.some.injEq, Except.ok.injEq, Prod.mk.injEq] at h
    refine ⟨by rw [← h.1]; exact hq, by rw [← h.1]; exact hp, ?_⟩
    intro c hc ha
    rw [← h.2]
    rcases hinv c hc ha with hdi | hext | hsrc
    · exact Or.inl hdi
    · exact Or.inr hext
    · exfalso
      have hlt := hsrcrange c hc
      unfold hasEdges numNodes at hedge
      simp only [decide_eq_true_eq] at hedge
      unfold vbVariable at hedge
      omega

lemma tpInner_silent {cw : Int} {succ : List (Nat × Int)} {p : Nat} {pd : Int}
    {pots : List EdgeTarget} {stn stn1 : IncStn} {m m1 : DomainsModel}
    (h : tpInner cw succ p pd pots stn m = some (Except.ok (stn1, m1))) :
    stn.theoryPropagationCauses.length ≤ stn1.theoryPropagationCauses.length ∧
    (stn1.theoryPropagationCauses.length = stn.theoryPropagationCauses.length →
      stn1 = stn ∧ m1 = m) := by
  induction pots generalizing stn m with
  | nil =>
    unfold tpInner at h
    simp only [Option.some.injEq, Except.ok.injEq, Prod.mk.injEq] at h
    rw [← h.1, ← h.2]
    exact ⟨le_refl _, fun _ => ⟨rfl, rfl⟩⟩
  | cons pot0 rest ih =>
    unfold tpInner at h
    cases hA : assocFindNat succ (vbSymm pot0.target) with
    | none =>
      rw [hA] at h
      exact ih h
    | some fd0 =>
      rw [hA] at h
      dsimp only at h
      by_cases hcond : pd + pot0.weight + cw + fd0 < 0 ∧ dmEntailsB m (litNot pot0.enabler) = false
      · rw [if_pos hcond] at h
        cases hset : dmSet m (litNot pot0.enabler)
            (Cause.Inference { writer := stn.identityWriter,
                               payload := 2 * stn.theoryPropagationCauses.length + 1 }) with
        | error v => rw [hset] at h; simp at h
        | ok pr =>
          obtain ⟨b, m2⟩ := pr
          rw [hset] at h
          dsimp only at h
          obtain ⟨hle, _⟩ := ih h
          simp only [List.length_append, List.length_singleton] at hle
          constructor
          · omega
          · intro heq
            omega
      · rw [if_neg hcond] at h
        exact ih h

lemma tpOuter_silent {cw : Int} {succ entries : List (Nat × Int)}
    {stn stn1 : IncStn} {m m1 : DomainsModel}
    (h : tpOuter cw succ entries stn m = some (Except.ok (stn1, m1))) :
    stn.theoryPropagationCauses.length ≤ stn1.theoryPropagationCauses.length ∧
    (stn1.theoryPropagationCauses.length = stn.theoryPropagationCauses.length →
      stn1 = stn ∧ m1 = m) := by
  induction entries generalizing stn m with
  | nil =>
    unfold tpOuter at h
    simp only [Option.some.injEq, Except.ok.injEq, Prod.mk.injEq] at h
    rw [← h.1, ← h.2]
    exact ⟨le_refl _, fun _ => ⟨rfl, rfl⟩⟩
  | cons e rest ih =>
    obtain ⟨p0, pd0⟩ := e
    unfold tpOuter at h
    cases hI : tpInner cw succ p0 pd0 (potentialOutEdges stn.constraints p0) stn m with
    | none => rw [hI] at h; simp at h
    | some r =>
      cases r with
      | error v => rw [hI] at h; simp at h
      | ok pr =>
        obtain ⟨stn2, m2⟩ := pr
        rw [hI] at h
        dsimp only at h
        obtain ⟨hle1, hsil1⟩ := tpInner_silent hI
        obtain ⟨hle2, hsil2⟩ := ih h
        refine ⟨le_trans hle1 hle2, ?_⟩
        intro heq
        obtain ⟨hs2, hm2⟩ := hsil2 (by omega)
        subst hs2
        subst hm2
        exact hsil1 (by omega)

lemma theoryPropagation_silent {fuel : Nat} {stn stn1 : IncStn} {edge : Nat}
    {m m1 : DomainsModel}
    (h : theoryPropagation fuel stn edge m = some (Except.ok (stn1, m1))) :
    stn.theoryPropagationCauses.length ≤ stn1.theoryPropagationCauses.length ∧
    (stn1.theoryPropagationCauses.length = stn.theoryPropagationCauses.length →
      stn1 = stn ∧ m1 = m) := by
  unfold theoryPropagation at h
  cases hc : stn.constraints.constraints[edge]? with
  | none => rw [hc] at h; simp at h
  | some c =>
    rw [hc] at h
    dsimp only at h
    exact tpOuter_silent h

lemma propagateNewEdge_core {fuel : Nat} {stn stn1 : IncStn} {newEdge : Nat}
    {m m1 : DomainsModel}
    (h : propagateNewEdge fuel stn newEdge m = some (Except.ok (stn1, m1))) :
    sameCore stn1 stn ∧ modelEvolves stn.identityWriter m m1 := by
  unfold propagateNewEdge at h
  cases hc : stn.constraints.constraints[newEdge]? with
  | none => rw [hc] at h; simp at h
  | some c =>
    rw [hc] at h
    dsimp only at h
    cases hset : setBound m c.target (getBound m c.source + c.weight)
        (Cause.Inference { writer := stn.identityWriter, payload := 2 * newEdge }) with
    | error v => rw [hset] at h; simp at h
    | ok pr =>
      obtain ⟨b, m2⟩ := pr
      rw [hset] at h
      cases b with
      | false =>
        dsimp only at h
        simp only [Option.some.injEq, Except.ok.injEq, Prod.mk.injEq] at h
        rw [← h.1, ← h.2]
        exact ⟨sameCore_refl stn, setBound_ok_evolve hset (by simp [selfAuthored])⟩
      | true =>
        dsimp only at h
        obtain ⟨hc1, he1, _⟩ := runPropagationLoop_core h
        exact ⟨hc1, modelEvolves_trans (setBound_ok_evolve hset (by simp [selfAuthored])) he1⟩

lemma drainEvents_causes_eq {fuel : Nat} {stn stn1 : IncStn} {m m1 : DomainsModel}
    (h : drainEvents fuel stn m = some (Except.ok (stn1, m1))) :
    stn1.theoryPropagationCauses = stn.theoryPropagationCauses := by
  induction fuel generalizing stn m with
  | zero => unfold drainEvents at h; simp at h
  | succ fuel ih =>
    unfold drainEvents at h
    cases hpop : cursorPop (stnCursor stn) m.trail with
    | mk c1 o =>
      cases o with
      | none =>
        rw [hpop] at h
        simp only [Option.some.injEq, Except.ok.injEq, Prod.mk.injEq] at h
        rw [← h.1]
        rfl
      | some ev =>
        rw [hpop] at h
        dsimp only at h
        by_cases hself : causeIsSelf
            ({ stnWithCursor stn c1 with
               pendingActivations := (stnWithCursor stn c1).pendingActivations ++
                 watchesOn (stnWithCursor stn c1).constraints (dEventNewLiteral ev) }) ev.cause = true
        · rw [if_pos hself] at h
          have hrec := ih h
          exact hrec
        · rw [if_neg hself] at h
          cases hbc : propagateBoundChange fuel
              ({ stnWithCursor stn c1 with
                 pendingActivations := (stnWithCursor stn c1).pendingActivations ++
                   watchesOn (stnWithCursor stn c1).constraints (dEventNewLiteral ev) })
              (dEventNewLiteral ev) m with
          | none => rw [hbc] at h; simp at h
          | some r =>
            cases r with
            | error e => rw [hbc] at h; simp at h
            | ok pr =>
              obtain ⟨stn3, m3⟩ := pr
              rw [hbc] at h
              dsimp only at h
              have := (propagateBoundChange_core hbc).1.2.2.2.2.2.2.2
              rw [ih h, this]
              rfl

lemma drainActivations_causes_mono {fuel : Nat} {stn stn1 : IncStn} {m m1 : DomainsModel}
    (h : drainActivations fuel stn m = some (Except.ok (stn1, m1))) :
    stn.theoryPropagationCauses.length ≤ stn1.theoryPropagationCauses.length := by
  induction fuel generalizing stn m with
  | zero => unfold drainActivations at h; simp at h
  | succ fuel ih =>
    unfold drainActivations at h
    cases hpa : stn.pendingActivations with
    | nil =>
      rw [hpa] at h
      simp only [Option.some.injEq, Except.ok.injEq, Prod.mk.injEq] at h
      rw [← h.1]
    | cons edge rest =>
      rw [hpa] at h
      dsimp only at h
      cases hc : stn.constraints.constraints[edge]? with
      | none => rw [hc] at h; simp at h
      | some c =>
        rw [hc] at h
        dsimp only at h
        by_cases hact : c.active = true
        · rw [if_pos hact] at h
          have hrec := ih h
          exact hrec
        · rw [if_neg hact] at h
          by_cases hst : c.source = c.target
          · rw [if_pos hst] at h
            by_cases htight : bvaIsTightening c.weight = true
            · rw [if_pos htight] at h
              split at h <;> simp at h
            · rw [if_neg htight] at h
              have hrec := ih h
              exact hrec
          · rw [if_neg hst] at h
            cases hpn : propagateNewEdge fuel
                { stn with pendingActivations := rest,
                           constraints := dbModify stn.constraints edge
                             (fun c0 => { c0 with active := true }),
                           activePropagators := pushPropagator stn.activePropagators c.source
                             { target := c.target, weight := c.weight, id := edge },
                           trail := stn.trail ++ [StnEvent.EdgeActivated edge] } edge m with
            | none => rw [hpn] at h; simp at h
            | some r =>
              cases r with
              | error e => rw [hpn] at h; simp at h
              | ok pr =>
                obtain ⟨stn4, m4⟩ := pr
                rw [hpn] at h
                dsimp only at h
                cases htp : theoryPropagation fuel stn4 edge m4 with
                | none => rw [htp] at h; simp at h
                | some r2 =>
                  cases r2 with
                  | error e => rw [htp] at h; simp at h
                  | ok pr2 =>
                    obtain ⟨stn5, m5⟩ := pr2
                    rw [htp] at h
                    dsimp only at h
                    have h4 := (propagateNewEdge_core hpn).1.2.2.2.2.2.2.2
                    have h5 := (theoryPropagation_silent htp).1
                    have h6 := ih h
                    have h4l : stn4.theoryPropagationCauses.length =
                        stn.theoryPropagationCauses.length := by rw [h4]
                    omega

lemma propagateAll_causes_mono {fuel : Nat} {stn stn1 : IncStn} {m m1 : DomainsModel}
    (h : propagateAll fuel stn m = some (Except.ok (stn1, m1))) :
    stn.theoryPropagationCauses.length ≤ stn1.theoryPropagationCauses.length := by
  induction fuel generalizing stn m with
  | zero => unfold propagateAll at h; simp at h
  | succ fuel ih =>
    unfold propagateAll at h
    dsimp only at h
    by_cases hcond : m.trail.events.length - (cursorSync (stnCursor stn) m.trail).nextRead = 0 ∧
        (stnWithCursor stn (cursorSync (stnCursor stn) m.trail)).pendingActivations.isEmpty = true
    · rw [if_pos hcond] at h
      simp only [Option.some.injEq, Except.ok.injEq, Prod.mk.injEq] at h
      rw [← h.1]
      exact le_refl _
    · rw [if_neg hcond] at h
      cases hde : drainEvents fuel (stnWithCursor stn (cursorSync (stnCursor stn) m.trail)) m with
      | none => rw [hde] at h; simp at h
      | some r =>
        cases r with
        | error e => rw [hde] at h; simp at h
        | ok pr =>
          obtain ⟨stn2, m2⟩ := pr
          rw [hde] at h
          dsimp only at h
          cases hda : drainActivations fuel stn2 m2 with
          | none => rw [hda] at h; simp at h
          | some r2 =>
            cases r2 with
            | error e => rw [hda] at h; simp at h
            | ok pr2 =>
              obtain ⟨stn3, m3⟩ := pr2
              rw [hda] at h
              dsimp only at h
              have h1 := drainEvents_causes_eq hde
              have h2 := drainActivations_causes_mono hda
              have h3 := ih h
              have h1l : stn2.theoryPropagationCauses.length =
                  stn.theoryPropagationCauses.length := by rw [h1]; rfl
              omega

lemma wfStn_transport {a b : IncStn} {m m2 : DomainsModel} (h : wfStn a m)
    (hc : b.constraints = a.constraints) (hap : b.activePropagators = a.activePropagators)
    (hlen : m2.bounds.length = m.bounds.length) : wfStn b m2 := by
  obtain ⟨h1, h2, h3, h4, h5, h6⟩ := h
  have hcc : b.constraints.constraints = a.constraints.constraints :=
    congrArg ConstraintDb.constraints hc
  refine ⟨?_, ?_, ?_, ?_, ?_, ?_⟩
  · intro e he ha hne
    have hdc : dcAt b e = dcAt a e := dcAt_congr hc e
    rw [hdc] at ha hne ⊢
    rw [activeProps_congr hap]
    rw [hcc] at he
    exact h1 e he ha hne
  · intro c hcm
    rw [hcc] at hcm
    exact h2 c hcm
  · intro c hcm
    rw [hcc] at hcm
    rw [hap]
    exact h3 c hcm
  · intro c hcm
    rw [hcc] at hcm
    rw [hlen]
    exact h4 c hcm
  · intro l hl p hp
    rw [hap] at hl
    rw [hlen]
    exact h5 l hl p hp
  · rw [hap]
    exact h6

lemma propagateNewEdge_ok {fuel : Nat} {stn stn1 : IncStn} {newEdge : Nat}
    {m m1 : DomainsModel} {w nr : Nat} {cNew : DirConstraint}
    (h : propagateNewEdge fuel stn newEdge m = some (Except.ok (stn1, m1)))
    (hw : stn.identityWriter = w)
    (hq : stn.internalPropagateQueue = [])
    (hp : stn.pendingUpdates = [])
    (hcnew : stn.constraints.constraints[newEdge]? = some cNew)
    (hnewtgt : cNew.target < m.bounds.length)
    (hnewne : cNew.source ≠ cNew.target)
    (hcomp : ∀ e, e < stn.constraints.constraints.length → (dcAt stn e).active = true →
       (dcAt stn e).source ≠ (dcAt stn e).target →
       mkProp e (dcAt stn e) ∈ activeProps stn (dcAt stn e).source)
    (hselfnn : ∀ c ∈ stn.constraints.constraints, c.active = true → c.source = c.target →
       0 ≤ c.weight)
    (htgtAP : ∀ l ∈ stn.activePropagators, ∀ p ∈ l, p.target < m.bounds.length)
    (hinv : ∀ c ∈ stn.constraints.constraints, c.active = true →
       dirIneq m c ∨ extPendingFrom w m.trail nr c.source ∨ c = cNew) :
    stn1.internalPropagateQueue = [] ∧ stn1.pendingUpdates = [] ∧
    ∀ c ∈ stn.constraints.constraints, c.active = true →
      dirIneq m1 c ∨ extPendingFrom w m1.trail nr c.source := by
  unfold propagateNewEdge at h
  rw [hcnew] at h
  dsimp only at h
  cases hset : setBound m cNew.target (getBound m cNew.source + cNew.weight)
      (Cause.Inference { writer := stn.identityWriter, payload := 2 * newEdge }) with
  | error v => rw [hset] at h; simp at h
  | ok pr =>
    obtain ⟨b, m2⟩ := pr
    rw [hset] at h
    cases b with
    | false =>
      dsimp only at h
      simp only [Option.some.injEq, Except.ok.injEq, Prod.mk.injEq] at h
      obtain ⟨hm2, hle⟩ := setBound_ok_false_eq hset
      subst hm2
      refine ⟨by rw [← h.1]; exact hq, by rw [← h.1]; exact hp, ?_⟩
      intro c hc ha
      rw [← h.2]
      rcases hinv c hc ha with hdi | hext | hnew
      · exact Or.inl hdi
      · exact Or.inr hext
      · subst hnew
        exact Or.inl hle
    | true =>
      dsimp only at h
      have hev2 : modelEvolves w m m2 := setBound_ok_evolve hset (by rw [hw]; simp [selfAuthored])
      obtain ⟨hfp, hfi⟩ := @runPropagationLoop_ok fuel stn stn1 cNew.target m2 m1 true w nr h hw hp
        (fun e he ha hne => hcomp e he ha hne)
        (fun c hc ha hst => hselfnn c hc ha hst)
        (by
          intro l hl p hp2
          rw [(setBound_ok_length hset)]
          exact htgtAP l hl p hp2)
        (by
          intro c hc ha
          rcases hinv c hc ha with hdi | hext | hnew
          · by_cases hcs : c.source = cNew.target
            · exact Or.inr (Or.inr hcs)
            · left
              unfold dirIneq at hdi ⊢
              have h1 := setBound_ok_le hset c.target
              have h2 := setBound_ok_unchanged_of_ne hset hcs
              omega
          · exact Or.inr (Or.inl (extPendingFrom_mono hev2 hext))
          · subst hnew
            left
            unfold dirIneq
            have h1 := setBound_ok_tight_set hset hnewtgt
            have h2 := setBound_ok_unchanged_of_ne hset hnewne
            omega)
      refine ⟨(runPropagationLoop_core h).2.2, hfp, ?_⟩
      intro c hc ha
      exact hfi c hc ha

lemma wfStn_activate {stn b : IncStn} {m : DomainsModel} {edge : Nat} {c : DirConstraint}
    (hwf : wfStn stn m)
    (hc : stn.constraints.constraints[edge]? = some c)
    (hst : c.source ≠ c.target)
    (hbc : b.constraints.constraints =
      stn.constraints.constraints.set edge { c with active := true })
    (hbap : b.activePropagators = pushPropagator stn.activePropagators c.source
      { target := c.target, weight := c.weight, id := edge }) :
    wfStn b m := by
  obtain ⟨hcomp, hselfnn, hsrc, hDBtgt, hAPt, heven⟩ := hwf
  have hclt := list_getElem?_some_lt _ _ _ hc
  have hcmem := list_getElem?_some_mem _ _ _ hc
  have hsrclt := hsrc c hcmem
  refine ⟨?_, ?_, ?_, ?_, ?_, ?_⟩
  · intro e he ha hne
    have hlen : e < stn.constraints.constraints.length := by
      rw [show b.constraints.constraints.length =
          stn.constraints.constraints.length from by rw [hbc]; simp] at he
      exact he
    by_cases hee : e = edge
    · subst hee
      have hdcb : dcAt b e = { c with active := true } := by
        unfold dcAt
        rw [hbc, list_getD_eq, list_getElem?_set_self _ _ _ hclt]
        rfl
      rw [hdcb]
      unfold activeProps
      rw [hbap]
      unfold pushPropagator
      dsimp only
      rw [list_getD_set_append_self _ _ _ hsrclt]
      exact List.mem_append_right _ (List.mem_singleton_self _)
    · have hdcb : dcAt b e = dcAt stn e := by
        unfold dcAt
        rw [hbc, list_getD_eq, list_getD_eq,
          list_getElem?_set_ne _ _ _ _ (fun hh => hee hh.symm)]
      rw [hdcb] at ha hne ⊢
      have hbase := hcomp e hlen ha hne
      unfold activeProps at hbase ⊢
      rw [hbap]
      unfold pushPropagator
      by_cases hss : (dcAt stn e).source = c.source
      · rw [hss, list_getD_set_append_self _ _ _ hsrclt]
        rw [hss] at hbase
        exact List.mem_append_left _ hbase
      · rw [list_getD_set_ne _ _ _ _ (fun hh => hss hh.symm)]
        exact hbase
  · intro c2 hmem ha2 hst2
    rw [hbc] at hmem
    rcases List.mem_or_eq_of_mem_set hmem with h1 | h1
    · exact hselfnn c2 h1 ha2 hst2
    · rw [h1] at hst2
      exact absurd hst2 hst
  · intro c2 hmem
    rw [hbc] at hmem
    rw [hbap]
    unfold pushPropagator
    simp only [List.length_set]
    rcases List.mem_or_eq_of_mem_set hmem with h1 | h1
    · exact hsrc c2 h1
    · rw [h1]
      exact hsrclt
  · intro c2 hmem
    rw [hbc] at hmem
    rcases List.mem_or_eq_of_mem_set hmem with h1 | h1
    · exact hDBtgt c2 h1
    · rw [h1]
      exact hDBtgt c hcmem
  · intro l hl p hp2
    rw [hbap] at hl
    unfold pushPropagator at hl
    rcases List.mem_or_eq_of_mem_set hl with h1 | h1
    · exact hAPt l h1 p hp2
    · rw [h1] at hp2
      rcases List.mem_append.mp hp2 with h2 | h2
      · rw [list_getD_eq] at h2
        cases hgl : stn.activePropagators[c.source]? with
        | none => rw [hgl] at h2; exact absurd h2 (by simp)
        | some l0 =>
          rw [hgl] at h2
          exact hAPt l0 (list_getElem?_some_mem _ _ _ hgl) p h2
      · rw [List.mem_singleton.mp h2]
        exact hDBtgt c hcmem
  · rw [hbap]
    unfold pushPropagator
    simp only [List.length_set]
    exact heven

lemma wfStn_activate_self {stn b : IncStn} {m : DomainsModel} {edge : Nat} {c : DirConstraint}
    (hwf : wfStn stn m)
    (hc : stn.constraints.constraints[edge]? = some c)
    (hst : c.source = c.target)
    (hwnn : 0 ≤ c.weight)
    (hbc : b.constraints.constraints =
      stn.constraints.constraints.set edge { c with active := true })
    (hbap : b.activePropagators = stn.activePropagators) :
    wfStn b m := by
  obtain ⟨hcomp, hselfnn, hsrc, hDBtgt, hAPt, heven⟩ := hwf
  have hclt := list_getElem?_some_lt _ _ _ hc
  have hcmem := list_getElem?_some_mem _ _ _ hc
  refine ⟨?_, ?_, ?_, ?_, ?_, ?_⟩
  · intro e he ha hne
    have hlen : e < stn.constraints.constraints.length := by
      rw [show b.constraints.constraints.length =
          stn.constraints.constraints.length from by rw [hbc]; simp] at he
      exact he
    by_cases hee : e = edge
    · subst hee
      have hdcb : dcAt b e = { c with active := true } := by
        unfold dcAt
        rw [hbc, list_getD_eq, list_getElem?_set_self _ _ _ hclt]
        rfl
      rw [hdcb] at ha hne ⊢
      exfalso
      dsimp only at hne
      exact hne hst
    · have hdcb : dcAt b e = dcAt stn e := by
        unfold dcAt
        rw [hbc, list_getD_eq, list_getD_eq,
          list_getElem?_set_ne _ _ _ _ (fun hh => hee hh.symm)]
      rw [hdcb] at ha hne ⊢
      unfold activeProps
      rw [hbap]
      exact hcomp e hlen ha hne
  · exact fun c2 hmem ha2 hst2 => by
      rw [hbc] at hmem
      rcases List.mem_or_eq_of_mem_set hmem with h1 | h1
      · exact hselfnn c2 h1 ha2 hst2
      · rw [h1]
        exact hwnn
  · intro c2 hmem
    rw [hbc] at hmem
    rw [hbap]
    rcases List.mem_or_eq_of_mem_set hmem with h1 | h1
    · exact hsrc c2 h1
    · rw [h1]
      exact hsrc c hcmem
  · intro c2 hmem
    rw [hbc] at hmem
    rcases List.mem_or_eq_of_mem_set hmem with h1 | h1
    · exact hDBtgt c2 h1
    · rw [h1]
      exact hDBtgt c hcmem
  · intro l hl p hp2
    rw [hbap] at hl
    exact hAPt l hl p hp2
  · rw [hbap]
    exact heven

lemma drainActivations_ok {fuel : Nat} {stn stn1 : IncStn} {m m1 : DomainsModel} {w nr : Nat}
    (h : drainActivations fuel stn m = some (Except.ok (stn1, m1)))
    (hcauses : stn1.theoryPropagationCauses.length = stn.theoryPropagationCauses.length)
    (hw : stn.identityWriter = w)
    (hq : stn.internalPropagateQueue = [])
    (hp : stn.pendingUpdates = [])
    (hwf : wfStn stn m)
    (hinv : ∀ c ∈ stn.constraints.constraints, c.active = true →
       dirIneq m c ∨ extPendingFrom w m.trail nr c.source) :
    stn1.identityWriter = stn.identityWriter ∧
    stn1.modelEventsNextRead = stn.modelEventsNextRead ∧
    stn1.modelEventsLastBt = stn.modelEventsLastBt ∧
    stn1.internalPropagateQueue = [] ∧
    stn1.pendingUpdates = [] ∧
    modelEvolves w m m1 ∧
    wfStn stn1 m1 ∧
    (∀ c ∈ stn1.constraints.constraints, c.active = true →
       dirIneq m1 c ∨ extPendingFrom w m1.trail nr c.source) := by
  induction fuel generalizing stn m with
  | zero => unfold drainActivations at h; simp at h
  | succ fuel ih =>
    unfold drainActivations at h
    cases hpa : stn.pendingActivations with
    | nil =>
      rw [hpa] at h
      simp only [Option.some.injEq, Except.ok.injEq, Prod.mk.injEq] at h
      obtain ⟨h1, h2⟩ := h
      subst h1
      subst h2
      exact ⟨rfl, rfl, rfl, hq, hp, modelEvolves_refl w m, hwf, hinv⟩
    | cons edge rest =>
      rw [hpa] at h
      dsimp only at h
      cases hc : stn.constraints.constraints[edge]? with
      | none => rw [hc] at h; simp at h
      | some c =>
        rw [hc] at h
        dsimp only at h
        have hcmem : c ∈ stn.constraints.constraints := list_getElem?_some_mem _ _ _ hc
        have hclt : edge < stn.constraints.constraints.length := list_getElem?_some_lt _ _ _ hc
        have hdbm : dbModify stn.constraints edge (fun c0 => { c0 with active := true }) =
            { stn.constraints with
              constraints := stn.constraints.constraints.set edge { c with active := true } } := by
          unfold dbModify
          rw [hc]
        by_cases hact : c.active = true
        · rw [if_pos hact] at h
          obtain ⟨g1, g2, g3, g4, g5, g6, g7, g8⟩ := ih h hcauses hw hq hp hwf hinv
          exact ⟨g1, g2, g3, g4, g5, g6, g7, g8⟩
        · rw [if_neg hact] at h
          by_cases hst : c.source = c.target
          · rw [if_pos hst] at h
            by_cases htight : bvaIsTightening c.weight = true
            · rw [if_pos htight] at h
              split at h <;> simp at h
            · rw [if_neg htight] at h
              have hwnn : 0 ≤ c.weight := by
                unfold bvaIsTightening at htight
                simp only [decide_eq_true_eq] at htight
                omega
              have hbc2 : ({ stn with
                  pendingActivations := rest,
                  constraints := dbModify stn.constraints edge
                    (fun c0 => { c0 with active := true }) } :
                    IncStn).constraints.constraints =
                  stn.constraints.constraints.set edge { c with active := true } := by
                dsimp only
                rw [hdbm]
              have hwf2 := wfStn_activate_self hwf hc hst hwnn hbc2 rfl
              obtain ⟨g1, g2, g3, g4, g5, g6, g7, g8⟩ := ih h hcauses hw hq hp hwf2
                (by
                  intro c2 hmem ha2
                  rw [hbc2] at hmem
                  rcases List.mem_or_eq_of_mem_set hmem with h1 | h1
                  · exact hinv c2 h1 ha2
                  · left
                    rw [h1]
                    unfold dirIneq
                    dsimp only
                    rw [hst]
                    omega)
              exact ⟨g1, g2, g3, g4, g5, g6, g7, g8⟩
          · rw [if_neg hst] at h
            cases hpn : propagateNewEdge fuel
                { stn with pendingActivations := rest,
                           constraints := dbModify stn.constraints edge
                             (fun c0 => { c0 with active := true }),
                           activePropagators := pushPropagator stn.activePropagators c.source
                             { target := c.target, weight := c.weight, id := edge },
                           trail := stn.trail ++ [StnEvent.EdgeActivated edge] } edge m with
            | none => rw [hpn] at h; simp at h
            | some r =>
              cases r with
              | error e => rw [hpn] at h; simp at h
              | ok pr =>
                obtain ⟨stn4, m4⟩ := pr
                rw [hpn] at h
                dsimp only at h
                cases htp : theoryPropagation fuel stn4 edge m4 with
                | none => rw [htp] at h; simp at h
                | some r2 =>
                  cases r2 with
                  | error e => rw [htp] at h; simp at h
                  | ok pr2 =>
                    obtain ⟨stn5, m5⟩ := pr2
                    rw [htp] at h
                    dsimp only at h
                    obtain ⟨hcore4, hev4a⟩ := propagateNewEdge_core hpn
                    obtain ⟨e41, e42, e43, e44, e45, e46, e47, e48⟩ := hcore4
                    have h4len : stn4.theoryPropagationCauses.length =
                        stn.theoryPropagationCauses.length := by rw [e48]
                    obtain ⟨htple, htpsil⟩ := theoryPropagation_silent htp
                    have h5mono := drainActivations_causes_mono h
                    obtain ⟨hs5, hm5⟩ := htpsil (by omega)
                    have hs5b : stn4 = stn5 := hs5.symm
                    have hm5b : m4 = m5 := hm5.symm
                    subst hs5b
                    subst hm5b
                    have hev4 : modelEvolves w m m4 := by
                      have he2 : modelEvolves stn.identityWriter m m4 := hev4a
                      rw [hw] at he2
                      exact he2
                    have hbc3 : ({ stn with
                        pendingActivations := rest,
                        constraints := dbModify stn.constraints edge
                          (fun c0 => { c0 with active := true }),
                        activePropagators := pushPropagator stn.activePropagators c.source
                          { target := c.target, weight := c.weight, id := edge },
                        trail := stn.trail ++ [StnEvent.EdgeActivated edge] } :
                          IncStn).constraints.constraints =
                        stn.constraints.constraints.set edge { c with active := true } := by
                      dsimp only
                      rw [hdbm]
                    have hc3 : ({ stn with
                        pendingActivations := rest,
                        constraints := dbModify stn.constraints edge
                          (fun c0 => { c0 with active := true }),
                        activePropagators := pushPropagator stn.activePropagators c.source
                          { target := c.target, weight := c.weight, id := edge },
                        trail := stn.trail ++ [StnEvent.EdgeActivated edge] } :
                          IncStn).constraints.constraints[edge]? =
                        some { c with active := true } := by
                      rw [hbc3]
                      exact list_getElem?_set_self _ _ _ hclt
                    have hwf3 := wfStn_activate hwf hc hst hbc3 rfl
                    obtain ⟨hq4, hp4, hinv4⟩ := @propagateNewEdge_ok fuel _ stn4 edge m m4 w nr
                      { c with active := true } hpn hw hq hp hc3
                      (hwf.2.2.2.1 c hcmem) (by dsimp only; exact hst)
                      hwf3.1 hwf3.2.1 hwf3.2.2.2.2.1
                      (by
                        intro c2 hmem ha2
                        rw [hbc3] at hmem
                        rcases List.mem_or_eq_of_mem_set hmem with h1 | h1
                        · rcases hinv c2 h1 ha2 with hdi | hext
                          · exact Or.inl hdi
                          · exact Or.inr (Or.inl hext)
                        · exact Or.inr (Or.inr h1))
                    have hcauses4 : stn1.theoryPropagationCauses.length =
                        stn4.theoryPropagationCauses.length := by omega
                    have hw4 : stn4.identityWriter = w := by
                      rw [e45]
                      exact hw
                    have hwf4 : wfStn stn4 m4 := wfStn_transport hwf3 e41 e42 hev4.1
                    obtain ⟨f1, f2, f3, f4, f5, f6, f7, f8⟩ := ih h hcauses4 hw4 hq4 hp4 hwf4
                      (by
                        intro c2 hmem ha2
                        have hmem2 := hmem
                        rw [congrArg ConstraintDb.constraints e41] at hmem2
                        exact hinv4 c2 hmem2 ha2)
                    refine ⟨?_, ?_, ?_, f4, f5, modelEvolves_trans hev4 f6, f7, f8⟩
                    · rw [f1, e45]
                    · rw [f2, e46]
                    · rw [f3, e47]

lemma drainEvents_ok {fuel : Nat} {stn stn1 : IncStn} {m m1 : DomainsModel} {w : Nat}
    (h : drainEvents fuel stn m = some (Except.ok (stn1, m1)))
    (hw : stn.identityWriter = w)
    (hq : stn.internalPropagateQueue = [])
    (hp : stn.pendingUpdates = [])
    (hsynced : cursorSync (stnCursor stn) m.trail = stnCursor stn)
    (hwf : wfStn stn m)
    (hinv : ∀ c ∈ stn.constraints.constraints, c.active = true →
       dirIneq m c ∨ extPendingFrom w m.trail stn.modelEventsNextRead c.source) :
    stn1.constraints = stn.constraints ∧
    stn1.activePropagators = stn.activePropagators ∧
    stn1.identityWriter = stn.identityWriter ∧
    stn1.internalPropagateQueue = [] ∧
    stn1.pendingUpdates = [] ∧
    modelEvolves w m m1 ∧
    cursorSync (stnCursor stn1) m1.trail = stnCursor stn1 ∧
    m1.trail.events.length ≤ stn1.modelEventsNextRead ∧
    (∀ c ∈ stn.constraints.constraints, c.active = true → dirIneq m1 c) := by
  induction fuel generalizing stn m with
  | zero => unfold drainEvents at h; simp at h
  | succ fuel ih =>
    unfold drainEvents at h
    cases hget : m.trail.events[stn.modelEventsNextRead]? with
    | none =>
      have hpop : cursorPop (stnCursor stn) m.trail = (stnCursor stn, none) := by
        unfold cursorPop
        dsimp only
        rw [hsynced]
        dsimp only [stnCursor]
        rw [hget]
      rw [hpop] at h
      dsimp only at h
      simp only [Option.some.injEq, Except.ok.injEq, Prod.mk.injEq] at h
      have hlen : m.trail.events.length ≤ stn.modelEventsNextRead := by
        by_contra hlt
        push_neg at hlt
        rw [List.getElem?_eq_getElem hlt] at hget
        exact Option.noConfusion hget
      have hs1 : stnWithCursor stn (stnCursor stn) = stn := rfl
      rw [hs1] at h
      obtain ⟨h1, h2⟩ := h
      subst h1
      subst h2
      refine ⟨rfl, rfl, rfl, hq, hp, modelEvolves_refl w m, hsynced, hlen, ?_⟩
      intro c hc ha
      rcases hinv c hc ha with hdi | hext
      · exact hdi
      · obtain ⟨i, hilt, hile, _⟩ := hext
        omega
    | some ev =>
      have hpop : cursorPop (stnCursor stn) m.trail =
          ({ nextRead := stn.modelEventsNextRead + 1,
             lastBacktrackSeen := stn.modelEventsLastBt }, some ev) := by
        unfold cursorPop
        dsimp only
        rw [hsynced]
        dsimp only [stnCursor]
        rw [hget]
      rw [hpop] at h
      dsimp only [stnWithCursor] at h
      have hsy2 : cursorSync
          (⟨stn.modelEventsNextRead + 1, stn.modelEventsLastBt⟩ : CursorState) m.trail =
          (⟨stn.modelEventsNextRead + 1, stn.modelEventsLastBt⟩ : CursorState) :=
        cursorSync_advance hsynced (stn.modelEventsNextRead + 1)
      by_cases hself : causeIsSelf
          ({ stn with
              pendingActivations := stn.pendingActivations ++
                watchesOn stn.constraints (dEventNewLiteral ev),
              modelEventsNextRead := stn.modelEventsNextRead + 1,
              modelEventsLastBt := stn.modelEventsLastBt }) ev.cause = true
      · rw [if_pos hself] at h
        have hselfw : selfAuthored w ev.cause = true := by
          unfold causeIsSelf at hself
          rw [← hw]
          exact hself
        obtain ⟨g1, g2, g3, g4, g5, g6, g7, g8, g9⟩ := ih h hw hq hp hsy2
          (wfStn_transport hwf rfl rfl rfl)
          (by
            intro c hc ha
            rcases hinv c hc ha with hdi | hext
            · exact Or.inl hdi
            · obtain ⟨i, hilt, hile, hany⟩ := hext
              right
              refine ⟨i, hilt, ?_, hany⟩
              show stn.modelEventsNextRead + 1 ≤ i
              rcases Nat.lt_or_ge stn.modelEventsNextRead i with h1 | h1
              · omega
              · exfalso
                have hieq : i = stn.modelEventsNextRead := by omega
                rw [hieq, hget] at hany
                unfold extEventFor at hany
                simp only [Option.any_some, Bool.and_eq_true, beq_iff_eq] at hany
                rw [hselfw] at hany
                simp at hany)
        exact ⟨g1, g2, g3, g4, g5, g6, g7, g8, g9⟩
      · rw [if_neg hself] at h
        cases hbc : propagateBoundChange fuel
            ({ stn with
                pendingActivations := stn.pendingActivations ++
                  watchesOn stn.constraints (dEventNewLiteral ev),
                modelEventsNextRead := stn.modelEventsNextRead + 1,
                modelEventsLastBt := stn.modelEventsLastBt }) (dEventNewLiteral ev) m with
        | none => rw [hbc] at h; simp at h
        | some r =>
          cases r with
          | error e => rw [hbc] at h; simp at h
          | ok pr =>
            obtain ⟨stn3, m3⟩ := pr
            rw [hbc] at h
            dsimp only at h
            obtain ⟨hcore3, hev3a⟩ := propagateBoundChange_core hbc
            obtain ⟨e1, e2, e3, e4, e5, e6, e7, e8⟩ := hcore3
            have hev3 : modelEvolves w m m3 := by
              have he2 : modelEvolves stn.identityWriter m m3 := hev3a
              rw [hw] at he2
              exact he2
            obtain ⟨hq3, hp3, hinv3⟩ := @propagateBoundChange_ok fuel _ stn3
              (dEventNewLiteral ev) m m3 w (stn.modelEventsNextRead + 1) hbc hw hq hp
              (fun e he ha hne => hwf.1 e he ha hne)
              (fun c hc ha hst => hwf.2.1 c hc ha hst)
              (fun c hc => hwf.2.2.1 c hc)
              hwf.2.2.2.2.2
              (fun l hl p hp2 => hwf.2.2.2.2.1 l hl p hp2)
              (by
                intro c hc ha
                rcases hinv c hc ha with hdi | hext
                · exact Or.inl hdi
                · obtain ⟨i, hilt, hile, hany⟩ := hext
                  rcases Nat.lt_or_ge stn.modelEventsNextRead i with h1 | h1
                  · exact Or.inr (Or.inl ⟨i, hilt, by omega, hany⟩)
                  · have hieq : i = stn.modelEventsNextRead := by omega
                    rw [hieq, hget] at hany
                    unfold extEventFor at hany
                    simp only [Option.any_some, Bool.and_eq_true, beq_iff_eq] at hany
                    exact Or.inr (Or.inr hany.1.symm))
            have hcur3 : stnCursor stn3 =
                (⟨stn.modelEventsNextRead + 1, stn.modelEventsLastBt⟩ : CursorState) := by
              unfold stnCursor
              rw [e6, e7]
            have hsy3 : cursorSync (stnCursor stn3) m3.trail = stnCursor stn3 := by
              rw [hcur3]
              exact cursorSync_of_trail_eq _ hev3.2.2.2.1 hsy2
            have hw3 : stn3.identityWriter = w := by
              rw [e5]
              exact hw
            have hwf3 : wfStn stn3 m3 :=
              wfStn_transport (wfStn_transport hwf rfl rfl rfl) e1 e2 hev3.1
            obtain ⟨g1, g2, g3, g4, g5, g6, g7, g8, g9⟩ := ih h hw3 hq3 hp3 hsy3 hwf3
              (by
                intro c hc ha
                have hc2 : c ∈ stn.constraints.constraints := by
                  rw [congrArg ConstraintDb.constraints e1] at hc
                  exact hc
                have hres := hinv3 c hc2 ha
                rw [e6]
                exact hres)
            refine ⟨?_, ?_, ?_, g4, g5, modelEvolves_trans hev3 g6, g7, g8, ?_⟩
            · rw [g1, e1]
            · rw [g2, e2]
            · rw [g3, e5]
            · intro c hc ha
              apply g9 c _ ha
              rw [congrArg ConstraintDb.constraints e1]
              exact hc

lemma propagateAll_ok {fuel : Nat} {stn stn1 : IncStn} {m m1 : DomainsModel} {w : Nat}
    (h : propagateAll fuel stn m = some (Except.ok (stn1, m1)))
    (hcauses : stn1.theoryPropagationCauses.length = stn.theoryPropagationCauses.length)
    (hw : stn.identityWriter = w)
    (hq : stn.internalPropagateQueue = [])
    (hp : stn.pendingUpdates = [])
    (hwf : wfStn stn m)
    (hinv : ∀ c ∈ stn.constraints.constraints, c.active = true →
       dirIneq m c ∨ extPendingFrom w m.trail
         (effNextRead (stnCursor stn) m.trail) c.source) :
    ∀ c ∈ stn1.constraints.constraints, c.active = true → dirIneq m1 c := by
  induction fuel generalizing stn m with
  | zero => unfold propagateAll at h; simp at h
  | succ fuel ih =>
    unfold propagateAll at h
    dsimp only at h
    by_cases hcond : m.trail.events.length - (cursorSync (stnCursor stn) m.trail).nextRead = 0 ∧
        (stnWithCursor stn (cursorSync (stnCursor stn) m.trail)).pendingActivations.isEmpty = true
    · rw [if_pos hcond] at h
      simp only [Option.some.injEq, Except.ok.injEq, Prod.mk.injEq] at h
      obtain ⟨h1, h2⟩ := h
      subst h1
      subst h2
      intro c hc ha
      rcases hinv c hc ha with hdi | hext
      · exact hdi
      · obtain ⟨i, hilt, hile, _⟩ := hext
        have hnr : effNextRead (stnCursor stn) m.trail =
            (cursorSync (stnCursor stn) m.trail).nextRead := rfl
        rw [hnr] at hile
        omega
    · rw [if_neg hcond] at h
      cases hde : drainEvents fuel (stnWithCursor stn (cursorSync (stnCursor stn) m.trail)) m with
      | none => rw [hde] at h; simp at h
      | some r =>
        cases r with
        | error e => rw [hde] at h; simp at h
        | ok pr =>
          obtain ⟨stn2, m2⟩ := pr
          rw [hde] at h
          dsimp only at h
          cases hda : drainActivations fuel stn2 m2 with
          | none => rw [hda] at h; simp at h
          | some r2 =>
            cases r2 with
            | error e => rw [hda] at h; simp at h
            | ok pr2 =>
              obtain ⟨stn3, m3⟩ := pr2
              rw [hda] at h
              dsimp only at h
              obtain ⟨d1, d2, d3, d4, d5, d6, d7, d8, d9⟩ := drainEvents_ok hde hw hq hp
                (cursorSync_idem _ _) (wfStn_transport hwf rfl rfl rfl)
                (fun c hc ha => hinv c hc ha)
              have hceq := drainEvents_causes_eq hde
              have hceql : stn2.theoryPropagationCauses.length =
                  stn.theoryPropagationCauses.length := by rw [hceq]; rfl
              have hdam := drainActivations_causes_mono hda
              have hrecm := propagateAll_causes_mono h
              have hw2 : stn2.identityWriter = w := by
                rw [d3]
                exact hw
              obtain ⟨a1, a2, a3, a4, a5, a6, a7, a8⟩ := drainActivations_ok hda
                (by omega) hw2 d4 d5 (wfStn_transport (wfStn_transport hwf rfl rfl rfl) d1 d2 d6.1)
                (by
                  intro c hc ha
                  left
                  apply d9 c _ ha
                  rw [← congrArg ConstraintDb.constraints d1]
                  exact hc)
              have hcur3 : stnCursor stn3 = stnCursor stn2 := by
                unfold stnCursor
                rw [a2, a3]
              have hsy3 : cursorSync (stnCursor stn3) m3.trail = stnCursor stn3 := by
                rw [hcur3]
                exact cursorSync_of_trail_eq _ a6.2.2.2.1 d7
              have heff : effNextRead (stnCursor stn3) m3.trail = stn2.modelEventsNextRead := by
                unfold effNextRead
                rw [hsy3, hcur3]
                rfl
              have hw3 : stn3.identityWriter = w := by
                rw [a1]
                exact hw2
              exact ih h (by omega) hw3 a4 a5 a7
                (by
                  intro c hc ha
                  rcases a8 c hc ha with hdi | hext
                  · exact Or.inl hdi
                  · rw [heff]
                    exact Or.inr hext)

/-- C1 (amended): if `propagate_all` returns Ok from a well-formed quiescent
state (empty internal queue and pending set, active constraints backed by
registered propagators) in which every active directed constraint either
satisfies its inequality or has an unread external bound change on its
source pending, and the run records no theory-propagation cause, then
afterwards every active directed constraint `(source, target, weight)`
satisfies `bound(target) ≤ bound(source) + weight`; read on the two
directions of an edge `t - s ≤ w` this gives `ub(t) ≤ ub(s) + w` and
`lb(s) ≥ lb(t) - w` — the opposite sense of the claimed `lb(s) ≤ lb(t) - w`. -/
theorem c1_active_edges_sound
    (fuel : Nat) (stn stn1 : IncStn) (m m1 : DomainsModel)
    (hrun : propagateAll fuel stn m = some (Except.ok (stn1, m1)))
    (hcauses : stn1.theoryPropagationCauses.length = stn.theoryPropagationCauses.length)
    (hq : stn.internalPropagateQueue = [])
    (hp : stn.pendingUpdates = [])
    (hwf : wfStn stn m)
    (hinv : activeSound stn m (effNextRead (stnCursor stn) m.trail)) :
    (∀ c ∈ stn1.constraints.constraints, c.active = true → dirIneq m1 c) ∧
    (∀ s t : Nat, ∀ wt : Int, ∀ c ∈ stn1.constraints.constraints, c.active = true →
       c.source = vbUb s → c.target = vbUb t → c.weight = wt →
       ubOf m1 t ≤ ubOf m1 s + wt) ∧
    (∀ s t : Nat, ∀ wt : Int, ∀ c ∈ stn1.constraints.constraints, c.active = true →
       c.source = vbLb t → c.target = vbLb s → c.weight = wt →
       lbOf m1 s ≥ lbOf m1 t - wt) := by
  have hmain := propagateAll_ok hrun hcauses rfl hq hp hwf hinv
  refine ⟨hmain, ?_, ?_⟩
  · intro s t wt c hc ha hsrc htgt hwt
    have hdi := hmain c hc ha
    unfold dirIneq at hdi
    rw [hsrc, htgt, hwt] at hdi
    exact hdi
  · intro s t wt c hc ha hsrc htgt hwt
    have hdi := hmain c hc ha
    unfold dirIneq at hdi
    rw [hsrc, htgt, hwt] at hdi
    unfold lbOf
    omega

/-- C1 witness: in the scenario of the counterexample (edge `2 - 1 ≤ 5`
always active, `ub(1)` tightened to 3 by a decision on the trail), the
amended invariant yields `ub(2) ≤ ub(1) + 5` and `lb(1) ≥ lb(2) - 5`
after the Ok propagation. -/
theorem c1_active_edges_sound_witness :
    ubOf c1MF 2 ≤ ubOf c1MF 1 + 5 ∧ lbOf c1MF 1 ≥ lbOf c1MF 2 - 5 := by
  have hmain := c1_active_edges_sound 30 c1Stn1 c1StnF c1M0 c1MF rfl rfl (by decide) (by decide)
    (by decide) (by decide)
  exact ⟨hmain.2.1 1 2 5
    { active := true, source := 3, target := 5, weight := 5,
      alwaysActive := true, enablers := [] } (by decide) rfl (by decide) (by decide) rfl,
   hmain.2.2 1 2 5
    { active := true, source := 4, target := 2, weight := 5,
      alwaysActive := true, enablers := [] } (by decide) rfl (by decide) (by decide) rfl⟩
